import Mathlib

set_option maxHeartbeats 1000000

namespace Querium

/-!
Shallow embedding of the Querium in-memory indexed collection
(`Querium.ts` / `Querium.js` and `types.ts`).

Modelling conventions, fixed once for the whole development:

* JS values are modelled by `Val` below.  JS numbers are modelled as
  integers (`Int`); non-integral, `NaN` and infinite numbers are out of
  scope of this embedding.  String coercion of numeric strings
  (`ToNumber("1.5")` etc.) is likewise modelled only for integral
  literals.
* JS `Map` and `Set` preserve insertion order; they are modelled as
  association lists / lists with "append if absent" insertion and
  in-place replacement, which reproduces that order.
* `===` on JS objects and arrays is reference equality, which a
  structural model cannot represent; `jsStrictEq` returns `false` for
  two arrays/objects, which corresponds to comparing values that are
  not aliases of one another (record identifiers are scalars in all the
  situations the claims are about).
* `null`-vs-array relational comparisons would throw a `TypeError` in
  JS (`null.length`); the embedding treats the `.length` of such values
  as `undefined` instead.  No claim exercises that path.
-/

/-- JS values as stored and queried by the collection: `null`,
`undefined`, integral numbers, booleans, strings, arrays, and plain
objects (association list of fields in insertion order). -/
inductive Val : Type where
  | vnull : Val
  | vundef : Val
  | vint : Int → Val
  | vbool : Bool → Val
  | vstr : String → Val
  | varr : List Val → Val
  | vobj : List (String × Val) → Val
deriving Repr

namespace Val

/-- Structural decidable equality for `Val` (used by the meta-theory;
JS `===` is the separate `jsStrictEq` below). -/
def beqVal : Val → Val → Bool
  | vnull, vnull => true
  | vundef, vundef => true
  | vint a, vint b => a == b
  | vbool a, vbool b => a == b
  | vstr a, vstr b => a == b
  | varr xs, varr ys => beqList xs ys
  | vobj xs, vobj ys => beqFields xs ys
  | _, _ => false
where
  beqList : List Val → List Val → Bool
    | [], [] => true
    | x :: xs, y :: ys => beqVal x y && beqList xs ys
    | _, _ => false
  beqFields : List (String × Val) → List (String × Val) → Bool
    | [], [] => true
    | (k, x) :: xs, (l, y) :: ys => k == l && beqVal x y && beqFields xs ys
    | _, _ => false
termination_by structural v => v

/-- Structural induction principle for the nested inductive `Val`. -/
def inductionOn {P : Val → Prop}
    (hnull : P vnull) (hundef : P vundef)
    (hint : ∀ n, P (vint n)) (hbool : ∀ b, P (vbool b)) (hstr : ∀ s, P (vstr s))
    (harr : ∀ xs, (∀ x ∈ xs, P x) → P (varr xs))
    (hobj : ∀ fs, (∀ p ∈ fs, P (Prod.snd p)) → P (vobj fs)) :
    ∀ v, P v
  | vnull => hnull
  | vundef => hundef
  | vint n => hint n
  | vbool b => hbool b
  | vstr s => hstr s
  | varr xs => harr xs (fun x hx =>
      have : sizeOf x < 1 + sizeOf xs := by
        have := List.sizeOf_lt_of_mem hx; omega
      inductionOn hnull hundef hint hbool hstr harr hobj x)
  | vobj fs => hobj fs (fun p hp =>
      have : sizeOf p.2 < 1 + sizeOf fs := by
        have h1 := List.sizeOf_lt_of_mem hp
        obtain ⟨k, v⟩ := p
        simp only [Prod.mk.sizeOf_spec] at *
        omega
      inductionOn hnull hundef hint hbool hstr harr hobj p.2)
termination_by v => sizeOf v

theorem beqVal_refl : ∀ v : Val, beqVal v v = true := by
  refine inductionOn rfl rfl ?_ ?_ ?_ ?_ ?_
  · intro n; simp [beqVal]
  · intro b; simp [beqVal]
  · intro s; simp [beqVal]
  · intro xs hmem
    show beqVal.beqList xs xs = true
    induction xs with
    | nil => rfl
    | cons x xs ih =>
      simp only [beqVal.beqList, Bool.and_eq_true]
      exact ⟨hmem x (by simp), ih fun y hy => hmem y (by simp [hy])⟩
  · intro fs hmem
    show beqVal.beqFields fs fs = true
    induction fs with
    | nil => rfl
    | cons p fs ih =>
      obtain ⟨k, v⟩ := p
      simp only [beqVal.beqFields, Bool.and_eq_true]
      refine ⟨⟨by simp, hmem ⟨k, v⟩ (by simp)⟩, ih fun y hy => hmem y (by simp [hy])⟩
theorem eq_of_beqList : ∀ (xs : List Val), (∀ x ∈ xs, ∀ w, beqVal x w = true → x = w) →
    ∀ ys, beqVal.beqList xs ys = true → xs = ys := by
    intro xs
    induction xs with
    | nil => intro _ ys h; cases ys <;> simp_all [beqVal.beqList]
    | cons x xs ih =>
      intro hmem ys h
      cases ys with
      | nil => simp_all [beqVal.beqList]
      | cons y ys =>
        simp only [beqVal.beqList, Bool.and_eq_true] at h
        have hx := hmem x (by simp) y h.1
        have hxs := ih (fun z hz => hmem z (by simp [hz])) ys h.2
        simp [hx, hxs]

theorem eq_of_beqFields : ∀ (fs : List (String × Val)),
    (∀ p ∈ fs, ∀ w, beqVal (Prod.snd p) w = true → (Prod.snd p) = w) →
    ∀ gs, beqVal.beqFields fs gs = true → fs = gs := by
    intro fs
    induction fs with
    | nil => intro _ gs h; cases gs <;> simp_all [beqVal.beqFields]
    | cons p fs ih =>
      intro hmem gs h
      cases gs with
      | nil => simp_all [beqVal.beqFields]
      | cons q gs =>
        obtain ⟨k, v⟩ := p
        obtain ⟨l, u⟩ := q
        simp only [beqVal.beqFields, Bool.and_eq_true] at h
        have hk : k = l := by have := h.1.1; simpa using this
        have hv : v = u := hmem ⟨k, v⟩ (by simp) u h.1.2
        have hfs : fs = gs := ih (fun z hz => hmem z (by simp [hz])) gs h.2
        simp [hk, hv, hfs]

theorem eq_of_beqVal : ∀ {v w : Val}, beqVal v w = true → v = w := by
  have main : ∀ v : Val, ∀ w, beqVal v w = true → v = w := by
    refine inductionOn ?_ ?_ ?_ ?_ ?_ ?_ ?_
    · intro w h; cases w <;> simp_all [beqVal]
    · intro w h; cases w <;> simp_all [beqVal]
    · intro n w h; cases w <;> simp_all [beqVal]
    · intro b w h; cases w <;> simp_all [beqVal]
    · intro s w h; cases w <;> simp_all [beqVal]
    · intro xs ih w h
      cases w <;> try simp_all [beqVal]
      case varr ys => exact eq_of_beqList xs ih ys h
    · intro fs ih w h
      cases w <;> try simp_all [beqVal]
      case vobj gs =>
        exact eq_of_beqFields fs (fun p hp => ih p.1 p.2 (by simpa using hp)) gs h
  exact fun {v w} h => main v w h

instance : DecidableEq Val := fun v w =>
  if h : beqVal v w = true then isTrue (eq_of_beqVal h)
  else isFalse (fun he => h (he ▸ beqVal_refl v))

end Val

export Val (vnull vundef vint vbool vstr varr vobj)

/-- JS loose null test (`x == null`), true exactly for `null` and
`undefined`. -/
def jsLooseNull : Val → Bool
  | vnull => true
  | vundef => true
  | _ => false

/-- JS strict equality `===` for the modelled values.  Scalars compare
structurally; two arrays or objects compare by reference in JS, and
since the collection never aliases distinct occurrences that the claims
care about, the model returns `false` for them. -/
def jsStrictEq : Val → Val → Bool
  | vnull, vnull => true
  | vundef, vundef => true
  | vint a, vint b => a == b
  | vbool a, vbool b => a == b
  | vstr a, vstr b => a == b
  | _, _ => false

/-- A scalar value: one on which `jsStrictEq` agrees with structural
equality (JS primitives). -/
def isScalar : Val → Bool
  | vnull => true
  | vundef => true
  | vint _ => true
  | vbool _ => true
  | vstr _ => true
  | _ => false

theorem jsStrictEq_iff_of_scalar {a b : Val} (h : isScalar a = true) :
    jsStrictEq a b = true ↔ a = b := by
  cases a <;> cases b <;> simp_all [jsStrictEq, isScalar]

theorem jsStrictEq_refl_of_scalar {a : Val} (h : isScalar a = true) :
    jsStrictEq a a = true := (jsStrictEq_iff_of_scalar h).mpr rfl

/-- Fuel-indexed helper for `natDigits`; the fuel is an upper bound on the
number so that the definition is structurally recursive (kernel
reducible). -/
def natDigitsAux : Nat → Nat → List Char
  | 0, _ => []
  | fuel + 1, n =>
    if n < 10 then [Char.ofNat (48 + n)]
    else natDigitsAux fuel (n / 10) ++ [Char.ofNat (48 + n % 10)]

/-- Decimal digits of a natural number, most significant first
(the JS rendering of an integral number). -/
def natDigits (n : Nat) : List Char := natDigitsAux (n + 1) n

/-- Decimal string of an integer, as JS `String(n)` / `JSON.stringify(n)`
produce for integral numbers. -/
def intDec (n : Int) : String :=
  if n < 0 then String.mk ('-' :: natDigits (n.natAbs))
  else String.mk (natDigits n.toNat)

/-- JS `String(v)` (ToString) for the modelled values.  Arrays stringify
as their comma-joined elements with `null`/`undefined` rendered empty;
objects as `"[object Object]"`. -/
def jsToStr : Val → String
  | vnull => "null"
  | vundef => "undefined"
  | vint n => intDec n
  | vbool b => cond b "true" "false"
  | vstr s => s
  | varr xs => String.intercalate "," (jsToStrArr xs)
  | vobj _ => "[object Object]"
where
  jsToStrArr : List Val → List String
    | [] => []
    | vnull :: xs => "" :: jsToStrArr xs
    | vundef :: xs => "" :: jsToStrArr xs
    | x :: xs => jsToStr x :: jsToStrArr xs
termination_by structural v => v

/-- Whitespace for the purposes of JS string trimming (the common
characters; the full Unicode whitespace class is not modelled). -/
def isWhite (c : Char) : Bool :=
  c = ' ' ∨ c = '\t' ∨ c = '\n' ∨ c = '\r'

/-- Trim whitespace from both ends of a character list. -/
def trimChars (cs : List Char) : List Char :=
  ((cs.dropWhile isWhite).reverse.dropWhile isWhite).reverse

/-- Value of a list of decimal digit characters. -/
def digitsToNat (cs : List Char) : Nat :=
  cs.foldl (fun a c => a * 10 + (c.toNat - 48)) 0

/-- JS ToNumber on a string, for the integral-literal fragment modelled
here: optional surrounding whitespace, empty string is `0`, an optional
sign followed by digits is the corresponding integer, anything else
(including non-integral numerals, which are out of the model's scope) is
`NaN` (`none`). -/
def strToNumJs (s : String) : Option Int :=
  match trimChars s.data with
  | [] => some 0
  | c :: rest =>
    let neg := c = '-'
    let core := if c = '-' ∨ c = '+' then rest else c :: rest
    if core ≠ [] ∧ core.all Char.isDigit then
      some (if neg then -(digitsToNat core : Int) else (digitsToNat core : Int))
    else none

/-- JS ToNumber for the modelled values (`none` is `NaN`). -/
def toNumJs : Val → Option Int
  | vnull => some 0
  | vundef => none
  | vint n => some n
  | vbool b => some (cond b 1 0)
  | vstr s => strToNumJs s
  | varr xs => strToNumJs (jsToStr (varr xs))
  | vobj _ => none

/-- Lexicographic order on character lists by code point (JS string
`<`; code-unit order and code-point order agree on the scope of this
model). -/
def charListLt : List Char → List Char → Bool
  | _, [] => false
  | [], _ :: _ => true
  | a :: as, b :: bs =>
    a.toNat < b.toNat || (a.toNat = b.toNat && charListLt as bs)

/-- JS relational `a < b`: both strings compare lexicographically,
otherwise both sides are coerced to numbers and compared (false when
either is `NaN`). -/
def jsLess : Val → Val → Bool
  | vstr a, vstr b => charListLt a.data b.data
  | a, b =>
    match toNumJs a, toNumJs b with
    | some x, some y => x < y
    | _, _ => false

/-- `defaultCompare` from the source: strict-equal values compare `0`,
`null`/`undefined` sorts after anything, otherwise by `<`. -/
def defaultCompare (a b : Val) : Int :=
  if jsStrictEq a b then 0
  else if jsLooseNull a then 1
  else if jsLooseNull b then -1
  else if jsLess a b then -1 else 1

/-- `normalizeComposite` from the source returns a shallow copy of an
array argument (`v.slice()`) and the value itself otherwise; a copy is
value-identical, so the model is the identity. -/
def normalizeComposite (v : Val) : Val := v

/-- Compare the first `min` length elements of two lists with `cmp` and
fall back to `defaultCompare` on the lengths: exactly the loop plus the
`defaultCompare(A.length, B.length)` tie-break of the source's
`compositeCompare` for two arrays. -/
def lexCompare (cmp : Val → Val → Int) : List Val → List Val → Int
  | [], [] => 0
  | [], _ :: _ => -1
  | _ :: _, [] => 1
  | x :: xs, y :: ys =>
    let c := cmp x y
    if c = 0 then lexCompare cmp xs ys else c

/-- The characters of a string as single-character string values (JS
indexing `s[i]`). -/
def strChars (s : String) : List Val :=
  s.data.map (fun c => vstr (String.mk [c]))

/-- `compositeCompare` from the source.  Two non-arrays go straight to
`cmp`.  Otherwise the loop over `Math.min(A.length, B.length)` compares
element-wise and falls back to `defaultCompare` on the `.length`s:
for two arrays (and for an array against a string, whose `.length` and
indexing JS defines) this is `lexCompare`; against a value with no
`.length` the loop is skipped (`Math.min(la, undefined)` is `NaN`) and
the tie-break compares a length to `undefined`.  (`null`-vs-array would
throw in JS and is modelled like `undefined` `.length`.) -/
def compositeCompare (cmp : Val → Val → Int) (a b : Val) : Int :=
  match normalizeComposite a, normalizeComposite b with
  | varr xs, varr ys => lexCompare cmp xs ys
  | varr xs, vstr s => lexCompare cmp xs (strChars s)
  | vstr s, varr ys => lexCompare cmp (strChars s) ys
  | varr xs, _ => defaultCompare (vint xs.length) vundef
  | _, varr ys => defaultCompare vundef (vint ys.length)
  | x, y => cmp x y

/-- Fuel-indexed body of `lowerBound`; the fuel (strictly more than
`hi - lo`) makes the binary search structurally recursive so that the
kernel can evaluate it.  `(lo + hi) >> 1` is `(lo + hi) / 2`.  The
probed index satisfies `lo ≤ mid < hi ≤ arr.length` on every call from
`lowerBound`, so the `getD` default is never consulted. -/
def lbAux (arr : List β) (target : β) (cmp : β → β → Int) :
    Nat → Nat → Nat → Nat
  | 0, lo, _ => lo
  | fuel + 1, lo, hi =>
    if lo < hi then
      let mid := (lo + hi) / 2
      if cmp (arr.getD mid target) target < 0 then
        lbAux arr target cmp fuel (mid + 1) hi
      else lbAux arr target cmp fuel lo mid
    else lo

/-- `lowerBound` from the source: binary search for the first position
whose element is not `cmp`-below `target`. -/
def lowerBound (arr : List β) (target : β) (cmp : β → β → Int) : Nat :=
  lbAux arr target cmp (arr.length + 1) 0 arr.length

/-- Hexadecimal digit character (lowercase). -/
def hexDigit (n : Nat) : Char :=
  if n < 10 then Char.ofNat (48 + n) else Char.ofNat (87 + n)

/-- JSON escaping of one character, as `JSON.stringify` performs it:
quote, backslash and the named control characters get two-character
escapes, remaining control characters a `\u00xx` escape, anything else
stands for itself. -/
def jsonEscChar (c : Char) : List Char :=
  if c = '"' then ['\\', '"']
  else if c = '\\' then ['\\', '\\']
  else if c = Char.ofNat 8 then ['\\', 'b']
  else if c = Char.ofNat 9 then ['\\', 't']
  else if c = Char.ofNat 10 then ['\\', 'n']
  else if c = Char.ofNat 12 then ['\\', 'f']
  else if c = Char.ofNat 13 then ['\\', 'r']
  else if c.toNat < 32 then
    ['\\', 'u', '0', '0', hexDigit (c.toNat / 16), hexDigit (c.toNat % 16)]
  else [c]

/-- JSON string literal for `s`. -/
def jsonQuote (s : String) : String :=
  String.mk ('"' :: s.data.foldr (fun c acc => jsonEscChar c ++ acc) ['"'])

/-- `JSON.stringify` for the modelled values; `none` is the `undefined`
result (JS returns the value `undefined`, not a string, for an
`undefined` argument).  Inside arrays `undefined` renders as `null`;
inside objects fields with `undefined` values are skipped. -/
def jsonStringify : Val → Option String
  | vundef => none
  | vnull => some "null"
  | vint n => some (intDec n)
  | vbool b => some (cond b "true" "false")
  | vstr s => some (jsonQuote s)
  | varr xs => some ("[" ++ String.intercalate "," (arrParts xs) ++ "]")
  | vobj fs => some ("\x7b" ++ String.intercalate "," (objParts fs) ++ "\x7d")
where
  arrParts : List Val → List String
    | [] => []
    | x :: xs => ((jsonStringify x).getD "null") :: arrParts xs
  objParts : List (String × Val) → List String
    | [] => []
    | (k, v) :: fs =>
      match jsonStringify v with
      | some sv => (jsonQuote k ++ ":" ++ sv) :: objParts fs
      | none => objParts fs
termination_by structural v => v

/-- `canonicalKey` from the source: `JSON.stringify(v)`. -/
def canonicalKey (v : Val) : Option String := jsonStringify v

/-- `valueToString` from the source: arrays stringify recursively and
join with a single space, `null`/`undefined` give the empty string,
anything else goes through JS `String(v)`. -/
def valueToString : Val → String
  | varr xs => String.intercalate " " (vtsParts xs)
  | vnull => ""
  | vundef => ""
  | v => jsToStr v
where
  vtsParts : List Val → List String
    | [] => []
    | x :: xs => valueToString x :: vtsParts xs
termination_by structural v => v

/-! ### Association lists with explicit key equality

JS `Map`s preserve insertion order: `set` of a fresh key appends,
`set` of a present key replaces in place, `delete` removes the entry.
The key comparison is passed explicitly because the collection keys
items by `===` (`jsStrictEq`) and indexes by string equality. -/

def alGet (beq : κ → κ → Bool) : List (κ × ν) → κ → Option ν
  | [], _ => none
  | (k', v) :: rest, k => if beq k' k then some v else alGet beq rest k

def alHas (beq : κ → κ → Bool) (m : List (κ × ν)) (k : κ) : Bool :=
  (alGet beq m k).isSome

def alSet (beq : κ → κ → Bool) (m : List (κ × ν)) (k : κ) (v : ν) :
    List (κ × ν) :=
  if alHas beq m k then m.map (fun p => if beq p.1 k then (k, v) else p)
  else m ++ [(k, v)]

def alDel (beq : κ → κ → Bool) (m : List (κ × ν)) (k : κ) : List (κ × ν) :=
  m.filter (fun p => !beq p.1 k)

/-- Key equality used for string-keyed maps (object fields, index
names). -/
def strBeq (a b : String) : Bool := decide (a = b)

/-- Key equality for the equality-index map, whose keys are
`canonicalKey` results (a string, or the JS value `undefined` when the
raw key was `undefined`). -/
def strOptBeq (a b : Option String) : Bool := decide (a = b)

/-- Key equality for trie children. -/
def charBeq (a b : Char) : Bool := decide (a = b)

/-! ### JS `Set`s of record identifiers (insertion ordered) -/

def setHas (l : List Val) (x : Val) : Bool := l.any (fun y => jsStrictEq y x)

def setAdd (l : List Val) (x : Val) : List Val :=
  if setHas l x then l else l ++ [x]

def setDel (l : List Val) (x : Val) : List Val :=
  l.filter (fun y => !jsStrictEq y x)

/-! ### Field access and key extraction -/

/-- Plain JS property access `obj[key]` for a string key: a field of a
plain object, `undefined` otherwise.  (Numeric-string indexing into an
array is not modelled; no key spec in scope uses it.) -/
def jsGetField (v : Val) (k : String) : Val :=
  match v with
  | vobj fs => (alGet strBeq fs k).getD vundef
  | _ => vundef

/-- Split a string at `'.'` characters (JS `key.split(".")`). -/
def splitDotAux : List Char → List Char → List String
  | [], acc => [String.mk acc.reverse]
  | c :: cs, acc =>
    if c = '.' then String.mk acc.reverse :: splitDotAux cs []
    else splitDotAux cs (c :: acc)

def splitDot (s : String) : List String := splitDotAux s.data []

/-- `getByKey` from the source: direct property access for keys without
a dot, otherwise a null-propagating walk along the dot path. -/
def getByKey (obj : Val) (key : String) : Val :=
  if ('.' ∈ key.data) then
    (splitDot key).foldl
      (fun acc k => if jsLooseNull acc then acc else jsGetField acc k) obj
  else jsGetField obj key

/-- A key spec: a single field name (dot path allowed), an ordered list
of field names, or an extraction function. -/
inductive KeySpec : Type where
  | field : String → KeySpec
  | fields : List String → KeySpec
  | extract : (Val → Val) → KeySpec

/-- `makeKeyGetter` from the source, applied: resolve a key spec on a
record into the raw key value. -/
def keyGetter : KeySpec → Val → Val
  | .extract f, o => f o
  | .fields ks, o => varr (ks.map (fun k => getByKey o k))
  | .field k, o => getByKey o k

/-- `isPlainObject` from the source
(`Object.prototype.toString.call(x) === "[object Object]"`). -/
def isPlainObject : Val → Bool
  | vobj _ => true
  | _ => false

/-! ### Trie (prefix index storage) -/

inductive TrieNode : Type where
  | mk : List (Char × TrieNode) → List Val → TrieNode
deriving Repr

def TrieNode.children : TrieNode → List (Char × TrieNode)
  | .mk c _ => c

def TrieNode.ids : TrieNode → List Val
  | .mk _ i => i

/-- `makeTrieNode` from the source. -/
def makeTrieNode : TrieNode := .mk [] []

/-- `trieInsert` from the source: walk/create a node per character of
the string, adding the id to every node stepped into (the root's own id
set is never touched). -/
def trieInsertL (t : TrieNode) : List Char → Val → TrieNode
  | [], _ => t
  | c :: cs, id =>
    let child := (alGet charBeq t.children c).getD makeTrieNode
    let child1 := TrieNode.mk child.children (setAdd child.ids id)
    let child2 := trieInsertL child1 cs id
    TrieNode.mk (alSet charBeq t.children c child2) t.ids

def trieInsert (t : TrieNode) (s : String) (id : Val) : TrieNode :=
  trieInsertL t s.data id

/-- `trieFindNode` from the source. -/
def trieFindNodeL (t : TrieNode) : List Char → Option TrieNode
  | [] => some t
  | c :: cs =>
    match alGet charBeq t.children c with
    | none => none
    | some child => trieFindNodeL child cs

def trieFindNode (t : TrieNode) (s : String) : Option TrieNode :=
  trieFindNodeL t s.data

/-- `trieRemove` from the source, in functional form.  The source first
walks the whole path, aborting with no modification if any character is
missing (`none` here); otherwise, from the deepest node back to the
root, it removes the id from each node on the path and prunes a node
whose id set and child map have both become empty.  The recursion
processes the deeper suffix first, then the current path child, which
is the same bottom-up order. -/
def trieRemoveGo (id : Val) : TrieNode → List Char → Option TrieNode
  | t, [] => some t
  | t, c :: cs =>
    match alGet charBeq t.children c with
    | none => none
    | some child =>
      match trieRemoveGo id child cs with
      | none => none
      | some child1 =>
        let child2 := TrieNode.mk child1.children (setDel child1.ids id)
        if child2.ids.isEmpty ∧ child2.children.isEmpty then
          some (TrieNode.mk (alDel charBeq t.children c) t.ids)
        else some (TrieNode.mk (alSet charBeq t.children c child2) t.ids)

def trieRemove (t : TrieNode) (s : String) (id : Val) : TrieNode :=
  (trieRemoveGo id t s.data).getD t

/-! ### Index definitions and the collection -/

/-- Errors of the design's taxonomy (the source raises `Error`s with
messages; only the identity of the failure matters here). -/
inductive Err : Type where
  | duplicateIndexName : Err
  | invalidIndexKind : Err
  | missingPrimaryKey : Err
  | duplicatePrimaryKey : Err
  | itemNotFound : Err
  | indexNotFound : Err
  | indexKindMismatch : Err
  | uniqueConstraintViolation : Err
  | nonSerializableKeySpec : Err
deriving DecidableEq, Repr

/-- A value of the equality-index map: a single id under `unique`, an
id set otherwise. -/
inductive EqEntry : Type where
  | sid : Val → EqEntry
  | sset : List Val → EqEntry
deriving DecidableEq, Repr

/-- One `{value, id}` node of the range index's sorted backing array. -/
structure RangeEntry : Type where
  value : Val
  id : Val
deriving DecidableEq, Repr

/-- An index definition with its three storage fields (only the one
matching `kind` is ever populated), as built by `defineIndex`.  The
source also stores `keyGetter = makeKeyGetter(keySpec)`; the model
applies `keyGetter keySpec` at each use, which is the same function. -/
structure IndexDef : Type where
  name : String
  keySpec : KeySpec
  unique : Bool
  kind : String
  compare : Val → Val → Int
  eqMap : List (Option String × EqEntry)
  rangeArr : List RangeEntry
  trieRoot : TrieNode

/-- Serialized form of a key spec (`serializeKeySpec`):
`{t:"str"}` / `{t:"arr"}` / `{t:"fn"}`. -/
inductive KSEnc : Type where
  | kstr : String → KSEnc
  | karr : List String → KSEnc
  | kfn : KSEnc
deriving DecidableEq, Repr

/-- One serialized index descriptor. -/
structure DefDescriptor : Type where
  name : String
  kind : String
  unique : Bool
  keySpec : KSEnc
deriving DecidableEq, Repr

/-- The serialized payload.  `serialize` JSON-stringifies this structure
and `deserialize` parses it back; the spec treats producing/parsing the
JSON text as a given external capability, so the model works with the
payload itself and treats the text layer as the identity. -/
structure Payload : Type where
  primaryKey : String
  indexDefs : List DefDescriptor
  items : List Val
deriving DecidableEq, Repr

/-- The collection: primary key name, primary store (a `Map` from id to
record, insertion ordered), named index definitions, and the snapshot
stack (most recent snapshot at the head; JS pushes and pops at the end
of an array). -/
structure Coll : Type where
  primaryKey : String
  items : List (Val × Val)
  indexes : List (String × IndexDef)
  snaps : List Payload

/-- `new Querium({key})`. -/
def mkColl (key : String) : Coll := ⟨key, [], [], []⟩

deriving instance DecidableEq for Except

/-- The comparator used for positioning range entries:
`compositeCompare(a.value, b.value, compare) || defaultCompare(a.id, b.id)`
(`x || y` on numbers is `y` exactly when `x` is `0`). -/
def entryCmpFn (cmp : Val → Val → Int) (a b : RangeEntry) : Int :=
  let cv := compositeCompare cmp a.value b.value
  if cv = 0 then defaultCompare a.id b.id else cv

/-- `addToIndex` from the source.  In the non-unique equality branch
the source reads `map.get(keyStr) || new Set()`; a `sid` value can
never be stored under a non-unique index, so only the `sset`/absent
cases arise and anything else falls back to the fresh set. -/
def addToIndex (pk : String) (d : IndexDef) (obj : Val) :
    Except Err IndexDef :=
  let id := jsGetField obj pk
  let raw := keyGetter d.keySpec obj
  if d.kind = "eq" then
    let keyStr := canonicalKey raw
    if d.unique then
      if alHas strOptBeq d.eqMap keyStr then .error .uniqueConstraintViolation
      else .ok { d with eqMap := alSet strOptBeq d.eqMap keyStr (.sid id) }
    else
      let s := match alGet strOptBeq d.eqMap keyStr with
        | some (.sset s) => s
        | _ => []
      .ok { d with eqMap := alSet strOptBeq d.eqMap keyStr (.sset (setAdd s id)) }
  else if d.kind = "range" then
    let value := normalizeComposite raw
    let node : RangeEntry := ⟨value, id⟩
    let pos := lowerBound d.rangeArr node (entryCmpFn d.compare)
    .ok { d with rangeArr := d.rangeArr.insertIdx pos node }
  else if d.kind = "prefix" then
    let str := valueToString raw
    .ok { d with trieRoot := trieInsert d.trieRoot str id }
  else .ok d

/-- The forward scan of `removeFromIndex` for range indexes: starting
at the lower-bound position, walk the run of composite-equal entries
and splice out the entry with the matching id; `none` if the run ends
without a match (the source then falls back to the linear scan). -/
def rmRun (cmp : Val → Val → Int) (value id : Val) :
    List RangeEntry → Option (List RangeEntry)
  | [] => none
  | e :: rest =>
    if compositeCompare cmp e.value value = 0 then
      if jsStrictEq e.id id then some rest
      else
        match rmRun cmp value id rest with
        | some rest' => some (e :: rest')
        | none => none
    else none

/-- The linear fallback scan of `removeFromIndex` for range indexes:
splice out the first entry with matching id and composite-equal
value. -/
def rmLinear (cmp : Val → Val → Int) (value id : Val) :
    List RangeEntry → List RangeEntry
  | [] => []
  | e :: rest =>
    if jsStrictEq e.id id ∧ compositeCompare cmp e.value value = 0 then rest
    else e :: rmLinear cmp value id rest

/-- The range branch of `removeFromIndex`: binary search with the full
(value, id) order, scan the composite-equal run forward, and fall back
to a full linear scan. -/
def removeRange (cmp : Val → Val → Int) (arr : List RangeEntry)
    (value id : Val) : List RangeEntry :=
  let pos := lowerBound arr ⟨value, id⟩ (entryCmpFn cmp)
  match rmRun cmp value id (arr.drop pos) with
  | some rest => arr.take pos ++ rest
  | none => rmLinear cmp value id arr

/-- `removeFromIndex` from the source (never raises). -/
def removeFromIndex (pk : String) (d : IndexDef) (obj : Val) : IndexDef :=
  let id := jsGetField obj pk
  let raw := keyGetter d.keySpec obj
  if d.kind = "eq" then
    let keyStr := canonicalKey raw
    if d.unique then
      match alGet strOptBeq d.eqMap keyStr with
      | some (.sid stored) =>
        if jsStrictEq stored id then { d with eqMap := alDel strOptBeq d.eqMap keyStr }
        else d
      | _ => d
    else
      match alGet strOptBeq d.eqMap keyStr with
      | some (.sset s) =>
        let s' := setDel s id
        if s'.isEmpty then { d with eqMap := alDel strOptBeq d.eqMap keyStr }
        else { d with eqMap := alSet strOptBeq d.eqMap keyStr (.sset s') }
      | _ => d
  else if d.kind = "range" then
    let value := normalizeComposite raw
    { d with rangeArr := removeRange d.compare d.rangeArr value id }
  else if d.kind = "prefix" then
    let str := valueToString raw
    { d with trieRoot := trieRemove d.trieRoot str id }
  else d

/-- Apply `addToIndex` for one record across the (ordered) index map,
stopping at the first failure: indexes before the failing one keep the
new entry, the failing one and the ones after it are untouched.  This
reproduces the source's in-place iteration and its non-atomicity. -/
def addAll (pk : String) (obj : Val) :
    List (String × IndexDef) → (Except Err Unit) × List (String × IndexDef)
  | [] => (.ok (), [])
  | (n, d) :: rest =>
    match addToIndex pk d obj with
    | .ok d' =>
      let (r, rest') := addAll pk obj rest
      (r, (n, d') :: rest')
    | .error e => (.error e, (n, d) :: rest)

/-- `insert` from the source.  The primary-key and duplicate checks
precede every mutation; afterwards the record is stored and indexed
into every definition in order. -/
def insert (c : Coll) (obj : Val) : (Except Err Val) × Coll :=
  let id := jsGetField obj c.primaryKey
  if jsLooseNull id then (.error .missingPrimaryKey, c)
  else if alHas jsStrictEq c.items id then (.error .duplicatePrimaryKey, c)
  else
    let c1 : Coll := { c with items := alSet jsStrictEq c.items id obj }
    let (r, idxs') := addAll c.primaryKey obj c1.indexes
    (r.map (fun _ => id), { c1 with indexes := idxs' })

/-- The merge `{...prev, ...patch, [primaryKey]: id}` of `update`'s
patch branch.  Spreading keeps the base order, overrides present keys
in place and appends fresh keys; a non-object spread contributes no
fields. -/
def mergeRecord (pk : String) (prev patch : Val) (id : Val) : Val :=
  let baseFs := match prev with
    | vobj fs => fs
    | _ => []
  let patchFs := match patch with
    | vobj fs => fs
    | _ => []
  vobj (alSet strBeq (patchFs.foldl (fun acc p => alSet strBeq acc p.1 p.2) baseFs) pk id)

/-- `update` from the source: look up the previous record, build the
next one (merge for a plain object argument, wholesale replacement
otherwise), remove the previous record from every index, install the
next record, and re-add it to every index. -/
def update (c : Coll) (id : Val) (arg : Val) : (Except Err Val) × Coll :=
  match alGet jsStrictEq c.items id with
  | none => (.error .itemNotFound, c)
  | some prev =>
    let next := if isPlainObject arg then mergeRecord c.primaryKey prev arg id else arg
    let idxs1 := c.indexes.map (fun p => (p.1, removeFromIndex c.primaryKey p.2 prev))
    let items1 := alSet jsStrictEq c.items id next
    let (r, idxs2) := addAll c.primaryKey next idxs1
    (r.map (fun _ => next), { c with items := items1, indexes := idxs2 })

/-- `remove` from the source. -/
def remove (c : Coll) (id : Val) : Bool × Coll :=
  match alGet jsStrictEq c.items id with
  | none => (false, c)
  | some obj =>
    let idxs := c.indexes.map (fun p => (p.1, removeFromIndex c.primaryKey p.2 obj))
    (true, { c with items := alDel jsStrictEq c.items id, indexes := idxs })

/-- `upsert` from the source. -/
def upsert (c : Coll) (obj : Val) : (Except Err Val) × Coll :=
  let id := jsGetField obj c.primaryKey
  if jsLooseNull id then (.error .missingPrimaryKey, c)
  else if alHas jsStrictEq c.items id then
    let (r, c') := update c id obj
    (r.map (fun _ => id), c')
  else insert c obj

/-- `get` from the source (`items.get(id) || null`). -/
def get (c : Coll) (id : Val) : Option Val := alGet jsStrictEq c.items id

/-- `size` from the source. -/
def size (c : Coll) : Nat := c.items.length

/-- `hasIndex` from the source. -/
def hasIndex (c : Coll) (name : String) : Bool := alHas strBeq c.indexes name

/-- `requireIndex` from the source. -/
def requireIndex (c : Coll) (name : String) (expectedKind : Option String) :
    Except Err IndexDef :=
  match alGet strBeq c.indexes name with
  | none => .error .indexNotFound
  | some idx =>
    match expectedKind with
    | some k => if idx.kind = k then .ok idx else .error .indexKindMismatch
    | none => .ok idx

/-- `getOne` from the source. -/
def getOne (c : Coll) (indexName : String) (value : Val) :
    Except Err (Option Val) :=
  match requireIndex c indexName (some "eq") with
  | .error e => .error e
  | .ok idx =>
    let k := canonicalKey value
    if idx.unique then
      match alGet strOptBeq idx.eqMap k with
      | some (.sid id) =>
        if jsLooseNull id then .ok none else .ok (alGet jsStrictEq c.items id)
      | _ => .ok none
    else
      match alGet strOptBeq idx.eqMap k with
      | some (.sset (firstId :: _)) => .ok (alGet jsStrictEq c.items firstId)
      | _ => .ok none

/-- `getAll` from the source; with no index name it returns all
records. -/
def getAll (c : Coll) (indexName : Option String) (value : Val) :
    Except Err (List Val) :=
  match indexName with
  | none => .ok (c.items.map (fun p => p.2))
  | some nm =>
    match requireIndex c nm (some "eq") with
    | .error e => .error e
    | .ok idx =>
      let k := canonicalKey value
      if idx.unique then
        match alGet strOptBeq idx.eqMap k with
        | some (.sid id) =>
          if jsLooseNull id then .ok []
          else .ok [(alGet jsStrictEq c.items id).getD vundef]
        | _ => .ok []
      else
        match alGet strOptBeq idx.eqMap k with
        | some (.sset s) =>
          .ok (s.map (fun id => (alGet jsStrictEq c.items id).getD vundef))
        | _ => .ok []

/-- The collecting scan of `between`: from the lower-bound position
walk forward, stop at the first entry past the upper bound, and collect
the entries that satisfy the lower bound. -/
def betweenScan (cmp : Val → Val → Int) (min max : Val)
    (incMin incMax : Bool) : List RangeEntry → List RangeEntry
  | [] => []
  | e :: rest =>
    let cUpper := compositeCompare cmp e.value max
    if cUpper > 0 ∨ (¬incMax ∧ cUpper = 0) then []
    else
      let cLower := compositeCompare cmp e.value min
      if cLower > 0 ∨ (incMin ∧ cLower = 0) then
        e :: betweenScan cmp min max incMin incMax rest
      else betweenScan cmp min max incMin incMax rest

/-- `between` from the source.  The binary-search target is
`{value: min}`, whose absent `id` property is `undefined`; the search
comparator reads only `value`. -/
def between (c : Coll) (indexName : String) (min max : Val)
    (incMin incMax : Bool) : Except Err (List Val) :=
  match requireIndex c indexName (some "range") with
  | .error e => .error e
  | .ok idx =>
    let left := lowerBound idx.rangeArr ⟨min, vundef⟩
      (fun a b => compositeCompare idx.compare a.value b.value)
    .ok ((betweenScan idx.compare min max incMin incMax (idx.rangeArr.drop left)).map
      (fun e => (alGet jsStrictEq c.items e.id).getD vundef))

/-- `startsWith` from the source. -/
def startsWith (c : Coll) (indexName : String) (p : String) :
    Except Err (List Val) :=
  match requireIndex c indexName (some "prefix") with
  | .error e => .error e
  | .ok idx =>
    let str := valueToString (vstr p)
    match trieFindNode idx.trieRoot str with
    | none => .ok []
    | some node =>
      .ok (node.ids.map (fun id => (alGet jsStrictEq c.items id).getD vundef))

/-! ### Serialization, snapshot, rollback -/

/-- `serializeKeySpec` from the source. -/
def serializeKeySpec : KeySpec → KSEnc
  | .extract _ => .kfn
  | .fields ks => .karr ks
  | .field k => .kstr k

/-- `deserializeKeySpec` from the source (throws on `t: "fn"`). -/
def deserializeKeySpec : KSEnc → Except Err KeySpec
  | .kfn => .error .nonSerializableKeySpec
  | .karr v => .ok (.fields v)
  | .kstr v => .ok (.field v)

/-- `serialize` from the source, at payload level (the JSON text layer
is treated as the identity; see `Payload`). -/
def serializePayload (c : Coll) : Payload :=
  ⟨c.primaryKey,
   c.indexes.map (fun p => ⟨p.2.name, p.2.kind, p.2.unique, serializeKeySpec p.2.keySpec⟩),
   c.items.map (fun p => p.2)⟩

/-- The argument record of `defineIndex` (`compare` omitted means the
default comparator). -/
structure DefCfg : Type where
  name : String
  key : KeySpec
  unique : Bool
  kind : String
  compare : Option (Val → Val → Int)

/-- Backfill of a fresh index definition from the existing records,
stopping at the first failure with the partially built definition. -/
def backfill (pk : String) (d : IndexDef) :
    List Val → (Except Err Unit) × IndexDef
  | [] => (.ok (), d)
  | obj :: rest =>
    match addToIndex pk d obj with
    | .ok d' => backfill pk d' rest
    | .error e => (.error e, d)

/-- `defineIndex` from the source: name and kind checks, fresh empty
storages, registration, then backfill over the existing records (the
definition stays registered even if the backfill fails partway). -/
def defineIndex (c : Coll) (cfg : DefCfg) : (Except Err Unit) × Coll :=
  if alHas strBeq c.indexes cfg.name then (.error .duplicateIndexName, c)
  else if ¬(cfg.kind = "eq" ∨ cfg.kind = "range" ∨ cfg.kind = "prefix") then
    (.error .invalidIndexKind, c)
  else
    let d : IndexDef :=
      ⟨cfg.name, cfg.key, cfg.unique, cfg.kind, cfg.compare.getD defaultCompare,
       [], [], makeTrieNode⟩
    let (r, d') := backfill c.primaryKey d (c.items.map (fun p => p.2))
    (r, { c with indexes := alSet strBeq c.indexes cfg.name d' })

/-- The index-definition replay of `deserialize`. -/
def deserializeDefs (c : Coll) : List DefDescriptor → Except Err Coll
  | [] => .ok c
  | dd :: rest =>
    match deserializeKeySpec dd.keySpec with
    | .error e => .error e
    | .ok ks =>
      match defineIndex c ⟨dd.name, ks, dd.unique, dd.kind, none⟩ with
      | (.ok _, c') => deserializeDefs c' rest
      | (.error e, _) => .error e

/-- The record replay of `deserialize`. -/
def insertAllItems (c : Coll) : List Val → Except Err Coll
  | [] => .ok c
  | obj :: rest =>
    match insert c obj with
    | (.ok _, c') => insertAllItems c' rest
    | (.error e, _) => .error e

/-- `Querium.deserialize` from the source: fresh collection with the
recorded primary key, replay every index descriptor through
`defineIndex`, then insert every record in payload order.  A thrown
error discards the partially built fresh collection. -/
def deserializePayload (data : Payload) : Except Err Coll :=
  match deserializeDefs (mkColl data.primaryKey) data.indexDefs with
  | .error e => .error e
  | .ok c1 => insertAllItems c1 data.items

/-- `snapshot` from the source. -/
def snapshot (c : Coll) : Payload × Coll :=
  let snap := serializePayload c
  (snap, { c with snaps := snap :: c.snaps })

/-- `rollback` from the source: `false` on an empty stack; otherwise pop
the most recent snapshot, rebuild a collection from it and replace the
live collection's primary key, items and indexes (the remaining stack is
kept).  A failing rebuild propagates the error with the snapshot already
popped. -/
def rollback (c : Coll) : (Except Err Bool) × Coll :=
  match c.snaps with
  | [] => (.ok false, c)
  | snap :: rest =>
    match deserializePayload snap with
    | .ok restored => (.ok true, ⟨restored.primaryKey, restored.items, restored.indexes, rest⟩)
    | .error e => (.error e, { c with snaps := rest })

/-! ## Comparator laws

A three-way comparator behaves like a linear preorder on a domain `Q`
when swapping arguments flips the sign and `≤ 0` is transitive.  These
are the properties the spec's phrase "the index comparator's composite
order" presupposes. -/

structure LawfulCmpOn (Q : α → Prop) (cmp : α → α → Int) : Prop where
  flip : ∀ a b, Q a → Q b → (cmp a b < 0 ↔ cmp b a > 0)
  le_trans : ∀ a b c, Q a → Q b → Q c → cmp a b ≤ 0 → cmp b c ≤ 0 → cmp a c ≤ 0

namespace LawfulCmpOn

variable {Q : α → Prop} {cmp : α → α → Int}

theorem refl0 (L : LawfulCmpOn Q cmp) {a : α} (ha : Q a) : cmp a a = 0 := by
  have h := L.flip a a ha ha
  omega

theorem eq_symm (L : LawfulCmpOn Q cmp) {a b : α} (ha : Q a) (hb : Q b) :
    cmp a b = 0 ↔ cmp b a = 0 := by
  have h1 := L.flip a b ha hb
  have h2 := L.flip b a hb ha
  omega

theorem le_flip (L : LawfulCmpOn Q cmp) {a b : α} (ha : Q a) (hb : Q b) :
    cmp a b ≤ 0 ↔ cmp b a ≥ 0 := by
  have h1 := L.flip a b ha hb
  have h2 := L.flip b a hb ha
  omega

theorem lt_of_le_of_lt (L : LawfulCmpOn Q cmp) {a b c : α}
    (ha : Q a) (hb : Q b) (hc : Q c)
    (h1 : cmp a b ≤ 0) (h2 : cmp b c < 0) : cmp a c < 0 := by
  by_contra h
  have hca : cmp c a ≤ 0 := by
    have := L.flip a c ha hc
    have := L.flip c a hc ha
    omega
  have := L.le_trans c a b hc ha hb hca h1
  have := L.flip b c hb hc
  omega

theorem lt_of_lt_of_le (L : LawfulCmpOn Q cmp) {a b c : α}
    (ha : Q a) (hb : Q b) (hc : Q c)
    (h1 : cmp a b < 0) (h2 : cmp b c ≤ 0) : cmp a c < 0 := by
  by_contra h
  have hca : cmp c a ≤ 0 := by
    have := L.flip a c ha hc
    have := L.flip c a hc ha
    omega
  have := L.le_trans b c a hb hc ha h2 hca
  have := L.flip a b ha hb
  omega

/-- Lexicographic tie-break composition: compare by `c1` on `f`, break
ties by `c2` on `g`. -/
theorem lex2 {β : Type _} {Q1 : α → Prop} {Q2 : β → Prop}
    {c1 : α → α → Int} {c2 : β → β → Int} {γ : Type _}
    (L1 : LawfulCmpOn Q1 c1) (L2 : LawfulCmpOn Q2 c2)
    (f : γ → α) (g : γ → β) :
    LawfulCmpOn (fun p => Q1 (f p) ∧ Q2 (g p))
      (fun a b => if c1 (f a) (f b) = 0 then c2 (g a) (g b) else c1 (f a) (f b)) := by
  constructor
  · intro a b ha hb
    have hf := L1.flip (f a) (f b) ha.1 hb.1
    have hf2 := L1.flip (f b) (f a) hb.1 ha.1
    have hg := L2.flip (g a) (g b) ha.2 hb.2
    have hg2 := L2.flip (g b) (g a) hb.2 ha.2
    by_cases h : c1 (f a) (f b) = 0
    · have h2 : c1 (f b) (f a) = 0 := by omega
      simp [h, h2]
      omega
    · have h2 : ¬ c1 (f b) (f a) = 0 := by omega
      simp [h, h2]
      omega
  · intro a b c ha hb hc h1 h2
    by_cases hab : c1 (f a) (f b) = 0
    · by_cases hbc : c1 (f b) (f c) = 0
      · have hac : c1 (f a) (f c) = 0 := by
          have f_ab := L1.flip (f a) (f b) ha.1 hb.1
          have f_ba := L1.flip (f b) (f a) hb.1 ha.1
          have f_bc := L1.flip (f b) (f c) hb.1 hc.1
          have f_cb := L1.flip (f c) (f b) hc.1 hb.1
          have f_ac := L1.flip (f a) (f c) ha.1 hc.1
          have f_ca := L1.flip (f c) (f a) hc.1 ha.1
          have hle := L1.le_trans (f a) (f b) (f c) ha.1 hb.1 hc.1 (by omega) (by omega)
          have hle2 := L1.le_trans (f c) (f b) (f a) hc.1 hb.1 ha.1 (by omega) (by omega)
          omega
        simp [hab, hbc, hac] at h1 h2 ⊢
        exact L2.le_trans (g a) (g b) (g c) ha.2 hb.2 hc.2 h1 h2
      · simp only [hab, if_pos, if_neg hbc] at h1 h2
        have hac : c1 (f a) (f c) < 0 := by
          have h0 : c1 (f a) (f b) ≤ 0 := by omega
          exact L1.lt_of_le_of_lt ha.1 hb.1 hc.1 h0 (by omega)
        simp [hac]
        omega
    · simp only [if_neg hab] at h1
      by_cases hbc : c1 (f b) (f c) = 0
      · have hac : c1 (f a) (f c) < 0 := by
          exact L1.lt_of_lt_of_le ha.1 hb.1 hc.1 (by omega) (by omega)
        simp [hac]
        omega
      · simp only [if_neg hbc] at h2
        have hac : c1 (f a) (f c) < 0 := by
          exact L1.lt_of_lt_of_le ha.1 hb.1 hc.1 (by omega) (by omega)
        simp [hac]
        omega

end LawfulCmpOn

/-- The integer-valued domain for record identifiers. -/
def IsIntVal (v : Val) : Prop := ∃ n : Int, v = vint n

theorem defaultCompare_int (n m : Int) :
    defaultCompare (vint n) (vint m) =
      if n = m then 0 else if n < m then -1 else 1 := by
  by_cases h : n = m <;>
    simp [defaultCompare, jsStrictEq, jsLooseNull, jsLess, toNumJs, h]

/-- `defaultCompare` is a lawful comparator on integer values. -/
theorem defaultCompare_lawful_int : LawfulCmpOn IsIntVal defaultCompare := by
  constructor
  · rintro a b ⟨n, rfl⟩ ⟨m, rfl⟩
    rw [defaultCompare_int, defaultCompare_int]
    by_cases h : n = m <;> simp [h] <;> omega
  · rintro a b c ⟨n, rfl⟩ ⟨m, rfl⟩ ⟨k, rfl⟩
    rw [defaultCompare_int, defaultCompare_int, defaultCompare_int]
    by_cases h1 : n = m <;> by_cases h2 : m = k <;> by_cases h3 : n = k <;>
      simp [h1, h2, h3] <;> omega

/-- A domain of non-array values: `compositeCompare` sends such pairs
straight to the element comparator. -/
def NonArr (v : Val) : Prop := ∀ xs, v ≠ varr xs

theorem compositeCompare_nonArr {cmp : Val → Val → Int} {a b : Val}
    (ha : NonArr a) (hb : NonArr b) : compositeCompare cmp a b = cmp a b := by
  cases a <;> cases b <;> first
    | rfl
    | exact absurd rfl (ha _)
    | exact absurd rfl (hb _)

/-- On a non-array domain, lawfulness of the element comparator lifts to
`compositeCompare`. -/
theorem compositeCompare_lawful_nonArr {Q : Val → Prop} {cmp : Val → Val → Int}
    (hna : ∀ v, Q v → NonArr v) (L : LawfulCmpOn Q cmp) :
    LawfulCmpOn Q (compositeCompare cmp) := by
  constructor
  · intro a b ha hb
    rw [compositeCompare_nonArr (hna a ha) (hna b hb),
      compositeCompare_nonArr (hna b hb) (hna a ha)]
    exact L.flip a b ha hb
  · intro a b c ha hb hc
    rw [compositeCompare_nonArr (hna a ha) (hna b hb),
      compositeCompare_nonArr (hna b hb) (hna c hc),
      compositeCompare_nonArr (hna a ha) (hna c hc)]
    exact L.le_trans a b c ha hb hc

/-- The entry comparator is the tie-break composition of the composite
value comparator and `defaultCompare` on ids. -/
theorem entryCmpFn_eq (cmp : Val → Val → Int) (a b : RangeEntry) :
    entryCmpFn cmp a b =
      (if compositeCompare cmp a.value b.value = 0 then defaultCompare a.id b.id
       else compositeCompare cmp a.value b.value) := rfl

/-- Lawfulness of the full entry order, on entries whose values are in a
domain where the composite comparator is lawful and whose ids are
integers. -/
theorem entryCmpFn_lawful {Q : Val → Prop} {cmp : Val → Val → Int}
    (L : LawfulCmpOn Q (compositeCompare cmp)) :
    LawfulCmpOn (fun e : RangeEntry => Q e.value ∧ IsIntVal e.id)
      (entryCmpFn cmp) := by
  have h := LawfulCmpOn.lex2 L defaultCompare_lawful_int
    (fun e : RangeEntry => e.value) (fun e : RangeEntry => e.id)
  exact h

/-! ## `lowerBound` boundary property -/

/-- Invariant-carrying correctness of the fueled binary search: given a
predicate `p i := cmp (arr.getD i target) target < 0` that is monotone
downward (true at `j` forces true at every `i ≤ j`), the search returns
the boundary. -/
theorem lbAux_spec (arr : List β) (target : β) (cmp : β → β → Int)
    (hmono : ∀ i j, i ≤ j → j < arr.length →
      cmp (arr.getD j target) target < 0 → cmp (arr.getD i target) target < 0) :
    ∀ (fuel lo hi : Nat), hi ≤ arr.length → lo ≤ hi → hi - lo ≤ fuel →
    (lo = 0 ∨ (lo - 1 < arr.length ∧ cmp (arr.getD (lo - 1) target) target < 0)) →
    (hi = arr.length ∨ ¬ cmp (arr.getD hi target) target < 0) →
    (lo ≤ lbAux arr target cmp fuel lo hi ∧ lbAux arr target cmp fuel lo hi ≤ hi) ∧
    (∀ i, i < lbAux arr target cmp fuel lo hi →
      cmp (arr.getD i target) target < 0) ∧
    (∀ i, lbAux arr target cmp fuel lo hi ≤ i → i < arr.length →
      ¬ cmp (arr.getD i target) target < 0) := by
  intro fuel
  induction fuel with
  | zero =>
    intro lo hi hhi hlh hfuel hlo hhi2
    have : lo = hi := by omega
    subst this
    simp only [lbAux]
    refine ⟨⟨le_refl _, le_refl _⟩, ?_, ?_⟩
    · intro i hi2
      rcases hlo with h | ⟨hl, hp⟩
      · omega
      · exact hmono i (lo - 1) (by omega) hl hp
    · intro i hge hlen
      rcases hhi2 with h | hnp
      · omega
      · intro hp
        exact hnp (hmono lo i hge hlen hp)
  | succ fuel ih =>
    intro lo hi hhi hlh hfuel hlo hhi2
    simp only [lbAux]
    by_cases h : lo < hi
    · simp only [if_pos h]
      set mid := (lo + hi) / 2 with hmid
      have hmid1 : lo ≤ mid := by omega
      have hmid2 : mid < hi := by omega
      by_cases hp : cmp (arr.getD mid target) target < 0
      · simp only [if_pos hp]
        exact And.imp (fun x => ⟨by omega, x.2⟩) id
          (ih (mid + 1) hi hhi (by omega) (by omega)
            (Or.inr ⟨by omega, by simpa using hp⟩) hhi2)
      · simp only [if_neg hp]
        exact And.imp (fun x => ⟨x.1, by omega⟩) id
          (ih lo mid (by omega) (by omega) (by omega) hlo (Or.inr hp))
    · simp only [if_neg h]
      have : lo = hi := by omega
      subst this
      refine ⟨⟨le_refl _, le_refl _⟩, ?_, ?_⟩
      · intro i hi2
        rcases hlo with h | ⟨hl, hp⟩
        · omega
        · exact hmono i (lo - 1) (by omega) hl hp
      · intro i hge hlen
        rcases hhi2 with h | hnp
        · omega
        · intro hp
          exact hnp (hmono lo i hge hlen hp)

/-- Boundary property of `lowerBound`: everything before the returned
position is strictly below the target, everything at or after it is
not. -/
theorem lowerBound_spec (arr : List β) (target : β) (cmp : β → β → Int)
    (hmono : ∀ i j, i ≤ j → j < arr.length →
      cmp (arr.getD j target) target < 0 → cmp (arr.getD i target) target < 0) :
    lowerBound arr target cmp ≤ arr.length ∧
    (∀ i, i < lowerBound arr target cmp →
      cmp (arr.getD i target) target < 0) ∧
    (∀ i, lowerBound arr target cmp ≤ i → i < arr.length →
      ¬ cmp (arr.getD i target) target < 0) := by
  have h := lbAux_spec arr target cmp hmono (arr.length + 1) 0 arr.length
    (le_refl _) (by omega) (by omega) (Or.inl rfl) (Or.inl rfl)
  exact ⟨h.1.2, h.2.1, h.2.2⟩

/-! ## `between` returns exactly the in-range entries -/

/-- The specification predicate of `between`: the entry's composite key
is above `min` (strictly, or weakly when `incMin`) and below `max`
(strictly, or weakly when `incMax`), under the index comparator's
composite order. -/
def betweenPred (cmp : Val → Val → Int) (min max : Val)
    (incMin incMax : Bool) (e : RangeEntry) : Bool :=
  let cL := compositeCompare cmp e.value min
  let cU := compositeCompare cmp e.value max
  decide ((cL > 0 ∨ (incMin = true ∧ cL = 0)) ∧ (cU < 0 ∨ (incMax = true ∧ cU = 0)))

/-- Entry order implies value order. -/
theorem value_le_of_entry_le {cmp : Val → Val → Int} {a b : RangeEntry}
    (h : entryCmpFn cmp a b ≤ 0) :
    compositeCompare cmp a.value b.value ≤ 0 := by
  unfold entryCmpFn at h
  by_cases hc : compositeCompare cmp a.value b.value = 0
  · omega
  · simpa [hc] using h

/-- On a value-sorted list the collecting scan of `between` computes
exactly the filter by `betweenPred`: once an entry violates the upper
bound every later entry does, so the early `break` loses nothing, and
the collected entries are precisely those passing both bound checks. -/
theorem betweenScan_eq_filter {Q : Val → Prop} {cmp : Val → Val → Int}
    (L : LawfulCmpOn Q (compositeCompare cmp))
    (min max : Val) (hQmin : Q min) (hQmax : Q max) (iMin iMax : Bool) :
    ∀ (l : List RangeEntry),
      l.Pairwise (fun a b => compositeCompare cmp a.value b.value ≤ 0) →
      (∀ e ∈ l, Q e.value) →
      betweenScan cmp min max iMin iMax l =
        l.filter (betweenPred cmp min max iMin iMax) := by
  intro l
  induction l with
  | nil => intro _ _; rfl
  | cons e rest ih =>
    intro hpw hdom
    have hhead : ∀ b ∈ rest, compositeCompare cmp e.value b.value ≤ 0 :=
      (List.pairwise_cons.mp hpw).1
    have hrest := (List.pairwise_cons.mp hpw).2
    have hde : Q e.value := hdom e (by simp)
    have hdrest : ∀ x ∈ rest, Q x.value := fun x hx => hdom x (by simp [hx])
    simp only [betweenScan]
    by_cases hbr : compositeCompare cmp e.value max > 0 ∨
        (¬iMax ∧ compositeCompare cmp e.value max = 0)
    · simp only [if_pos hbr]
      have hall : ∀ x ∈ e :: rest, ¬ betweenPred cmp min max iMin iMax x = true := by
        intro x hx
        have hxQ : Q x.value := hdom x hx
        have hupper : ¬ (compositeCompare cmp x.value max < 0 ∨
            (iMax = true ∧ compositeCompare cmp x.value max = 0)) := by
          have hle : compositeCompare cmp e.value x.value ≤ 0 := by
            rcases List.mem_cons.mp hx with rfl | hx'
            · exact le_of_eq (L.refl0 hde)
            · exact hhead x hx'
          rcases hbr with hgt | ⟨hnm, heq⟩
          · intro hcon
            rcases hcon with hlt | ⟨_, heq0⟩
            · have := L.lt_of_le_of_lt hde hxQ hQmax hle hlt
              omega
            · have hxm : compositeCompare cmp x.value max ≤ 0 := le_of_eq heq0
              have := L.le_trans e.value x.value max hde hxQ hQmax hle hxm
              omega
          · intro hcon
            rcases hcon with hlt | ⟨him, _⟩
            · have := L.lt_of_le_of_lt hde hxQ hQmax hle hlt
              omega
            · simp_all
        simp only [betweenPred, decide_eq_true_eq]
        intro ⟨_, h2⟩
        exact hupper h2
      rw [List.filter_eq_nil_iff.mpr hall]
    · simp only [if_neg hbr]
      have hupperE : (compositeCompare cmp e.value max < 0 ∨
          (iMax = true ∧ compositeCompare cmp e.value max = 0)) := by
        by_cases him : iMax <;> simp [him] at hbr ⊢ <;> omega
      rw [ih hrest hdrest]
      by_cases hlow : compositeCompare cmp e.value min > 0 ∨
          (iMin ∧ compositeCompare cmp e.value min = 0)
      · have hpred : betweenPred cmp min max iMin iMax e = true := by
          simp only [betweenPred, decide_eq_true_eq]
          constructor
          · rcases hlow with h | ⟨h1, h2⟩
            · exact Or.inl h
            · exact Or.inr ⟨by simpa using h1, h2⟩
          · exact hupperE
        simp [if_pos hlow, List.filter_cons, hpred]
      · have hpred : ¬ betweenPred cmp min max iMin iMax e = true := by
          simp only [betweenPred, decide_eq_true_eq]
          intro ⟨h1, _⟩
          apply hlow
          rcases h1 with h | ⟨h1, h2⟩
          · exact Or.inl h
          · exact Or.inr ⟨by simpa using h1, h2⟩
        simp [if_neg hlow, List.filter_cons, hpred]

/-- The lower-bound search of `between` discards only entries that fail
the lower bound, so composing it with the scan yields the filter of the
whole backing array. -/
theorem betweenEntries_eq_filter {Q : Val → Prop} {cmp : Val → Val → Int}
    (L : LawfulCmpOn Q (compositeCompare cmp))
    (arr : List RangeEntry) (min max : Val) (hQmin : Q min) (hQmax : Q max)
    (iMin iMax : Bool)
    (hsorted : arr.Pairwise (fun a b => compositeCompare cmp a.value b.value ≤ 0))
    (hdom : ∀ e ∈ arr, Q e.value) :
    betweenScan cmp min max iMin iMax
        (arr.drop (lowerBound arr ⟨min, vundef⟩
          (fun a b => compositeCompare cmp a.value b.value))) =
      arr.filter (betweenPred cmp min max iMin iMax) := by
  set vcmp := fun a b : RangeEntry => compositeCompare cmp a.value b.value with hvcmp
  have hpwAll : ∀ i j, i < j → j < arr.length →
      compositeCompare cmp (arr.getD i ⟨min, vundef⟩).value
        (arr.getD j ⟨min, vundef⟩).value ≤ 0 := by
    intro i j hij hj
    rw [List.getD_eq_getElem arr _ (by omega), List.getD_eq_getElem arr _ hj]
    exact List.pairwise_iff_getElem.mp hsorted i j (by omega) hj hij
  have hmono : ∀ i j, i ≤ j → j < arr.length →
      vcmp (arr.getD j ⟨min, vundef⟩) ⟨min, vundef⟩ < 0 →
      vcmp (arr.getD i ⟨min, vundef⟩) ⟨min, vundef⟩ < 0 := by
    intro i j hij hj hlt
    rcases Nat.eq_or_lt_of_le hij with rfl | hij'
    · exact hlt
    · have hle := hpwAll i j hij' hj
      have hdi : (arr.getD i ⟨min, vundef⟩) ∈ arr := by
        rw [List.getD_eq_getElem arr _ (by omega)]
        exact List.getElem_mem _
      have hdj : (arr.getD j ⟨min, vundef⟩) ∈ arr := by
        rw [List.getD_eq_getElem arr _ hj]
        exact List.getElem_mem _
      exact L.lt_of_le_of_lt (hdom _ hdi) (hdom _ hdj) hQmin hle hlt
  obtain ⟨hlen, hbefore, hafter⟩ :=
    lowerBound_spec arr ⟨min, vundef⟩ vcmp hmono
  set pos := lowerBound arr ⟨min, vundef⟩ vcmp with hpos
  have hscan := betweenScan_eq_filter L min max hQmin hQmax iMin iMax
    (arr.drop pos)
    (hsorted.sublist (List.drop_sublist pos arr))
    (fun e he => hdom e (List.mem_of_mem_drop he))
  rw [hscan]
  conv_rhs => rw [← List.take_append_drop pos arr]
  rw [List.filter_append]
  have htake : (arr.take pos).filter (betweenPred cmp min max iMin iMax) = [] := by
    apply List.filter_eq_nil_iff.mpr
    intro e he
    obtain ⟨i, hi, hei⟩ := List.mem_iff_getElem.mp he
    have hilen : i < arr.length := by
      have := List.length_take_le pos arr
      omega
    have hipos : i < pos := by
      have h1 : (arr.take pos).length = Min.min pos arr.length := List.length_take ..
      omega
    have hei2 : arr[i] = e := by
      rw [← hei]
      symm
      exact List.getElem_take ..
    have hlt := hbefore i hipos
    rw [List.getD_eq_getElem arr _ hilen, hei2] at hlt
    simp only [betweenPred, decide_eq_true_eq]
    intro ⟨h1, _⟩
    simp only [hvcmp] at hlt
    omega
  rw [htake, List.nil_append]

/-! ## Association-list map lemmas

`beq` behaves as equality on a domain `D` of keys; JS maps additionally
keep their keys pairwise distinct. -/

/-- `beq` decides equality for left arguments in `D`. -/
def ALLawful (beq : κ → κ → Bool) (D : κ → Prop) : Prop :=
  ∀ a b, D a → (beq a b = true ↔ a = b)

section ALLemmas

variable {κ ν : Type _} {beq : κ → κ → Bool} {D : κ → Prop}
variable {m : List (κ × ν)} {k k' : κ} {v w : ν}

theorem alGet_nil : alGet beq ([] : List (κ × ν)) k = none := rfl

theorem alGet_cons (p : κ × ν) (rest : List (κ × ν)) :
    alGet beq (p :: rest) k =
      if beq p.1 k = true then some p.2 else alGet beq rest k := by
  cases p
  rfl

theorem alGet_append (m2 : List (κ × ν)) :
    alGet beq (m ++ m2) k =
      (match alGet beq m k with
       | some v => some v
       | none => alGet beq m2 k) := by
  induction m with
  | nil => rfl
  | cons p rest ih =>
    rw [List.cons_append, alGet_cons, alGet_cons]
    by_cases h : beq p.1 k = true
    · rw [if_pos h, if_pos h]
    · rw [if_neg h, if_neg h, ih]

theorem alGet_eq_none_iff :
    alGet beq m k = none ↔ ∀ p ∈ m, beq p.1 k = false := by
  induction m with
  | nil => simp [alGet_nil]
  | cons p rest ih =>
    rw [alGet_cons]
    by_cases h : beq p.1 k = true
    · simp [if_pos h, h]
    · rw [if_neg h, ih]
      simp only [Bool.not_eq_true] at h
      simp [h]

theorem alGet_mem (h : alGet beq m k = some v) :
    ∃ k', (k', v) ∈ m ∧ beq k' k = true := by
  induction m with
  | nil => simp [alGet_nil] at h
  | cons p rest ih =>
    rw [alGet_cons] at h
    by_cases hb : beq p.1 k = true
    · rw [if_pos hb] at h
      exact ⟨p.1, by simp [← Option.some.injEq _ _ |>.mp h], hb⟩
    · rw [if_neg hb] at h
      obtain ⟨k', hk1, hk2⟩ := ih h
      exact ⟨k', by simp [hk1], hk2⟩

theorem alGet_mem_of_lawful (hlaw : ALLawful beq D) (hD : ∀ p ∈ m, D p.1)
    (h : alGet beq m k = some v) : (k, v) ∈ m := by
  obtain ⟨k', hk1, hk2⟩ := alGet_mem h
  have : k' = k := (hlaw k' k (hD _ hk1)).mp hk2
  exact this ▸ hk1

/-- The replacement map inside `alSet`'s present-key branch, looked up
at the written key. -/
theorem alGet_replace_self (hlaw : ALLawful beq D) (hD : ∀ p ∈ m, D p.1)
    (hDk : D k) (v : ν) :
    alGet beq (m.map (fun p => if beq p.1 k = true then (k, v) else p)) k =
      if alHas beq m k then some v else none := by
  induction m with
  | nil => simp [alGet_nil, alHas]
  | cons p rest ih =>
    by_cases hb : beq p.1 k = true
    · have hhas : alHas beq (p :: rest) k = true := by
        simp [alHas, alGet_cons, if_pos hb]
      rw [List.map_cons, if_pos hb, alGet_cons, hhas]
      simp only [if_pos ((hlaw k k hDk).mpr rfl), if_true]
    · have hhas : alHas beq (p :: rest) k = alHas beq rest k := by
        simp [alHas, alGet_cons, if_neg hb]
      rw [List.map_cons, if_neg hb, alGet_cons, if_neg hb, hhas]
      exact ih (fun q hq => hD q (by simp [hq]))

/-- The replacement map, looked up at a different key. -/
theorem alGet_replace_ne (hlaw : ALLawful beq D) (hD : ∀ p ∈ m, D p.1)
    (hDk : D k) (hne : k' ≠ k) (v : ν) :
    alGet beq (m.map (fun p => if beq p.1 k = true then (k, v) else p)) k' =
      alGet beq m k' := by
  have hkk' : beq k k' = false := by
    by_contra h
    simp only [Bool.not_eq_false] at h
    exact hne ((hlaw k k' hDk).mp h).symm
  induction m with
  | nil => rfl
  | cons p rest ih =>
    by_cases hb : beq p.1 k = true
    · have hpk : p.1 = k := (hlaw p.1 k (hD p (by simp))).mp hb
      rw [List.map_cons, if_pos hb, alGet_cons, alGet_cons]
      simp only []
      rw [hpk, hkk']
      simp only [Bool.false_eq_true, if_false]
      exact ih (fun q hq => hD q (by simp [hq]))
    · rw [List.map_cons, if_neg hb, alGet_cons, alGet_cons]
      by_cases hk' : beq p.1 k' = true
      · rw [if_pos hk', if_pos hk']
      · rw [if_neg hk', if_neg hk']
        exact ih (fun q hq => hD q (by simp [hq]))

theorem alGet_set_self (hlaw : ALLawful beq D) (hD : ∀ p ∈ m, D p.1)
    (hDk : D k) (v : ν) : alGet beq (alSet beq m k v) k = some v := by
  unfold alSet
  by_cases hh : alHas beq m k
  · rw [if_pos hh, alGet_replace_self hlaw hD hDk, if_pos hh]
  · rw [if_neg hh, alGet_append]
    have hnone : alGet beq m k = none := by
      cases hmk : alGet beq m k
      · rfl
      · simp [alHas, hmk] at hh
    rw [hnone]
    simp [alGet_cons, (hlaw k k hDk).mpr rfl]

theorem alGet_set_ne (hlaw : ALLawful beq D) (hD : ∀ p ∈ m, D p.1)
    (hDk : D k) (hne : k' ≠ k) (v : ν) :
    alGet beq (alSet beq m k v) k' = alGet beq m k' := by
  have hkk' : beq k k' = false := by
    by_contra h
    simp only [Bool.not_eq_false] at h
    exact hne ((hlaw k k' hDk).mp h).symm
  unfold alSet
  by_cases hh : alHas beq m k
  · rw [if_pos hh, alGet_replace_ne hlaw hD hDk hne]
  · rw [if_neg hh, alGet_append]
    cases hr : alGet beq m k' with
    | none => simp [alGet_cons, alGet_nil, hkk']
    | some w => rfl

theorem alGet_del_self : alGet beq (alDel beq m k) k = none := by
  rw [alGet_eq_none_iff]
  intro p hp
  have := List.of_mem_filter hp
  simpa using this

theorem alGet_del_ne (hlaw : ALLawful beq D) (hD : ∀ p ∈ m, D p.1)
    (hne : k' ≠ k) : alGet beq (alDel beq m k) k' = alGet beq m k' := by
  unfold alDel
  induction m with
  | nil => rfl
  | cons p rest ih =>
    rw [List.filter_cons]
    by_cases hb : beq p.1 k = true
    · have hpk : p.1 = k := (hlaw p.1 k (hD p (by simp))).mp hb
      have hpk' : beq p.1 k' = false := by
        by_contra h
        simp only [Bool.not_eq_false] at h
        exact hne (by rw [← (hlaw p.1 k' (hD p (by simp))).mp h, hpk])
      rw [if_neg (by simp [hb]), alGet_cons, if_neg (by simp [hpk'])]
      exact ih (fun q hq => hD q (by simp [hq]))
    · rw [if_pos (by simp [hb]), alGet_cons, alGet_cons]
      by_cases hk' : beq p.1 k' = true
      · rw [if_pos hk', if_pos hk']
      · rw [if_neg hk', if_neg hk']
        exact ih (fun q hq => hD q (by simp [hq]))

theorem alSet_of_not_has (hh : alHas beq m k = false) (v : ν) :
    alSet beq m k v = m ++ [(k, v)] := by
  simp [alSet, hh]

/-- Splitting view of replacement and deletion at a present key, under
distinct keys. -/
theorem alSet_split (hlaw : ALLawful beq D) (hD : ∀ p ∈ m, D p.1)
    (hnodup : (m.map Prod.fst).Nodup)
    (hget : alGet beq m k = some w) (v : ν) :
    ∃ l1 l2, m = l1 ++ (k, w) :: l2 ∧
      alSet beq m k v = l1 ++ (k, v) :: l2 ∧
      alDel beq m k = l1 ++ l2 := by
  induction m with
  | nil => simp [alGet_nil] at hget
  | cons p rest ih =>
    rw [alGet_cons] at hget
    by_cases hb : beq p.1 k = true
    · have hpk : p.1 = k := (hlaw p.1 k (hD p (by simp))).mp hb
      rw [if_pos hb] at hget
      have hw : p.2 = w := Option.some.injEq _ _ |>.mp hget
      have hknotin : ∀ q ∈ rest, beq q.1 k = false := by
        intro q hq
        by_contra h
        simp only [Bool.not_eq_false] at h
        have hqk : q.1 = k := (hlaw q.1 k (hD q (by simp [hq]))).mp h
        rw [List.map_cons, List.nodup_cons] at hnodup
        exact hnodup.1 (hpk ▸ hqk ▸ List.mem_map_of_mem Prod.fst hq)
      have hhas : alHas beq (p :: rest) k = true := by
        simp [alHas, alGet_cons, if_pos hb]
      refine ⟨[], rest, ?_, ?_, ?_⟩
      · simp [← hpk, ← hw]
      · rw [alSet, if_pos hhas, List.map_cons, if_pos hb, List.nil_append]
        congr 1
        have : ∀ q ∈ rest, (if beq q.1 k = true then (k, v) else q) = id q := by
          intro q hq
          rw [if_neg (by simp [hknotin q hq])]
          rfl
        rw [List.map_congr_left this, List.map_id]
      · rw [alDel, List.filter_cons, if_neg (by simp [hb]), List.nil_append]
        apply List.filter_eq_self.mpr
        intro q hq
        simp [hknotin q hq]
    · rw [if_neg hb] at hget
      have hnodup' : (rest.map Prod.fst).Nodup := by
        rw [List.map_cons, List.nodup_cons] at hnodup
        exact hnodup.2
      obtain ⟨l1, l2, h1, h2, h3⟩ := ih (fun q hq => hD q (by simp [hq])) hnodup' hget
      have hhas : alHas beq (p :: rest) k = alHas beq rest k := by
        simp [alHas, alGet_cons, if_neg hb]
      have hhasr : alHas beq rest k = true := by simp [alHas, hget]
      refine ⟨p :: l1, l2, by simp [h1], ?_, ?_⟩
      · rw [alSet, hhas, if_pos hhasr, List.map_cons, if_neg hb, List.cons_append]
        congr 1
        rw [alSet, if_pos hhasr] at h2
        exact h2
      · rw [alDel, List.filter_cons, if_pos (by simp [hb]), List.cons_append]
        rw [alDel] at h3
        rw [h3]

theorem alNodup_del (hnodup : (m.map Prod.fst).Nodup) :
    ((alDel beq m k).map Prod.fst).Nodup := by
  apply List.Nodup.sublist _ hnodup
  exact List.Sublist.map _ (List.filter_sublist m)

theorem alNodup_set (hlaw : ALLawful beq D) (hD : ∀ p ∈ m, D p.1)
    (hDk : D k) (hnodup : (m.map Prod.fst).Nodup) (v : ν) :
    ((alSet beq m k v).map Prod.fst).Nodup := by
  unfold alSet
  by_cases hh : alHas beq m k
  · rw [if_pos hh]
    have hmapkeys : ((m.map (fun p => if beq p.1 k = true then (k, v) else p)).map
        Prod.fst) = m.map Prod.fst := by
      rw [List.map_map]
      apply List.map_congr_left
      intro p hp
      by_cases hb : beq p.1 k = true
      · have hpk := (hlaw p.1 k (hD p hp)).mp hb
        show (if beq p.1 k = true then (k, v) else p).1 = p.1
        rw [if_pos hb]
        exact hpk.symm
      · show (if beq p.1 k = true then (k, v) else p).1 = p.1
        rw [if_neg hb]
    rw [hmapkeys]
    exact hnodup
  · rw [if_neg hh, List.map_append]
    simp only [List.map_cons, List.map_nil]
    rw [List.nodup_append]
    refine ⟨hnodup, by simp, ?_⟩
    intro a ha
    simp only [List.mem_singleton]
    intro hak
    rw [hak] at ha
    obtain ⟨p, hp, hpk⟩ := List.mem_map.mp ha
    have hbk : beq p.1 k = true := (hlaw p.1 k (hD p hp)).mpr hpk
    have hne : alGet beq m k ≠ none := by
      intro hmk
      rw [alGet_eq_none_iff] at hmk
      have hcontra := hmk p hp
      rw [hbk] at hcontra
      cases hcontra
    cases hmk : alGet beq m k
    · exact hne hmk
    · simp [alHas, hmk] at hh

end ALLemmas

/-! ## JS `Set` lemmas (scalar members) -/

theorem jsStrictEq_iff_of_scalar_right {a b : Val} (h : isScalar b = true) :
    jsStrictEq a b = true ↔ a = b := by
  cases a <;> cases b <;> simp_all [jsStrictEq, isScalar] <;> exact comm

theorem setHas_iff {l : List Val} {x : Val} (h : isScalar x = true) :
    setHas l x = true ↔ x ∈ l := by
  simp only [setHas, List.any_eq_true]
  constructor
  · rintro ⟨y, hy, hxy⟩
    rwa [← (jsStrictEq_iff_of_scalar_right h).mp hxy]
  · intro hx
    exact ⟨x, hx, (jsStrictEq_iff_of_scalar_right h).mpr rfl⟩

theorem mem_setAdd {l : List Val} {x y : Val} (h : isScalar x = true) :
    y ∈ setAdd l x ↔ y ∈ l ∨ y = x := by
  unfold setAdd
  by_cases hh : setHas l x = true
  · have hx : x ∈ l := (setHas_iff h).mp hh
    simp only [if_pos hh]
    constructor
    · exact Or.inl
    · rintro (hy | rfl)
      · exact hy
      · exact hx
  · simp [hh]

theorem mem_setDel {l : List Val} {x y : Val} (h : isScalar x = true) :
    y ∈ setDel l x ↔ y ∈ l ∧ y ≠ x := by
  unfold setDel
  rw [List.mem_filter]
  constructor
  · rintro ⟨h1, h2⟩
    refine ⟨h1, ?_⟩
    intro he
    subst he
    simp [(jsStrictEq_iff_of_scalar_right h).mpr rfl] at h2
  · rintro ⟨h1, h2⟩
    refine ⟨h1, ?_⟩
    have hc : jsStrictEq y x = false := by
      cases hc : jsStrictEq y x
      · rfl
      · exact absurd ((jsStrictEq_iff_of_scalar_right h).mp hc) h2
    simp [hc]

theorem nodup_setAdd {l : List Val} {x : Val} (h : isScalar x = true)
    (hn : l.Nodup) : (setAdd l x).Nodup := by
  unfold setAdd
  by_cases hh : setHas l x = true
  · simpa [hh]
  · simp only [if_neg hh]
    rw [List.nodup_append]
    refine ⟨hn, by simp, ?_⟩
    intro a ha
    simp only [List.mem_singleton]
    intro hax
    subst hax
    exact hh ((setHas_iff h).mpr ha)

theorem nodup_setDel {l : List Val} {x : Val} (hn : l.Nodup) :
    (setDel l x).Nodup := hn.filter _

theorem setAdd_ne_nil {l : List Val} {x : Val} : setAdd l x ≠ [] := by
  unfold setAdd
  by_cases hh : setHas l x = true
  · rw [if_pos hh]
    intro he
    subst he
    simp [setHas] at hh
  · rw [if_neg hh]
    simp

/-! ## Trie lemmas -/

theorem charBeq_lawful : ALLawful charBeq (fun _ => True) := by
  intro a b _
  simp [charBeq]

/-- Boolean "is a character-list prefix of". -/
def strPfx : List Char → List Char → Bool
  | [], _ => true
  | _ :: _, [] => false
  | c :: p, d :: q => charBeq c d && strPfx p q

theorem TrieNode.children_mk (ch : List (Char × TrieNode)) (ids : List Val) :
    (TrieNode.mk ch ids).children = ch := rfl

theorem TrieNode.ids_mk (ch : List (Char × TrieNode)) (ids : List Val) :
    (TrieNode.mk ch ids).ids = ids := rfl

theorem strPfx_nil_left (s : List Char) : strPfx [] s = true := rfl

theorem strPfx_nil_right {p : List Char} : strPfx p [] = true ↔ p = [] := by
  cases p <;> simp [strPfx]

theorem strPfx_cons_cons {c d : Char} {p q : List Char} :
    strPfx (c :: p) (d :: q) = true ↔ c = d ∧ strPfx p q = true := by
  simp [strPfx, charBeq]

/-- The id set stored at the node reached by path `p` (empty when the
path does not exist). -/
def idsAt (t : TrieNode) (p : List Char) : List Val :=
  match trieFindNodeL t p with
  | none => []
  | some n => n.ids

theorem idsAt_nil (t : TrieNode) : idsAt t [] = t.ids := rfl

theorem idsAt_cons (t : TrieNode) (c : Char) (p : List Char) :
    idsAt t (c :: p) =
      (match alGet charBeq t.children c with
       | none => []
       | some child => idsAt child p) := by
  show (match trieFindNodeL t (c :: p) with | none => [] | some n => n.ids) = _
  have hstep : trieFindNodeL t (c :: p) =
      (match alGet charBeq t.children c with
       | none => none
       | some child => trieFindNodeL child p) := rfl
  rw [hstep]
  cases alGet charBeq t.children c
  · rfl
  · rfl

theorem trieFindNodeL_mk_ids (ch : List (Char × TrieNode)) (ids1 ids2 : List Val)
    {p : List Char} (hp : p ≠ []) :
    trieFindNodeL (TrieNode.mk ch ids1) p = trieFindNodeL (TrieNode.mk ch ids2) p := by
  cases p with
  | nil => exact absurd rfl hp
  | cons c q => rfl

theorem idsAt_mk_ids (ch : List (Char × TrieNode)) (ids1 ids2 : List Val)
    {p : List Char} (hp : p ≠ []) :
    idsAt (TrieNode.mk ch ids1) p = idsAt (TrieNode.mk ch ids2) p := by
  unfold idsAt
  rw [trieFindNodeL_mk_ids ch ids1 ids2 hp]

theorem idsAt_makeTrieNode {p : List Char} : idsAt makeTrieNode p = [] := by
  cases p with
  | nil => rfl
  | cons c q => simp [idsAt_cons, makeTrieNode, TrieNode.children, alGet_nil]

/-- The trie insert walks into child nodes only: the root's own id set
is untouched. -/
theorem trieInsertL_ids (t : TrieNode) (cs : List Char) (id : Val) :
    (trieInsertL t cs id).ids = t.ids := by
  cases cs with
  | nil => rfl
  | cons c q => rfl

theorem trieInsertL_children_nil (t : TrieNode) (id : Val) :
    trieInsertL t [] id = t := rfl

/-- Membership characterization of `trieInsert`: the id lands on
exactly the nonempty prefixes of the inserted string; every other node
is untouched. -/
theorem mem_idsAt_insert {id : Val} (hsc : isScalar id = true) :
    ∀ (cs : List Char) (t : TrieNode) (p : List Char), p ≠ [] →
    ∀ x, x ∈ idsAt (trieInsertL t cs id) p ↔
      x ∈ idsAt t p ∨ (x = id ∧ strPfx p cs = true) := by
  intro cs
  induction cs with
  | nil =>
    intro t p hp x
    rw [trieInsertL_children_nil]
    cases p with
    | nil => exact absurd rfl hp
    | cons d q => simp [strPfx_nil_right]
  | cons c cs ih =>
    intro t p hp x
    cases p with
    | nil => exact absurd rfl hp
    | cons d q =>
      simp only [trieInsertL]
      by_cases hdc : d = c
      · subst hdc
        rw [idsAt_cons]
        simp only [TrieNode.children_mk]
        rw [alGet_set_self charBeq_lawful (fun _ _ => trivial) trivial]
        simp only []
        set child := (alGet charBeq t.children d).getD makeTrieNode with hchild
        have hchildIds : idsAt t [d] = child.ids := by
          rw [idsAt_cons]
          cases hg : alGet charBeq t.children d
          · simp [hchild, hg, makeTrieNode, TrieNode.ids, idsAt_nil]
          · simp [hchild, hg, idsAt_nil]
        have hchildAt : ∀ q', q' ≠ [] → idsAt t (d :: q') = idsAt child q' := by
          intro q' hq'
          rw [idsAt_cons]
          cases hg : alGet charBeq t.children d
          · simp only [hchild, hg, Option.getD_none]
            rw [idsAt_makeTrieNode]
          · simp [hchild, hg]
        cases hq : q with
        | nil =>
          rw [idsAt_nil, trieInsertL_ids]
          show x ∈ setAdd child.ids id ↔ _
          rw [mem_setAdd hsc, hchildIds]
          simp [strPfx, charBeq]
        | cons e q' =>
          have hqne : q ≠ [] := by simp [hq]
          rw [← hq]
          rw [ih _ q hqne x]
          have h1 : idsAt (TrieNode.mk child.children (setAdd child.ids id)) q =
              idsAt child q := by
            cases child with
            | mk cch cids => exact idsAt_mk_ids cch _ cids hqne
          rw [h1, hchildAt q hqne]
          simp [strPfx_cons_cons]
      · rw [idsAt_cons]
        simp only [TrieNode.children_mk]
        rw [alGet_set_ne charBeq_lawful (fun _ _ => trivial) trivial hdc]
        rw [← idsAt_cons]
        have hpfx : strPfx (d :: q) (c :: cs) = false := by
          cases hsp : strPfx (d :: q) (c :: cs)
          · rfl
          · exact absurd (strPfx_cons_cons.mp hsp).1 hdc
        simp [hpfx]

/-- `trieInsert` keeps every node's id list duplicate-free. -/
theorem nodup_idsAt_insert {id : Val} (hsc : isScalar id = true) :
    ∀ (cs : List Char) (t : TrieNode) (p : List Char), p ≠ [] →
    (idsAt t p).Nodup → (idsAt (trieInsertL t cs id) p).Nodup := by
  intro cs
  induction cs with
  | nil =>
    intro t p hp hn
    rwa [trieInsertL_children_nil]
  | cons c cs ih =>
    intro t p hp hn
    cases p with
    | nil => exact absurd rfl hp
    | cons d q =>
      simp only [trieInsertL]
      by_cases hdc : d = c
      · subst hdc
        rw [idsAt_cons]
        simp only [TrieNode.children_mk]
        rw [alGet_set_self charBeq_lawful (fun _ _ => trivial) trivial]
        simp only []
        set child := (alGet charBeq t.children d).getD makeTrieNode with hchild
        have hchildIds : idsAt t [d] = child.ids := by
          rw [idsAt_cons]
          cases hg : alGet charBeq t.children d
          · simp [hchild, hg, makeTrieNode, TrieNode.ids, idsAt_nil]
          · simp [hchild, hg, idsAt_nil]
        have hchildAt : ∀ q', q' ≠ [] → idsAt t (d :: q') = idsAt child q' := by
          intro q' hq'
          rw [idsAt_cons]
          cases hg : alGet charBeq t.children d
          · simp only [hchild, hg, Option.getD_none]
            rw [idsAt_makeTrieNode]
          · simp [hchild, hg]
        cases hq : q with
        | nil =>
          rw [idsAt_nil, trieInsertL_ids]
          show (setAdd child.ids id).Nodup
          apply nodup_setAdd hsc
          rw [← hchildIds]
          rw [hq] at hn
          exact hn
        | cons e q' =>
          have hqne : q ≠ [] := by simp [hq]
          rw [← hq]
          apply ih _ q hqne
          have h1 : idsAt (TrieNode.mk child.children (setAdd child.ids id)) q =
              idsAt child q := by
            cases child with
            | mk cch cids => exact idsAt_mk_ids cch _ cids hqne
          rw [h1, ← hchildAt q hqne]
          exact hn
      · rw [idsAt_cons]
        simp only [TrieNode.children_mk]
        rw [alGet_set_ne charBeq_lawful (fun _ _ => trivial) trivial hdc]
        rw [← idsAt_cons]
        exact hn

/-- Full specification of the functional `trieRemoveGo` when every
nonempty prefix of the removed string has the id on its node (which is
how the collection always calls it): the walk cannot abort, the root's
ids are untouched, and the id disappears from exactly the nonempty
prefixes of the string, with pruning of emptied nodes losing no other
membership. -/
theorem trieRemoveGo_spec {id : Val} (hsc : isScalar id = true) :
    ∀ (cs : List Char) (t : TrieNode),
    (∀ q, q ≠ [] → strPfx q cs = true → id ∈ idsAt t q) →
    ∃ t', trieRemoveGo id t cs = some t' ∧ t'.ids = t.ids ∧
      ∀ p, p ≠ [] → ∀ x, x ∈ idsAt t' p ↔
        (x ∈ idsAt t p ∧ ¬(x = id ∧ strPfx p cs = true)) := by
  intro cs
  induction cs with
  | nil =>
    intro t _
    refine ⟨t, rfl, rfl, ?_⟩
    intro p hp x
    have : strPfx p [] = true ↔ p = [] := strPfx_nil_right
    simp [hp, this]
  | cons c cs ih =>
    intro t hfull
    have hc : id ∈ idsAt t [c] := hfull [c] (by simp) (by simp [strPfx, charBeq])
    cases hg : alGet charBeq t.children c with
    | none =>
      rw [idsAt_cons, hg] at hc
      cases hc
    | some child =>
      have hchildAt : ∀ q', idsAt t (c :: q') = idsAt child q' := by
        intro q'
        rw [idsAt_cons, hg]
      have hfull' : ∀ q, q ≠ [] → strPfx q cs = true → id ∈ idsAt child q := by
        intro q hq hpfx
        have := hfull (c :: q) (by simp) (strPfx_cons_cons.mpr ⟨rfl, hpfx⟩)
        rwa [hchildAt] at this
      obtain ⟨child1, hgo, hids1, hchar⟩ := ih child hfull'
      simp only [trieRemoveGo, hg, hgo]
      set child2 := TrieNode.mk child1.children (setDel child1.ids id) with hchild2
      have hch2children : child2.children = child1.children := rfl
      have hch2ids : child2.ids = setDel child1.ids id := rfl
      have hch2At : ∀ q', q' ≠ [] → idsAt child2 q' = idsAt child1 q' := by
        intro q' hq'
        cases child1 with
        | mk cch cids => exact idsAt_mk_ids cch _ cids hq'
      by_cases hcond : child2.ids.isEmpty ∧ child2.children.isEmpty
      · rw [if_pos hcond]
        refine ⟨_, rfl, rfl, ?_⟩
        intro p hp x
        cases p with
        | nil => exact absurd rfl hp
        | cons d q =>
          by_cases hdc : d = c
          · subst hdc
            rw [idsAt_cons]
            simp only [TrieNode.children_mk]
            rw [alGet_del_self]
            simp only [List.not_mem_nil, false_iff]
            rw [hchildAt]
            intro ⟨hmem, hnot⟩
            have hxid : x ≠ id ∨ strPfx q cs ≠ true := by
              by_cases hx : x = id
              · subst hx
                refine Or.inr ?_
                intro hpfx
                exact hnot ⟨rfl, strPfx_cons_cons.mpr ⟨rfl, hpfx⟩⟩
              · exact Or.inl hx
            cases hq : q with
            | nil =>
              rw [hq] at hmem
              rw [idsAt_nil] at hmem
              have hxmem : x ∈ setDel child1.ids id := by
                rw [mem_setDel hsc, hids1]
                refine ⟨hmem, ?_⟩
                intro hx
                subst hx
                exact hnot ⟨rfl, by simp [strPfx, charBeq, hq]⟩
              have hempty : setDel child1.ids id = [] := by
                have := hcond.1
                rw [hch2ids] at this
                exact List.isEmpty_iff.mp this
              rw [hempty] at hxmem
              cases hxmem
            | cons e q' =>
              have hqne : q ≠ [] := by simp [hq]
              rw [← hq] at *
              have hx1 : x ∈ idsAt child1 q := by
                rw [hchar q hqne x]
                refine ⟨hmem, ?_⟩
                intro ⟨hx, hpfx⟩
                exact hnot ⟨hx, strPfx_cons_cons.mpr ⟨rfl, hpfx⟩⟩
              have hempty : child1.children = [] := by
                have := hcond.2
                rw [hch2children] at this
                exact List.isEmpty_iff.mp this
              cases hq2 : q with
              | nil => exact absurd hq2 hqne
              | cons f q2 =>
                rw [hq2] at hx1
                rw [idsAt_cons, hempty, alGet_nil] at hx1
                cases hx1
          · rw [idsAt_cons]
            simp only [TrieNode.children_mk]
            rw [alGet_del_ne charBeq_lawful (fun _ _ => trivial) hdc, ← idsAt_cons]
            have hpfx : strPfx (d :: q) (c :: cs) = false := by
              cases hsp : strPfx (d :: q) (c :: cs)
              · rfl
              · exact absurd (strPfx_cons_cons.mp hsp).1 hdc
            simp [hpfx]
      · rw [if_neg hcond]
        refine ⟨_, rfl, rfl, ?_⟩
        intro p hp x
        cases p with
        | nil => exact absurd rfl hp
        | cons d q =>
          by_cases hdc : d = c
          · subst hdc
            rw [idsAt_cons]
            simp only [TrieNode.children_mk]
            rw [alGet_set_self charBeq_lawful (fun _ _ => trivial) trivial]
            simp only []
            cases hq : q with
            | nil =>
              rw [idsAt_nil, hch2ids, mem_setDel hsc, hids1]
              have hteq : idsAt t [d] = child.ids := by
                rw [idsAt_cons, hg]
                exact idsAt_nil child
              constructor
              · intro ⟨h1, h2⟩
                refine ⟨by rw [hteq]; exact h1, ?_⟩
                intro ⟨hx, _⟩
                exact h2 hx
              · intro ⟨h1, h2⟩
                rw [hteq] at h1
                refine ⟨h1, ?_⟩
                intro hx
                exact h2 ⟨hx, by simp [strPfx, charBeq]⟩
            | cons e q' =>
              have hqne : q ≠ [] := by simp [hq]
              rw [← hq]
              rw [hch2At q hqne, hchar q hqne x, ← hchildAt]
              constructor
              · intro ⟨h1, h2⟩
                refine ⟨h1, ?_⟩
                intro ⟨hx, hpfx⟩
                exact h2 ⟨hx, (strPfx_cons_cons.mp hpfx).2⟩
              · intro ⟨h1, h2⟩
                refine ⟨h1, ?_⟩
                intro ⟨hx, hpfx⟩
                exact h2 ⟨hx, strPfx_cons_cons.mpr ⟨rfl, hpfx⟩⟩
          · rw [idsAt_cons]
            simp only [TrieNode.children_mk]
            rw [alGet_set_ne charBeq_lawful (fun _ _ => trivial) trivial hdc,
              ← idsAt_cons]
            have hpfx : strPfx (d :: q) (c :: cs) = false := by
              cases hsp : strPfx (d :: q) (c :: cs)
              · rfl
              · exact absurd (strPfx_cons_cons.mp hsp).1 hdc
            simp [hpfx]

/-- Characterization of `trieRemove` on a trie that has the id along
the whole removed string. -/
theorem mem_idsAt_remove {id : Val} (hsc : isScalar id = true)
    {t : TrieNode} {cs : List Char}
    (hfull : ∀ q, q ≠ [] → strPfx q cs = true → id ∈ idsAt t q) :
    ∀ p, p ≠ [] → ∀ x, x ∈ idsAt ((trieRemoveGo id t cs).getD t) p ↔
      (x ∈ idsAt t p ∧ ¬(x = id ∧ strPfx p cs = true)) := by
  obtain ⟨t', hgo, _, hchar⟩ := trieRemoveGo_spec hsc cs t hfull
  rw [hgo]
  exact hchar

/-- The functional removal never touches the ids of the node it is
called on. -/
theorem trieRemoveGo_ids {id : Val} {t t' : TrieNode} {cs : List Char}
    (h : trieRemoveGo id t cs = some t') : t'.ids = t.ids := by
  cases cs with
  | nil =>
    simp only [trieRemoveGo] at h
    cases h
    rfl
  | cons c cs =>
    cases hg : alGet charBeq t.children c with
    | none =>
      simp only [trieRemoveGo, hg] at h
      exact Option.noConfusion h
    | some child =>
      cases hrec : trieRemoveGo id child cs with
      | none =>
        simp only [trieRemoveGo, hg, hrec] at h
        exact Option.noConfusion h
      | some child1 =>
        simp only [trieRemoveGo, hg, hrec] at h
        by_cases hcond : (TrieNode.mk child1.children (setDel child1.ids id)).ids.isEmpty ∧
            (TrieNode.mk child1.children (setDel child1.ids id)).children.isEmpty
        · rw [if_pos hcond] at h
          cases h
          rfl
        · rw [if_neg hcond] at h
          cases h
          rfl

/-- `trieRemove` keeps every node's id list duplicate-free
(unconditionally: id lists only shrink or vanish). -/
theorem nodup_idsAt_removeGo {id : Val} :
    ∀ (cs : List Char) (t : TrieNode) (t' : TrieNode),
    trieRemoveGo id t cs = some t' →
    ∀ p, p ≠ [] → (idsAt t p).Nodup → (idsAt t' p).Nodup := by
  intro cs
  induction cs with
  | nil =>
    intro t t' hgo p hp hn
    simp only [trieRemoveGo] at hgo
    cases hgo
    exact hn
  | cons c cs ih =>
    intro t t' hgo p hp hn
    cases hg : alGet charBeq t.children c with
    | none =>
      simp only [trieRemoveGo, hg] at hgo
      exact Option.noConfusion hgo
    | some child =>
      cases hrec : trieRemoveGo id child cs with
      | none =>
        simp only [trieRemoveGo, hg, hrec] at hgo
        exact Option.noConfusion hgo
      | some child1 =>
        simp only [trieRemoveGo, hg, hrec] at hgo
        set child2 := TrieNode.mk child1.children (setDel child1.ids id) with hchild2
        by_cases hcond : child2.ids.isEmpty ∧ child2.children.isEmpty
        · rw [if_pos hcond] at hgo
          cases hgo
          cases p with
          | nil => exact absurd rfl hp
          | cons d q =>
            rw [idsAt_cons]
            simp only [TrieNode.children_mk]
            by_cases hdc : d = c
            · subst hdc
              rw [alGet_del_self]
              simp
            · rw [alGet_del_ne charBeq_lawful (fun _ _ => trivial) hdc, ← idsAt_cons]
              exact hn
        · rw [if_neg hcond] at hgo
          cases hgo
          cases p with
          | nil => exact absurd rfl hp
          | cons d q =>
            rw [idsAt_cons]
            simp only [TrieNode.children_mk]
            by_cases hdc : d = c
            · subst hdc
              rw [alGet_set_self charBeq_lawful (fun _ _ => trivial) trivial]
              simp only []
              have hids1 : child1.ids = child.ids := trieRemoveGo_ids hrec
              cases hq : q with
              | nil =>
                show (idsAt child2 []).Nodup
                rw [idsAt_nil, hchild2, TrieNode.ids_mk]
                apply nodup_setDel
                rw [hids1]
                have := hn
                rw [hq, idsAt_cons, hg] at this
                exact this
              | cons e q' =>
                have hqne : q ≠ [] := by simp [hq]
                rw [← hq]
                have h1 : idsAt child2 q = idsAt child1 q := by
                  cases child1 with
                  | mk cch cids => exact idsAt_mk_ids cch _ cids hqne
                rw [h1]
                apply ih child child1 hrec q hqne
                have := hn
                rw [idsAt_cons, hg] at this
                exact this
            · rw [alGet_set_ne charBeq_lawful (fun _ _ => trivial) trivial hdc,
                ← idsAt_cons]
              exact hn

/-! ## The pruning invariant (every non-root reachable node is
nonempty) -/

/-- Every node reachable from the root along a nonempty path has a
nonempty id set or a nonempty child map.  The root itself (the empty
path) is exempt — and, in this functional model, structurally never
removed: `trieRemove` always returns a root node. -/
def TrieOk (t : TrieNode) : Prop :=
  ∀ p : List Char, p ≠ [] → ∀ n, trieFindNodeL t p = some n →
    (n.ids ≠ [] ∨ n.children ≠ [])

theorem trieOk_makeTrieNode : TrieOk makeTrieNode := by
  intro p hp n hfind
  cases p with
  | nil => exact absurd rfl hp
  | cons c q =>
    simp only [trieFindNodeL, makeTrieNode, TrieNode.children_mk, alGet_nil] at hfind
    exact Option.noConfusion hfind

theorem trieFindNodeL_cons_some {t child : TrieNode} {c : Char}
    (hg : alGet charBeq t.children c = some child) (p : List Char) :
    trieFindNodeL t (c :: p) = trieFindNodeL child p := by
  simp [trieFindNodeL, hg]

theorem trieOk_child {t child : TrieNode} {c : Char} (hok : TrieOk t)
    (hg : alGet charBeq t.children c = some child) : TrieOk child := by
  intro p hp n hfind
  exact hok (c :: p) (by simp) n (by rw [trieFindNodeL_cons_some hg]; exact hfind)

theorem trieOk_mk_ids {ch : List (Char × TrieNode)} {ids1 ids2 : List Val}
    (h : TrieOk (TrieNode.mk ch ids1)) : TrieOk (TrieNode.mk ch ids2) := by
  intro p hp n hfind
  exact h p hp n (by rwa [trieFindNodeL_mk_ids ch ids1 ids2 hp])

theorem trieOk_mk_children {t : TrieNode} {ids2 : List Val} (h : TrieOk t) :
    TrieOk (TrieNode.mk t.children ids2) := by
  intro p hp n hfind
  cases p with
  | nil => exact absurd rfl hp
  | cons c q => exact h (c :: q) (by simp) n hfind

/-- `trieInsert` preserves the pruning invariant: nodes it creates
immediately receive the inserted id. -/
theorem trieInsertL_ok {id : Val} :
    ∀ (cs : List Char) (t : TrieNode), TrieOk t → TrieOk (trieInsertL t cs id) := by
  intro cs
  induction cs with
  | nil => intro t hok; exact hok
  | cons c cs ih =>
    intro t hok
    intro p hp n hfind
    cases p with
    | nil => exact absurd rfl hp
    | cons d q =>
      simp only [trieInsertL] at hfind
      set child := (alGet charBeq t.children c).getD makeTrieNode with hchild
      set child1 := TrieNode.mk child.children (setAdd child.ids id) with hchild1
      set child2 := trieInsertL child1 cs id with hchild2
      by_cases hdc : d = c
      · subst hdc
        rw [show trieFindNodeL (TrieNode.mk (alSet charBeq t.children d child2) t.ids)
              (d :: q) = trieFindNodeL child2 q from by
            apply trieFindNodeL_cons_some
            exact alGet_set_self charBeq_lawful (fun _ _ => trivial) trivial _] at hfind
        have hokChild : TrieOk child := by
          cases hg : alGet charBeq t.children d with
          | none => rw [hchild, hg]; exact trieOk_makeTrieNode
          | some cc =>
            rw [hchild, hg]
            exact trieOk_child hok hg
        have hokChild1 : TrieOk child1 := by
          rw [hchild1]
          exact trieOk_mk_children hokChild
        have hokChild2 : TrieOk child2 := ih child1 hokChild1
        cases q with
        | nil =>
          simp only [trieFindNodeL] at hfind
          have heq := Option.some.inj hfind
          subst heq
          refine Or.inl ?_
          rw [hchild2, trieInsertL_ids, hchild1, TrieNode.ids_mk]
          exact setAdd_ne_nil
        | cons e q' =>
          exact hokChild2 (e :: q') (by simp) n hfind
      · rw [show trieFindNodeL (TrieNode.mk (alSet charBeq t.children c child2) t.ids)
              (d :: q) =
            (match alGet charBeq t.children d with
             | none => none
             | some ch => trieFindNodeL ch q) from by
            show (match alGet charBeq (alSet charBeq t.children c child2) d with
              | none => none
              | some ch => trieFindNodeL ch q) = _
            rw [alGet_set_ne charBeq_lawful (fun _ _ => trivial) trivial
              (by exact hdc)]] at hfind
        cases hg : alGet charBeq t.children d with
        | none => rw [hg] at hfind; exact Option.noConfusion hfind
        | some ch =>
          rw [hg] at hfind
          exact hok (d :: q) (by simp) n
            (by rw [trieFindNodeL_cons_some hg]; exact hfind)

/-- `trieRemove` preserves the pruning invariant: a node that becomes
empty on both counts is pruned from its parent, bottom-up. -/
theorem trieRemoveGo_ok {id : Val} :
    ∀ (cs : List Char) (t t' : TrieNode), TrieOk t →
    trieRemoveGo id t cs = some t' → TrieOk t' := by
  intro cs
  induction cs with
  | nil =>
    intro t t' hok hgo
    simp only [trieRemoveGo] at hgo
    cases hgo
    exact hok
  | cons c cs ih =>
    intro t t' hok hgo
    cases hg : alGet charBeq t.children c with
    | none =>
      simp only [trieRemoveGo, hg] at hgo
      exact Option.noConfusion hgo
    | some child =>
      cases hrec : trieRemoveGo id child cs with
      | none =>
        simp only [trieRemoveGo, hg, hrec] at hgo
        exact Option.noConfusion hgo
      | some child1 =>
        simp only [trieRemoveGo, hg, hrec] at hgo
        have hokChild1 : TrieOk child1 := ih child child1 (trieOk_child hok hg) hrec
        set child2 := TrieNode.mk child1.children (setDel child1.ids id) with hchild2
        have hokChild2 : TrieOk child2 := by
          rw [hchild2]
          exact trieOk_mk_children hokChild1
        by_cases hcond : child2.ids.isEmpty ∧ child2.children.isEmpty
        · rw [if_pos hcond] at hgo
          cases hgo
          intro p hp n hfind
          cases p with
          | nil => exact absurd rfl hp
          | cons d q =>
            by_cases hdc : d = c
            · subst hdc
              show _
              rw [show trieFindNodeL
                    (TrieNode.mk (alDel charBeq t.children d) t.ids) (d :: q) =
                  (match alGet charBeq (alDel charBeq t.children d) d with
                   | none => none
                   | some ch => trieFindNodeL ch q) from rfl] at hfind
              rw [alGet_del_self] at hfind
              exact Option.noConfusion hfind
            · rw [show trieFindNodeL
                    (TrieNode.mk (alDel charBeq t.children c) t.ids) (d :: q) =
                  (match alGet charBeq (alDel charBeq t.children c) d with
                   | none => none
                   | some ch => trieFindNodeL ch q) from rfl] at hfind
              rw [alGet_del_ne charBeq_lawful (fun _ _ => trivial) hdc] at hfind
              cases hg2 : alGet charBeq t.children d with
              | none => rw [hg2] at hfind; exact Option.noConfusion hfind
              | some ch =>
                rw [hg2] at hfind
                exact hok (d :: q) (by simp) n
                  (by rw [trieFindNodeL_cons_some hg2]; exact hfind)
        · rw [if_neg hcond] at hgo
          cases hgo
          intro p hp n hfind
          cases p with
          | nil => exact absurd rfl hp
          | cons d q =>
            by_cases hdc : d = c
            · subst hdc
              rw [show trieFindNodeL
                    (TrieNode.mk (alSet charBeq t.children d child2) t.ids) (d :: q) =
                  trieFindNodeL child2 q from by
                  apply trieFindNodeL_cons_some
                  exact alGet_set_self charBeq_lawful (fun _ _ => trivial) trivial _]
                at hfind
              cases q with
              | nil =>
                simp only [trieFindNodeL] at hfind
                have heq := Option.some.inj hfind
                subst heq
                by_contra hcon
                push_neg at hcon
                apply hcond
                constructor
                · rw [List.isEmpty_iff]
                  exact hcon.1
                · rw [List.isEmpty_iff]
                  exact hcon.2
              | cons e q' =>
                exact hokChild2 (e :: q') (by simp) n hfind
            · rw [show trieFindNodeL
                    (TrieNode.mk (alSet charBeq t.children c child2) t.ids) (d :: q) =
                  (match alGet charBeq (alSet charBeq t.children c child2) d with
                   | none => none
                   | some ch => trieFindNodeL ch q) from rfl] at hfind
              rw [alGet_set_ne charBeq_lawful (fun _ _ => trivial) trivial hdc] at hfind
              cases hg2 : alGet charBeq t.children d with
              | none => rw [hg2] at hfind; exact Option.noConfusion hfind
              | some ch =>
                rw [hg2] at hfind
                exact hok (d :: q) (by simp) n
                  (by rw [trieFindNodeL_cons_some hg2]; exact hfind)

/-- Pruned-invariant preservation of the public `trieRemove` (no
aborting path can break it, since an abort changes nothing). -/
theorem trieRemove_ok {id : Val} {t : TrieNode} {s : String} (hok : TrieOk t) :
    TrieOk (trieRemove t s id) := by
  unfold trieRemove
  cases hgo : trieRemoveGo id t s.data with
  | none => exact hok
  | some t' => exact trieRemoveGo_ok s.data t t' hok hgo

theorem trieInsert_ok {id : Val} {t : TrieNode} {s : String} (hok : TrieOk t) :
    TrieOk (trieInsert t s id) := trieInsertL_ok s.data t hok

/-! ## Range storage: sorted insert and exact removal -/

theorem insertIdx_eq_take_cons_drop {α : Type _} (x : α) :
    ∀ (n : Nat) (l : List α), n ≤ l.length →
    l.insertIdx n x = l.take n ++ x :: l.drop n := by
  intro n
  induction n with
  | zero => intro l _; simp
  | succ n ih =>
    intro l hl
    cases l with
    | nil => simp at hl
    | cons e rest =>
      rw [List.insertIdx_succ_cons, ih rest (by simpa using hl)]
      simp

/-- Inserting at the `lowerBound` position of a sorted array keeps it
sorted (for a comparator that is lawful on a domain containing the
array's elements and the inserted one). -/
theorem pairwise_insertIdx_lowerBound {β : Type _} {cmp : β → β → Int}
    {Qe : β → Prop} (L : LawfulCmpOn Qe cmp) {arr : List β}
    (hs : arr.Pairwise (fun a b => cmp a b ≤ 0))
    (hdom : ∀ e ∈ arr, Qe e) {x : β} (hx : Qe x) :
    (arr.insertIdx (lowerBound arr x cmp) x).Pairwise
      (fun a b => cmp a b ≤ 0) := by
  have hmono : ∀ i j, i ≤ j → j < arr.length →
      cmp (arr.getD j x) x < 0 → cmp (arr.getD i x) x < 0 := by
    intro i j hij hj hlt
    rcases Nat.eq_or_lt_of_le hij with rfl | hij'
    · exact hlt
    · rw [List.getD_eq_getElem arr _ hj] at hlt
      rw [List.getD_eq_getElem arr _ (by omega)]
      have hle := List.pairwise_iff_getElem.mp hs i j (by omega) hj hij'
      exact L.lt_of_le_of_lt (hdom _ (List.getElem_mem _))
        (hdom _ (List.getElem_mem _)) hx hle hlt
  obtain ⟨hlen, hbefore, hafter⟩ := lowerBound_spec arr x cmp hmono
  set pos := lowerBound arr x cmp with hpos
  rw [insertIdx_eq_take_cons_drop x pos arr hlen]
  have htake : ∀ e ∈ arr.take pos, cmp e x < 0 := by
    intro e he
    obtain ⟨i, hi, hei⟩ := List.mem_iff_getElem.mp he
    have hilen : i < arr.length := by
      have := List.length_take_le pos arr
      omega
    have hipos : i < pos := by
      have := List.length_take pos arr
      omega
    have : arr[i] = e := by
      rw [← hei]
      symm
      exact List.getElem_take ..
    have hlt := hbefore i hipos
    rwa [List.getD_eq_getElem arr _ hilen, this] at hlt
  have hdrop : ∀ e ∈ arr.drop pos, cmp x e ≤ 0 := by
    intro e he
    obtain ⟨i, hi, hei⟩ := List.mem_iff_getElem.mp he
    have hilen : pos + i < arr.length := by
      have := List.length_drop pos arr
      omega
    have : arr[pos + i] = e := by
      rw [← hei]
      symm
      exact List.getElem_drop ..
    have hge := hafter (pos + i) (by omega) hilen
    rw [List.getD_eq_getElem arr _ hilen, this] at hge
    have hQe : Qe e := hdom e (List.mem_of_mem_drop he)
    have := L.flip x e hx hQe
    have := L.flip e x hQe hx
    omega
  rw [List.pairwise_append]
  refine ⟨hs.sublist (List.take_sublist pos arr), ?_, ?_⟩
  · rw [List.pairwise_cons]
    exact ⟨hdrop, hs.sublist (List.drop_sublist pos arr)⟩
  · intro a ha b hb
    rcases List.mem_cons.mp hb with rfl | hb'
    · exact le_of_lt (htake a ha)
    · have h1 := htake a ha
      have h2 := hdrop b hb'
      have hQa := hdom a (List.mem_of_mem_take ha)
      have hQb := hdom b (List.mem_of_mem_drop hb')
      exact le_of_lt (L.lt_of_lt_of_le hQa hx hQb h1 h2)

theorem insertIdx_perm {α : Type _} (x : α) (n : Nat) (l : List α)
    (h : n ≤ l.length) : (l.insertIdx n x).Perm (x :: l) := by
  rw [insertIdx_eq_take_cons_drop x n l h]
  have h1 : (l.take n ++ x :: l.drop n).Perm (x :: (l.take n ++ l.drop n)) :=
    List.perm_middle
  rwa [List.take_append_drop] at h1

/-- `rmRun` splices out precisely one entry, and that entry's id
strict-equals the searched id. -/
theorem rmRun_spec {cmp : Val → Val → Int} {value id : Val} :
    ∀ {l l' : List RangeEntry}, rmRun cmp value id l = some l' →
    ∃ l1 e l2, l = l1 ++ e :: l2 ∧ l' = l1 ++ l2 ∧ jsStrictEq e.id id = true := by
  intro l
  induction l with
  | nil => intro l' h; simp [rmRun] at h
  | cons e rest ih =>
    intro l' h
    simp only [rmRun] at h
    by_cases hc : compositeCompare cmp e.value value = 0
    · rw [if_pos hc] at h
      by_cases hid : jsStrictEq e.id id = true
      · rw [if_pos hid] at h
        cases h
        exact ⟨[], e, rest, by simp, by simp, hid⟩
      · rw [if_neg hid] at h
        cases hrec : rmRun cmp value id rest with
        | none => rw [hrec] at h; exact Option.noConfusion h
        | some rest' =>
          rw [hrec] at h
          cases h
          obtain ⟨l1, e', l2, h1, h2, h3⟩ := ih hrec
          exact ⟨e :: l1, e', l2, by simp [h1], by simp [h2], h3⟩
    · rw [if_neg hc] at h
      exact Option.noConfusion h

/-- `rmLinear` splices out the first matching entry when one exists,
and the prefix before it contains no match. -/
theorem rmLinear_spec {cmp : Val → Val → Int} {value id : Val} :
    ∀ {l : List RangeEntry} {e₀ : RangeEntry}, e₀ ∈ l →
    jsStrictEq e₀.id id = true → compositeCompare cmp e₀.value value = 0 →
    ∃ l1 e l2, l = l1 ++ e :: l2 ∧ rmLinear cmp value id l = l1 ++ l2 ∧
      jsStrictEq e.id id = true := by
  intro l
  induction l with
  | nil => intro e₀ h; cases h
  | cons e rest ih =>
    intro e₀ hmem hid hval
    by_cases hfirst : jsStrictEq e.id id = true ∧ compositeCompare cmp e.value value = 0
    · refine ⟨[], e, rest, by simp, ?_, hfirst.1⟩
      simp only [rmLinear, if_pos hfirst, List.nil_append]
    · rcases List.mem_cons.mp hmem with rfl | hmem'
      · exact absurd ⟨hid, hval⟩ hfirst
      · obtain ⟨l1, e', l2, h1, h2, h3⟩ := ih hmem' hid hval
        refine ⟨e :: l1, e', l2, by simp [h1], ?_, h3⟩
        simp only [rmLinear, if_neg hfirst, List.cons_append, h2]

/-- `removeRange` splices out exactly the entry carrying the searched
id, provided the stored ids are pairwise distinct, the searched entry
`⟨value, id⟩` is present, and the comparator is reflexive on its
value. -/
theorem removeRange_split {cmp : Val → Val → Int} {arr : List RangeEntry}
    {value id : Val} (hsc : isScalar id = true)
    (hnodup : (arr.map RangeEntry.id).Nodup)
    (hmem : (⟨value, id⟩ : RangeEntry) ∈ arr)
    (hrefl : compositeCompare cmp value value = 0) :
    ∃ l1 l2, arr = l1 ++ (⟨value, id⟩ : RangeEntry) :: l2 ∧
      removeRange cmp arr value id = l1 ++ l2 := by
  have huniq : ∀ e ∈ arr, e.id = id → e = ⟨value, id⟩ := by
    intro e he hei
    have hinj := List.inj_on_of_nodup_map hnodup
    exact hinj he hmem (by rw [hei])
  set pos := lowerBound arr ⟨value, id⟩ (entryCmpFn cmp) with hpos
  have hun : removeRange cmp arr value id =
      (match rmRun cmp value id (arr.drop pos) with
       | some rest => arr.take pos ++ rest
       | none => rmLinear cmp value id arr) := rfl
  cases hrun : rmRun cmp value id (arr.drop pos) with
  | some rest =>
    rw [hun, hrun]
    obtain ⟨l1, e, l2, h1, h2, h3⟩ := rmRun_spec hrun
    have heid : e.id = id := (jsStrictEq_iff_of_scalar_right hsc).mp h3
    have hedrop : e ∈ arr := by
      apply List.mem_of_mem_drop (n := pos)
      rw [h1]
      simp
    have he : e = ⟨value, id⟩ := huniq e hedrop heid
    subst he
    refine ⟨arr.take pos ++ l1, l2, ?_, ?_⟩
    · conv_lhs => rw [← List.take_append_drop pos arr, h1]
      simp
    · show arr.take pos ++ rest = arr.take pos ++ l1 ++ l2
      rw [h2]
      simp
  | none =>
    rw [hun, hrun]
    have hmemdrop : (⟨value, id⟩ : RangeEntry) ∈ arr := hmem
    obtain ⟨l1, e, l2, h1, h2, h3⟩ :=
      rmLinear_spec hmemdrop ((jsStrictEq_iff_of_scalar_right hsc).mpr rfl) hrefl
    have heid : e.id = id := (jsStrictEq_iff_of_scalar_right hsc).mp h3
    have he : e = ⟨value, id⟩ := huniq e (by rw [h1]; simp) heid
    subst he
    exact ⟨l1, l2, h1, h2⟩

/-! ## Operation shapes -/

theorem strBeq_lawful : ALLawful strBeq (fun _ => True) := by
  intro a b _
  simp [strBeq]

theorem strOptBeq_lawful : ALLawful strOptBeq (fun _ => True) := by
  intro a b _
  simp [strOptBeq]

theorem lbAux_le (arr : List β) (target : β) (cmp : β → β → Int) :
    ∀ (fuel lo hi : Nat), lo ≤ hi → lbAux arr target cmp fuel lo hi ≤ hi := by
  intro fuel
  induction fuel with
  | zero => intro lo hi h; simpa [lbAux]
  | succ fuel ih =>
    intro lo hi h
    simp only [lbAux]
    by_cases hlt : lo < hi
    · rw [if_pos hlt]
      by_cases hc : cmp (arr.getD ((lo + hi) / 2) target) target < 0
      · rw [if_pos hc]
        exact ih _ _ (by omega)
      · rw [if_neg hc]
        exact le_trans (ih _ _ (by omega)) (by omega)
    · rw [if_neg hlt]
      exact h

theorem lowerBound_le_length (arr : List β) (target : β) (cmp : β → β → Int) :
    lowerBound arr target cmp ≤ arr.length :=
  lbAux_le arr target cmp (arr.length + 1) 0 arr.length (by omega)

/-- The `{value, id}` node built by the range branches. -/
def rangeNode (pk : String) (d : IndexDef) (obj : Val) : RangeEntry :=
  ⟨normalizeComposite (keyGetter d.keySpec obj), jsGetField obj pk⟩

/-- The derived string of the prefix branches. -/
def trieStr (d : IndexDef) (obj : Val) : String :=
  valueToString (keyGetter d.keySpec obj)

/-- `addToIndex` on a range-kind definition. -/
theorem addToIndex_range {pk : String} {d : IndexDef} {obj : Val}
    (hk : d.kind = "range") :
    addToIndex pk d obj =
      .ok { d with rangeArr := (List.insertIdx
          (lowerBound d.rangeArr (rangeNode pk d obj) (entryCmpFn d.compare))
          (rangeNode pk d obj) d.rangeArr) } := by
  unfold addToIndex
  rw [hk]
  rfl

/-- `addToIndex` on a prefix-kind definition. -/
theorem addToIndex_trie {pk : String} {d : IndexDef} {obj : Val}
    (hk : d.kind = "prefix") :
    addToIndex pk d obj =
      .ok { d with trieRoot := (trieInsert d.trieRoot (trieStr d obj)
          (jsGetField obj pk)) } := by
  unfold addToIndex
  rw [hk]
  rfl

/-- `removeFromIndex` on a range-kind definition. -/
theorem removeFromIndex_range {pk : String} {d : IndexDef} {obj : Val}
    (hk : d.kind = "range") :
    removeFromIndex pk d obj =
      { d with rangeArr := (removeRange d.compare d.rangeArr
          (normalizeComposite (keyGetter d.keySpec obj)) (jsGetField obj pk)) } := by
  unfold removeFromIndex
  rw [hk]
  rfl

/-- `removeFromIndex` on a prefix-kind definition. -/
theorem removeFromIndex_trie {pk : String} {d : IndexDef} {obj : Val}
    (hk : d.kind = "prefix") :
    removeFromIndex pk d obj =
      { d with trieRoot := (trieRemove d.trieRoot (trieStr d obj)
          (jsGetField obj pk)) } := by
  unfold removeFromIndex
  rw [hk]
  rfl

/-- Every branch of `addToIndex` keeps name, key spec, uniqueness, kind
and comparator. -/
theorem addToIndex_fields {pk : String} {d d' : IndexDef} {obj : Val}
    (h : addToIndex pk d obj = .ok d') :
    d'.name = d.name ∧ d'.keySpec = d.keySpec ∧ d'.unique = d.unique ∧
      d'.kind = d.kind ∧ d'.compare = d.compare := by
  unfold addToIndex at h
  by_cases h1 : d.kind = "eq"
  · rw [if_pos h1] at h
    by_cases h2 : d.unique = true
    · rw [if_pos h2] at h
      by_cases h3 : alHas strOptBeq d.eqMap (canonicalKey (keyGetter d.keySpec obj)) = true
      · rw [if_pos h3] at h
        exact Except.noConfusion h
      · rw [if_neg h3] at h
        cases h
        exact ⟨rfl, rfl, rfl, rfl, rfl⟩
    · rw [if_neg h2] at h
      cases h
      exact ⟨rfl, rfl, rfl, rfl, rfl⟩
  · rw [if_neg h1] at h
    by_cases h2 : d.kind = "range"
    · rw [if_pos h2] at h
      cases h
      exact ⟨rfl, rfl, rfl, rfl, rfl⟩
    · rw [if_neg h2] at h
      by_cases h3 : d.kind = "prefix"
      · rw [if_pos h3] at h
        cases h
        exact ⟨rfl, rfl, rfl, rfl, rfl⟩
      · rw [if_neg h3] at h
        cases h
        exact ⟨rfl, rfl, rfl, rfl, rfl⟩

/-- Every branch of `addToIndex` keeps the range storage unless the
definition is of range kind, and the trie unless of prefix kind. -/
theorem addToIndex_other_storages {pk : String} {d d' : IndexDef} {obj : Val}
    (h : addToIndex pk d obj = .ok d') :
    (d.kind ≠ "range" → d'.rangeArr = d.rangeArr) ∧
    (d.kind ≠ "prefix" → d'.trieRoot = d.trieRoot) := by
  unfold addToIndex at h
  by_cases h1 : d.kind = "eq"
  · rw [if_pos h1] at h
    by_cases h2 : d.unique = true
    · rw [if_pos h2] at h
      by_cases h3 : alHas strOptBeq d.eqMap (canonicalKey (keyGetter d.keySpec obj)) = true
      · rw [if_pos h3] at h
        exact Except.noConfusion h
      · rw [if_neg h3] at h
        cases h
        exact ⟨fun _ => rfl, fun _ => rfl⟩
    · rw [if_neg h2] at h
      cases h
      exact ⟨fun _ => rfl, fun _ => rfl⟩
  · rw [if_neg h1] at h
    by_cases h2 : d.kind = "range"
    · rw [if_pos h2] at h
      cases h
      exact ⟨fun hc => absurd h2 hc, fun _ => rfl⟩
    · rw [if_neg h2] at h
      by_cases h3 : d.kind = "prefix"
      · rw [if_pos h3] at h
        cases h
        exact ⟨fun _ => rfl, fun hc => absurd h3 hc⟩
      · rw [if_neg h3] at h
        cases h
        exact ⟨fun _ => rfl, fun _ => rfl⟩

/-- `removeFromIndex` keeps name, key spec, uniqueness, kind,
comparator, and the storages of the other kinds. -/
theorem removeFromIndex_name (pk : String) (d : IndexDef) (obj : Val) :
    (removeFromIndex pk d obj).name = d.name := by
  unfold removeFromIndex
  dsimp only
  repeat' split
  all_goals rfl

theorem removeFromIndex_keySpec (pk : String) (d : IndexDef) (obj : Val) :
    (removeFromIndex pk d obj).keySpec = d.keySpec := by
  unfold removeFromIndex
  dsimp only
  repeat' split
  all_goals rfl

theorem removeFromIndex_unique (pk : String) (d : IndexDef) (obj : Val) :
    (removeFromIndex pk d obj).unique = d.unique := by
  unfold removeFromIndex
  dsimp only
  repeat' split
  all_goals rfl

theorem removeFromIndex_kind (pk : String) (d : IndexDef) (obj : Val) :
    (removeFromIndex pk d obj).kind = d.kind := by
  unfold removeFromIndex
  dsimp only
  repeat' split
  all_goals rfl

theorem removeFromIndex_compare (pk : String) (d : IndexDef) (obj : Val) :
    (removeFromIndex pk d obj).compare = d.compare := by
  unfold removeFromIndex
  dsimp only
  repeat' split
  all_goals rfl

theorem removeFromIndex_rangeArr_ne (pk : String) (d : IndexDef) (obj : Val)
    (h : d.kind ≠ "range") :
    (removeFromIndex pk d obj).rangeArr = d.rangeArr := by
  unfold removeFromIndex
  dsimp only
  repeat' split
  all_goals first | rfl | simp_all

theorem removeFromIndex_trieRoot_ne (pk : String) (d : IndexDef) (obj : Val)
    (h : d.kind ≠ "prefix") :
    (removeFromIndex pk d obj).trieRoot = d.trieRoot := by
  unfold removeFromIndex
  dsimp only
  repeat' split
  all_goals first | rfl | simp_all

/-! ## Helpers for the operation-level invariants -/

theorem IsIntVal.scalar {v : Val} (h : IsIntVal v) : isScalar v = true := by
  obtain ⟨n, rfl⟩ := h
  rfl

theorem IsIntVal.notLooseNull {v : Val} (h : IsIntVal v) : jsLooseNull v = false := by
  obtain ⟨n, rfl⟩ := h
  rfl

/-- A present key with duplicate-free keys is found by `alGet`. -/
theorem alGet_of_mem_nodup {κ ν : Type _} {beq : κ → κ → Bool} {D : κ → Prop}
    (hlaw : ALLawful beq D) {m : List (κ × ν)} (hD : ∀ p ∈ m, D p.1)
    (hnodup : (m.map Prod.fst).Nodup) {k : κ} {v : ν} (hmem : (k, v) ∈ m) :
    alGet beq m k = some v := by
  induction m with
  | nil => cases hmem
  | cons p rest ih =>
    rw [List.map_cons, List.nodup_cons] at hnodup
    rcases List.mem_cons.mp hmem with rfl | hmem2
    · rw [alGet_cons, if_pos ((hlaw k k (hD (k, v) (by simp))).mpr rfl)]
    · rw [alGet_cons]
      have hne : p.1 ≠ k := by
        intro hk
        exact hnodup.1 (hk ▸ List.mem_map_of_mem Prod.fst hmem2)
      rw [if_neg ?hb]
      case hb =>
        intro hb
        exact hne ((hlaw p.1 k (hD p (by simp))).mp hb)
      exact ih (fun q hq => hD q (by simp [hq])) hnodup.2 hmem2

/-- `alHas` with a lawful equality and scalar keys means key membership. -/
theorem alHas_false_not_mem {κ ν : Type _} {beq : κ → κ → Bool} {D : κ → Prop}
    (hlaw : ALLawful beq D) {m : List (κ × ν)} (hD : ∀ p ∈ m, D p.1)
    {k : κ} (hh : alHas beq m k = false) : ∀ v, (k, v) ∉ m := by
  intro v hmem
  cases hget : alGet beq m k with
  | some w => simp [alHas, hget] at hh
  | none =>
    rw [alGet_eq_none_iff] at hget
    have := hget (k, v) hmem
    rw [(hlaw k k (hD _ hmem)).mpr rfl] at this
    cases this

/-- Successful `addAll` rewrites each definition through a successful
`addToIndex`, keeping the names in place. -/
theorem addAll_ok {pk : String} {obj : Val} :
    ∀ {idxs idxs' : List (String × IndexDef)} {u : Unit},
    addAll pk obj idxs = (.ok u, idxs') →
    List.Forall₂ (fun p p' : String × IndexDef =>
      p'.1 = p.1 ∧ addToIndex pk p.2 obj = .ok p'.2) idxs idxs' := by
  intro idxs
  induction idxs with
  | nil =>
    intro idxs' u h
    simp only [addAll] at h
    cases h
    exact List.Forall₂.nil
  | cons p rest ih =>
    intro idxs' u h
    simp only [addAll] at h
    cases hadd : addToIndex pk p.2 obj with
    | error e =>
      rw [hadd] at h
      cases h
    | ok d' =>
      rw [hadd] at h
      cases hrec : addAll pk obj rest with
      | mk r rest' =>
        rw [hrec] at h
        cases r with
        | error e => cases h
        | ok u2 =>
          cases h
          exact List.Forall₂.cons ⟨rfl, hadd⟩ (ih hrec)

/-- Whatever the outcome, `addAll` leaves every definition either
untouched or rewritten through a successful `addToIndex`, keeping the
names in place. -/
theorem addAll_any {pk : String} {obj : Val} :
    ∀ {idxs : List (String × IndexDef)},
    List.Forall₂ (fun p p' : String × IndexDef =>
      p'.1 = p.1 ∧ (p'.2 = p.2 ∨ addToIndex pk p.2 obj = .ok p'.2))
      idxs (addAll pk obj idxs).2 := by
  intro idxs
  induction idxs with
  | nil => exact List.Forall₂.nil
  | cons p rest ih =>
    show List.Forall₂ _ _ (addAll pk obj (p :: rest)).2
    simp only [addAll]
    cases hadd : addToIndex pk p.2 obj with
    | error e =>
      refine List.Forall₂.cons ⟨rfl, Or.inl rfl⟩ ?_
      exact List.forall₂_same.mpr (fun x _ => ⟨rfl, Or.inl rfl⟩)
    | ok d' =>
      cases hrec : addAll pk obj rest with
      | mk r rest' =>
        refine List.Forall₂.cons ⟨rfl, Or.inr hadd⟩ ?_
        have := ih
        rwa [hrec] at this

/-- `backfill` only rewrites the storages: the declared fields of the
definition survive. -/
theorem backfill_fields {pk : String} :
    ∀ {objs : List Val} {d : IndexDef},
    (backfill pk d objs).2.name = d.name ∧
    (backfill pk d objs).2.keySpec = d.keySpec ∧
    (backfill pk d objs).2.unique = d.unique ∧
    (backfill pk d objs).2.kind = d.kind ∧
    (backfill pk d objs).2.compare = d.compare := by
  intro objs
  induction objs with
  | nil => intro d; exact ⟨rfl, rfl, rfl, rfl, rfl⟩
  | cons obj rest ih =>
    intro d
    have hstep : backfill pk d (obj :: rest) =
        (match addToIndex pk d obj with
          | .ok d' => backfill pk d' rest
          | .error e => (.error e, d)) := rfl
    rw [hstep]
    cases hadd : addToIndex pk d obj with
    | error e => exact ⟨rfl, rfl, rfl, rfl, rfl⟩
    | ok d' =>
      obtain ⟨h1, h2, h3, h4, h5⟩ := addToIndex_fields hadd
      obtain ⟨g1, g2, g3, g4, g5⟩ := @ih d'
      exact ⟨g1.trans h1, g2.trans h2, g3.trans h3, g4.trans h4, g5.trans h5⟩

/-- Shape of a successful `insert`: both guards passed, the record was
appended to the primary store, and every index definition absorbed it. -/
theorem insert_ok_shape {c : Coll} {obj : Val} {v : Val} {c2 : Coll}
    (h : insert c obj = (.ok v, c2)) :
    v = jsGetField obj c.primaryKey ∧
    jsLooseNull v = false ∧
    alHas jsStrictEq c.items v = false ∧
    c2.items = c.items ++ [(v, obj)] ∧
    (∃ u, addAll c.primaryKey obj c.indexes = (.ok u, c2.indexes)) ∧
    c2.primaryKey = c.primaryKey ∧ c2.snaps = c.snaps := by
  unfold insert at h
  by_cases h1 : jsLooseNull (jsGetField obj c.primaryKey) = true
  · rw [if_pos h1] at h
    cases h
  · rw [if_neg h1] at h
    by_cases h2 : alHas jsStrictEq c.items (jsGetField obj c.primaryKey) = true
    · rw [if_pos h2] at h
      cases h
    · rw [if_neg h2] at h
      dsimp only at h
      cases hrec : addAll c.primaryKey obj c.indexes with
      | mk r idxs2 =>
        rw [hrec] at h
        dsimp only at h
        cases r with
        | error e => cases h
        | ok u =>
          simp only [Except.map] at h
          cases h
          refine ⟨rfl, by simpa using h1, by simpa using h2, ?_, ⟨u, rfl⟩, rfl, rfl⟩
          exact alSet_of_not_has (by simpa using h2) obj

/-- Shape of a failed-lookup `update` and of a successful one. -/
theorem update_ok_shape {c : Coll} {id arg : Val} {v : Val} {c2 : Coll}
    (h : update c id arg = (.ok v, c2)) :
    ∃ prev, alGet jsStrictEq c.items id = some prev ∧
    v = (if isPlainObject arg then mergeRecord c.primaryKey prev arg id else arg) ∧
    c2.items = alSet jsStrictEq c.items id v ∧
    (∃ u, addAll c.primaryKey v
      (c.indexes.map (fun p => (p.1, removeFromIndex c.primaryKey p.2 prev))) =
      (.ok u, c2.indexes)) ∧
    c2.primaryKey = c.primaryKey ∧ c2.snaps = c.snaps := by
  unfold update at h
  cases hget : alGet jsStrictEq c.items id with
  | none =>
    rw [hget] at h
    cases h
  | some prev =>
    rw [hget] at h
    dsimp only at h
    cases hrec : addAll c.primaryKey
        (if isPlainObject arg then mergeRecord c.primaryKey prev arg id else arg)
        (c.indexes.map (fun p => (p.1, removeFromIndex c.primaryKey p.2 prev))) with
    | mk r idxs2 =>
      rw [hrec] at h
      dsimp only at h
      cases r with
      | error e => cases h
      | ok u =>
        simp only [Except.map] at h
        cases h
        exact ⟨prev, rfl, rfl, rfl, ⟨u, by rw [hrec]⟩, rfl, rfl⟩

/-- Shape of `remove`. -/
theorem remove_shape {c : Coll} {id : Val} {b : Bool} {c2 : Coll}
    (h : remove c id = (b, c2)) :
    (b = false ∧ c2 = c ∧ alGet jsStrictEq c.items id = none) ∨
    (b = true ∧ ∃ prev, alGet jsStrictEq c.items id = some prev ∧
      c2.items = alDel jsStrictEq c.items id ∧
      c2.indexes = c.indexes.map
        (fun p => (p.1, removeFromIndex c.primaryKey p.2 prev)) ∧
      c2.primaryKey = c.primaryKey ∧ c2.snaps = c.snaps) := by
  unfold remove at h
  cases hget : alGet jsStrictEq c.items id with
  | none =>
    rw [hget] at h
    cases h
    exact Or.inl ⟨rfl, rfl, rfl⟩
  | some prev =>
    rw [hget] at h
    cases h
    exact Or.inr ⟨rfl, prev, rfl, rfl, rfl, rfl, rfl⟩

/-- Shape of a successful `defineIndex`: both guards passed and the
backfilled fresh definition was appended to the index map. -/
theorem defineIndex_ok_shape {c : Coll} {cfg : DefCfg} {u : Unit} {c2 : Coll}
    (h : defineIndex c cfg = (.ok u, c2)) :
    alHas strBeq c.indexes cfg.name = false ∧
    (cfg.kind = "eq" ∨ cfg.kind = "range" ∨ cfg.kind = "prefix") ∧
    (∃ u2, backfill c.primaryKey
        ⟨cfg.name, cfg.key, cfg.unique, cfg.kind, cfg.compare.getD defaultCompare,
         [], [], makeTrieNode⟩ (c.items.map (fun p => p.2)) =
      ((.ok u2 : Except Err Unit),
        (alGet strBeq c2.indexes cfg.name).getD
          ⟨cfg.name, cfg.key, cfg.unique, cfg.kind, cfg.compare.getD defaultCompare,
           [], [], makeTrieNode⟩)) ∧
    c2.indexes = c.indexes ++
      [(cfg.name, (alGet strBeq c2.indexes cfg.name).getD
          ⟨cfg.name, cfg.key, cfg.unique, cfg.kind, cfg.compare.getD defaultCompare,
           [], [], makeTrieNode⟩)] ∧
    c2.items = c.items ∧ c2.primaryKey = c.primaryKey ∧ c2.snaps = c.snaps := by
  unfold defineIndex at h
  by_cases h1 : alHas strBeq c.indexes cfg.name = true
  · rw [if_pos h1] at h
    cases h
  · rw [if_neg h1] at h
    by_cases h2 : cfg.kind = "eq" ∨ cfg.kind = "range" ∨ cfg.kind = "prefix"
    · rw [if_neg (not_not_intro h2)] at h
      dsimp only at h
      cases hbf : backfill c.primaryKey
          ⟨cfg.name, cfg.key, cfg.unique, cfg.kind, cfg.compare.getD defaultCompare,
           [], [], makeTrieNode⟩ (c.items.map (fun p => p.2)) with
      | mk r d' =>
        rw [hbf] at h
        dsimp only at h
        cases r with
        | error e => cases h
        | ok u2 =>
          cases h
          have happ : alSet strBeq c.indexes cfg.name d' =
              c.indexes ++ [(cfg.name, d')] :=
            alSet_of_not_has (by simpa using h1) d'
          have hget : alGet strBeq (alSet strBeq c.indexes cfg.name d') cfg.name =
              some d' :=
            alGet_set_self strBeq_lawful (fun _ _ => trivial) trivial d'
          refine ⟨by simpa using h1, h2, ⟨u2, ?_⟩, ?_, rfl, rfl, rfl⟩
          · simp [hget]
          · rw [happ] at hget
            simp [hget, happ]
    · rw [if_pos h2] at h
      cases h

/-! ## Field view of the `update` merge -/

theorem jsGetField_vobj (fs : List (String × Val)) (k : String) :
    jsGetField (vobj fs) k = (alGet strBeq fs k).getD vundef := rfl

/-- The merged record's primary-key field is forced back to `id`. -/
theorem mergeRecord_pk (pk : String) (prev patch : Val) (id : Val) :
    jsGetField (mergeRecord pk prev patch id) pk = id := by
  unfold mergeRecord
  rw [jsGetField_vobj,
    alGet_set_self strBeq_lawful (fun _ _ => trivial) trivial id]
  rfl

/-- Looking up the spread-fold: the patch wins where present, the base
otherwise. -/
theorem alGet_spread_fold {f : String} :
    ∀ {pfs : List (String × Val)}, (pfs.map Prod.fst).Nodup →
    ∀ (bfs : List (String × Val)),
    alGet strBeq (pfs.foldl (fun acc p => alSet strBeq acc p.1 p.2) bfs) f =
      (match alGet strBeq pfs f with
       | some v => some v
       | none => alGet strBeq bfs f) := by
  intro pfs
  induction pfs with
  | nil => intro _ bfs; rfl
  | cons p rest ih =>
    intro hnodup bfs
    rw [List.map_cons, List.nodup_cons] at hnodup
    rw [List.foldl_cons, ih hnodup.2, alGet_cons]
    by_cases hf : p.1 = f
    · subst hf
      have hrest : alGet strBeq rest p.1 = none := by
        rw [alGet_eq_none_iff]
        intro q hq
        have : q.1 ≠ p.1 := by
          intro hq1
          exact hnodup.1 (hq1 ▸ List.mem_map_of_mem Prod.fst hq)
        simp [strBeq, this]
      rw [hrest, if_pos (by simp [strBeq])]
      exact alGet_set_self strBeq_lawful (fun _ _ => trivial) trivial p.2
    · rw [if_neg (by simp [strBeq, hf])]
      cases hr : alGet strBeq rest f with
      | some v => rfl
      | none =>
        exact alGet_set_ne strBeq_lawful (fun _ _ => trivial) trivial
          (fun h => hf h.symm) p.2

/-- On all other fields, the merge is patch-over-previous. -/
theorem mergeRecord_field {pk : String} {prev : Val} {pfs : List (String × Val)}
    {id : Val} {f : String} (hf : f ≠ pk) (hnodup : (pfs.map Prod.fst).Nodup) :
    jsGetField (mergeRecord pk prev (vobj pfs) id) f =
      (match alGet strBeq pfs f with
       | some v => v
       | none => jsGetField prev f) := by
  unfold mergeRecord
  rw [jsGetField_vobj,
    alGet_set_ne strBeq_lawful (fun _ _ => trivial) trivial hf id,
    alGet_spread_fold hnodup]
  cases hp : alGet strBeq pfs f with
  | some v => rfl
  | none => cases prev <;> rfl

/-! ## Replaying a payload -/

/-- The descriptor a definition serializes to. -/
def descOf (d : IndexDef) : DefDescriptor :=
  ⟨d.name, d.kind, d.unique, serializeKeySpec d.keySpec⟩

theorem serializeKeySpec_of_deserialize {e : KSEnc} {ks : KeySpec}
    (h : deserializeKeySpec e = .ok ks) : serializeKeySpec ks = e := by
  cases e with
  | kfn => cases h
  | karr v => cases h; rfl
  | kstr v => cases h; rfl

/-- Successful `addAll` leaves every definition's descriptor in place. -/
theorem addAll_desc {pk : String} {obj : Val}
    {idxs idxs' : List (String × IndexDef)} {u : Unit}
    (h : addAll pk obj idxs = (.ok u, idxs')) :
    idxs'.map (fun p => (p.1, descOf p.2)) =
      idxs.map (fun p => (p.1, descOf p.2)) := by
  have h2 := addAll_ok h
  clear h
  induction h2 with
  | nil => rfl
  | cons hpq hrest ih =>
    rw [List.map_cons, List.map_cons, ih]
    obtain ⟨hn, hadd⟩ := hpq
    obtain ⟨h1, h2, h3, h4, _⟩ := addToIndex_fields hadd
    simp [hn, descOf, h1, h2, h3, h4]

/-- Record replay: every record is appended keyed by its own
primary-key field, and no index descriptor changes. -/
theorem insertAllItems_ok :
    ∀ {objs : List Val} {c r : Coll}, insertAllItems c objs = .ok r →
    r.primaryKey = c.primaryKey ∧ r.snaps = c.snaps ∧
    r.items = c.items ++ objs.map (fun o => (jsGetField o c.primaryKey, o)) ∧
    r.indexes.map (fun p => (p.1, descOf p.2)) =
      c.indexes.map (fun p => (p.1, descOf p.2)) := by
  intro objs
  induction objs with
  | nil =>
    intro c r h
    simp only [insertAllItems] at h
    cases h
    exact ⟨rfl, rfl, by simp, rfl⟩
  | cons obj rest ih =>
    intro c r h
    simp only [insertAllItems] at h
    cases hins : insert c obj with
    | mk r1 c1 =>
      rw [hins] at h
      cases r1 with
      | error e => cases h
      | ok v =>
        obtain ⟨hv, _, _, hitems, ⟨u, haddall⟩, hpk, hsnaps⟩ := insert_ok_shape hins
        obtain ⟨g1, g2, g3, g4⟩ := ih h
        refine ⟨g1.trans hpk, g2.trans hsnaps, ?_, ?_⟩
        · rw [g3, hitems, hpk, List.map_cons, hv]
          simp
        · rw [g4, addAll_desc haddall]

/-- Index replay: descriptors are installed in order, with the key spec
decoded and re-encoded to itself. -/
theorem deserializeDefs_ok :
    ∀ {dds : List DefDescriptor} {c r : Coll}, deserializeDefs c dds = .ok r →
    r.primaryKey = c.primaryKey ∧ r.snaps = c.snaps ∧ r.items = c.items ∧
    r.indexes.map (fun p => (p.1, descOf p.2)) =
      c.indexes.map (fun p => (p.1, descOf p.2)) ++
        dds.map (fun dd => (dd.name, dd)) := by
  intro dds
  induction dds with
  | nil =>
    intro c r h
    simp only [deserializeDefs] at h
    cases h
    exact ⟨rfl, rfl, rfl, by simp⟩
  | cons dd rest ih =>
    intro c r h
    simp only [deserializeDefs] at h
    cases hks : deserializeKeySpec dd.keySpec with
    | error e => rw [hks] at h; cases h
    | ok ks =>
      rw [hks] at h
      dsimp only at h
      cases hdef : defineIndex c ⟨dd.name, ks, dd.unique, dd.kind, none⟩ with
      | mk r1 c1 =>
        rw [hdef] at h
        cases r1 with
        | error e => cases h
        | ok u =>
          obtain ⟨_, _, ⟨u2, hbf⟩, hidxs, hitems, hpk, hsnaps⟩ :=
            defineIndex_ok_shape hdef
          obtain ⟨g1, g2, g3, g4⟩ := ih h
          refine ⟨g1.trans hpk, g2.trans hsnaps, g3.trans hitems, ?_⟩
          rw [g4, hidxs, List.map_append, List.map_cons]
          obtain ⟨b1, b2, b3, b4, _⟩ :=
            @backfill_fields c.primaryKey (c.items.map (fun p => p.2))
              ⟨(⟨dd.name, ks, dd.unique, dd.kind, none⟩ : DefCfg).name,
               (⟨dd.name, ks, dd.unique, dd.kind, none⟩ : DefCfg).key,
               (⟨dd.name, ks, dd.unique, dd.kind, none⟩ : DefCfg).unique,
               (⟨dd.name, ks, dd.unique, dd.kind, none⟩ : DefCfg).kind,
               (⟨dd.name, ks, dd.unique, dd.kind, none⟩ : DefCfg).compare.getD
                 defaultCompare, [], [], makeTrieNode⟩
          rw [hbf] at b1 b2 b3 b4
          have hdesc : descOf ((⟨.ok u2,
              (alGet strBeq c1.indexes
                (⟨dd.name, ks, dd.unique, dd.kind, none⟩ : DefCfg).name).getD
              ⟨(⟨dd.name, ks, dd.unique, dd.kind, none⟩ : DefCfg).name,
               (⟨dd.name, ks, dd.unique, dd.kind, none⟩ : DefCfg).key,
               (⟨dd.name, ks, dd.unique, dd.kind, none⟩ : DefCfg).unique,
               (⟨dd.name, ks, dd.unique, dd.kind, none⟩ : DefCfg).kind,
               (⟨dd.name, ks, dd.unique, dd.kind, none⟩ : DefCfg).compare.getD
                 defaultCompare, [], [], makeTrieNode⟩⟩ :
                (Except Err Unit) × IndexDef)).2 = dd := by
            unfold descOf
            rw [b1, b2, b3, b4, serializeKeySpec_of_deserialize hks]
          rw [hdesc]
          simp

/-- Full payload replay: the rebuilt collection carries the payload's
primary key, its records keyed by their own primary-key field, an empty
snapshot stack, and exactly the payload's descriptors. -/
theorem deserializePayload_ok {p : Payload} {r : Coll}
    (h : deserializePayload p = .ok r) :
    r.primaryKey = p.primaryKey ∧ r.snaps = [] ∧
    r.items = p.items.map (fun o => (jsGetField o p.primaryKey, o)) ∧
    r.indexes.map (fun q => (q.1, descOf q.2)) =
      p.indexDefs.map (fun dd => (dd.name, dd)) := by
  unfold deserializePayload at h
  cases hdefs : deserializeDefs (mkColl p.primaryKey) p.indexDefs with
  | error e => rw [hdefs] at h; cases h
  | ok c1 =>
    rw [hdefs] at h
    obtain ⟨d1, d2, d3, d4⟩ := deserializeDefs_ok hdefs
    obtain ⟨i1, i2, i3, i4⟩ := insertAllItems_ok h
    refine ⟨i1.trans d1, i2.trans d2, ?_, i4.trans ?_⟩
    · rw [i3, d3, d1]
      simp [mkColl]
    · rw [d4]
      simp [mkColl]

/-- Serializing a successfully replayed payload gives the payload
back. -/
theorem serialize_deserialize {p : Payload} {r : Coll}
    (h : deserializePayload p = .ok r) : serializePayload r = p := by
  obtain ⟨h1, _, h3, h4⟩ := deserializePayload_ok h
  show (⟨r.primaryKey, r.indexes.map (fun q => descOf q.2),
    r.items.map (fun q => q.2)⟩ : Payload) = p
  have hidx : r.indexes.map (fun q => descOf q.2) = p.indexDefs := by
    have h5 := congrArg (List.map Prod.snd) h4
    rw [List.map_map, List.map_map] at h5
    have h6 : p.indexDefs.map
        (Prod.snd ∘ fun dd : DefDescriptor => (dd.name, dd)) = p.indexDefs := by
      have h7 : ∀ dd ∈ p.indexDefs,
          (Prod.snd ∘ fun dd : DefDescriptor => (dd.name, dd)) dd = id dd :=
        fun dd _ => rfl
      rw [List.map_congr_left h7, List.map_id]
    exact h5.trans h6
  have hitems : r.items.map (fun q => q.2) = p.items := by
    rw [h3, List.map_map]
    have h7 : ∀ o ∈ p.items, ((fun q : Val × Val => q.2) ∘
        (fun o => (jsGetField o p.primaryKey, o))) o = id o := fun o _ => rfl
    rw [List.map_congr_left h7, List.map_id]
  rw [hidx, hitems, h1]

/-- Replaying a collection's own serialization restores its record
store exactly, provided each stored record carries its key in its
primary-key field. -/
theorem replay_items_exact {c r : Coll}
    (hid : ∀ q ∈ c.items, jsGetField q.2 c.primaryKey = q.1)
    (h : deserializePayload (serializePayload c) = .ok r) :
    r.items = c.items ∧ r.primaryKey = c.primaryKey := by
  obtain ⟨h1, _, h3, _⟩ := deserializePayload_ok h
  refine ⟨?_, h1⟩
  rw [h3]
  show (c.items.map (fun q => q.2)).map
    (fun o => (jsGetField o c.primaryKey, o)) = c.items
  rw [List.map_map]
  have : ∀ q ∈ c.items, ((fun o => (jsGetField o c.primaryKey, o)) ∘
      (fun q : Val × Val => q.2)) q = id q := by
    intro q hq
    show (jsGetField q.2 c.primaryKey, q.2) = q
    rw [hid q hq]
  rw [List.map_congr_left this, List.map_id]

/-! ## Reachable collection states -/

/-- States reachable from a fresh collection through the mutating
operations (`defineIndex`, `insert`, `update`, `remove`), with any
outcome, successful or not. -/
inductive ReachAny : Coll → Prop where
  | base (pk : String) : ReachAny (mkColl pk)
  | defIdx {c : Coll} (cfg : DefCfg) {r : Except Err Unit} {c2 : Coll} :
      ReachAny c → defineIndex c cfg = (r, c2) → ReachAny c2
  | ins {c : Coll} (obj : Val) {r : Except Err Val} {c2 : Coll} :
      ReachAny c → insert c obj = (r, c2) → ReachAny c2
  | upd {c : Coll} (id arg : Val) {r : Except Err Val} {c2 : Coll} :
      ReachAny c → update c id arg = (r, c2) → ReachAny c2
  | rem {c : Coll} (id : Val) {b : Bool} {c2 : Coll} :
      ReachAny c → remove c id = (b, c2) → ReachAny c2

/-- Every prefix-kind definition's trie satisfies the pruning
invariant. -/
def TrieInvAll (c : Coll) : Prop :=
  ∀ p ∈ c.indexes, p.2.kind = "prefix" → TrieOk p.2.trieRoot

theorem forall2_mem_right {α β : Type _} {R : α → β → Prop} :
    ∀ {l : List α} {l2 : List β}, List.Forall₂ R l l2 →
    ∀ x2 ∈ l2, ∃ x ∈ l, R x x2 := by
  intro l l2 h
  induction h with
  | nil => intro x hx; cases hx
  | cons hR htail ih =>
    intro x2 hx2
    rcases List.mem_cons.mp hx2 with rfl | hmem
    · exact ⟨_, by simp, hR⟩
    · obtain ⟨x, hx, hxR⟩ := ih _ hmem
      exact ⟨x, by simp [hx], hxR⟩

theorem mem_alSet_cases {κ ν : Type _} {beq : κ → κ → Bool}
    {m : List (κ × ν)} {k : κ} {v : ν} {p : κ × ν}
    (hp : p ∈ alSet beq m k v) : p ∈ m ∨ p = (k, v) := by
  unfold alSet at hp
  by_cases hh : alHas beq m k
  · rw [if_pos hh] at hp
    obtain ⟨q, hq, hqe⟩ := List.mem_map.mp hp
    by_cases hb : beq q.1 k = true
    · rw [if_pos hb] at hqe
      exact Or.inr hqe.symm
    · rw [if_neg hb] at hqe
      exact Or.inl (hqe ▸ hq)
  · rw [if_neg hh] at hp
    rcases List.mem_append.mp hp with h | h
    · exact Or.inl h
    · simp only [List.mem_singleton] at h
      exact Or.inr h

/-- A successful `addToIndex` preserves the pruning invariant. -/
theorem addToIndex_trieOk {pk : String} {d d' : IndexDef} {obj : Val}
    (h : addToIndex pk d obj = .ok d') (hok : TrieOk d.trieRoot) :
    TrieOk d'.trieRoot := by
  by_cases hk : d.kind = "prefix"
  · rw [addToIndex_trie hk] at h
    cases h
    exact trieInsert_ok hok
  · rw [(addToIndex_other_storages h).2 hk]
    exact hok

theorem removeFromIndex_trieOk {pk : String} {d : IndexDef} {obj : Val}
    (hok : TrieOk d.trieRoot) : TrieOk (removeFromIndex pk d obj).trieRoot := by
  by_cases hk : d.kind = "prefix"
  · rw [removeFromIndex_trie hk]
    exact trieRemove_ok hok
  · rw [removeFromIndex_trieRoot_ne pk d obj hk]
    exact hok

theorem trieInvAll_addAll {pk : String} {obj : Val}
    {idxs : List (String × IndexDef)}
    (h : ∀ p ∈ idxs, p.2.kind = "prefix" → TrieOk p.2.trieRoot) :
    ∀ p ∈ (addAll pk obj idxs).2, p.2.kind = "prefix" → TrieOk p.2.trieRoot := by
  intro p2 hp2 hk2
  obtain ⟨p, hp, hn, hrel⟩ := forall2_mem_right (@addAll_any pk obj idxs) p2 hp2
  rcases hrel with heq | hadd
  · rw [heq] at hk2 ⊢
    exact h p hp hk2
  · have hk : p.2.kind = "prefix" := by
      have := (addToIndex_fields hadd).2.2.2.1
      rw [← this]
      exact hk2
    exact addToIndex_trieOk hadd (h p hp hk)

theorem backfill_trieOk {pk : String} :
    ∀ {objs : List Val} {d : IndexDef}, TrieOk d.trieRoot →
    TrieOk (backfill pk d objs).2.trieRoot := by
  intro objs
  induction objs with
  | nil => intro d h; exact h
  | cons obj rest ih =>
    intro d h
    have hstep : backfill pk d (obj :: rest) =
        (match addToIndex pk d obj with
          | .ok d' => backfill pk d' rest
          | .error e => (.error e, d)) := rfl
    rw [hstep]
    cases hadd : addToIndex pk d obj with
    | error e => exact h
    | ok d' => exact ih (addToIndex_trieOk hadd h)

theorem trieInvAll_insert {c : Coll} {obj : Val} {r : Except Err Val} {c2 : Coll}
    (h : insert c obj = (r, c2)) (hI : TrieInvAll c) : TrieInvAll c2 := by
  unfold insert at h
  by_cases h1 : jsLooseNull (jsGetField obj c.primaryKey) = true
  · rw [if_pos h1] at h
    cases h
    exact hI
  · rw [if_neg h1] at h
    by_cases h2 : alHas jsStrictEq c.items (jsGetField obj c.primaryKey) = true
    · rw [if_pos h2] at h
      cases h
      exact hI
    · rw [if_neg h2] at h
      dsimp only at h
      cases hrec : addAll c.primaryKey obj c.indexes with
      | mk r1 idxs2 =>
        rw [hrec] at h
        dsimp only at h
        cases h
        intro p hp hk
        have := @trieInvAll_addAll c.primaryKey obj c.indexes hI p
        rw [hrec] at this
        exact this hp hk

theorem trieInvAll_update {c : Coll} {id arg : Val} {r : Except Err Val}
    {c2 : Coll} (h : update c id arg = (r, c2)) (hI : TrieInvAll c) :
    TrieInvAll c2 := by
  unfold update at h
  cases hget : alGet jsStrictEq c.items id with
  | none =>
    rw [hget] at h
    cases h
    exact hI
  | some prev =>
    rw [hget] at h
    dsimp only at h
    cases hrec : addAll c.primaryKey
        (if isPlainObject arg then mergeRecord c.primaryKey prev arg id else arg)
        (c.indexes.map (fun p => (p.1, removeFromIndex c.primaryKey p.2 prev))) with
    | mk r1 idxs2 =>
      rw [hrec] at h
      dsimp only at h
      cases h
      have hI1 : ∀ p ∈ c.indexes.map
          (fun p => (p.1, removeFromIndex c.primaryKey p.2 prev)),
          p.2.kind = "prefix" → TrieOk p.2.trieRoot := by
        intro p hp hk
        obtain ⟨q, hq, hqe⟩ := List.mem_map.mp hp
        cases hqe
        exact removeFromIndex_trieOk
          (hI q hq (by rwa [removeFromIndex_kind] at hk))
      intro p hp hk
      have := @trieInvAll_addAll c.primaryKey
        (if isPlainObject arg then mergeRecord c.primaryKey prev arg id else arg)
        (c.indexes.map (fun p => (p.1, removeFromIndex c.primaryKey p.2 prev)))
        hI1 p
      rw [hrec] at this
      exact this hp hk

theorem trieInvAll_remove {c : Coll} {id : Val} {b : Bool} {c2 : Coll}
    (h : remove c id = (b, c2)) (hI : TrieInvAll c) : TrieInvAll c2 := by
  rcases remove_shape h with ⟨_, rfl, _⟩ | ⟨_, prev, _, _, hidx, _, _⟩
  · exact hI
  · intro p hp hk
    rw [hidx] at hp
    obtain ⟨q, hq, hqe⟩ := List.mem_map.mp hp
    cases hqe
    exact removeFromIndex_trieOk
      (hI q hq (by rwa [removeFromIndex_kind] at hk))

theorem trieInvAll_defineIndex {c : Coll} {cfg : DefCfg} {r : Except Err Unit}
    {c2 : Coll} (h : defineIndex c cfg = (r, c2)) (hI : TrieInvAll c) :
    TrieInvAll c2 := by
  unfold defineIndex at h
  by_cases h1 : alHas strBeq c.indexes cfg.name = true
  · rw [if_pos h1] at h
    cases h
    exact hI
  · rw [if_neg h1] at h
    by_cases h2 : cfg.kind = "eq" ∨ cfg.kind = "range" ∨ cfg.kind = "prefix"
    · rw [if_neg (not_not_intro h2)] at h
      dsimp only at h
      cases hbf : backfill c.primaryKey
          ⟨cfg.name, cfg.key, cfg.unique, cfg.kind, cfg.compare.getD defaultCompare,
           [], [], makeTrieNode⟩ (c.items.map (fun p => p.2)) with
      | mk r1 d' =>
        rw [hbf] at h
        dsimp only at h
        cases h
        intro p hp hk
        rcases mem_alSet_cases hp with hmem | rfl
        · exact hI p hmem hk
        · have := @backfill_trieOk c.primaryKey (c.items.map (fun p => p.2))
            ⟨cfg.name, cfg.key, cfg.unique, cfg.kind, cfg.compare.getD defaultCompare,
             [], [], makeTrieNode⟩ trieOk_makeTrieNode
          rw [hbf] at this
          exact this
    · rw [if_pos h2] at h
      cases h
      exact hI

/-- The pruning invariant holds in every reachable state. -/
theorem trieInvAll_reach {c : Coll} (h : ReachAny c) : TrieInvAll c := by
  induction h with
  | base pk =>
    intro p hp hk
    cases hp
  | defIdx cfg hr hstep ih => exact trieInvAll_defineIndex hstep ih
  | ins obj hr hstep ih => exact trieInvAll_insert hstep ih
  | upd id arg hr hstep ih => exact trieInvAll_update hstep ih
  | rem id hr hstep ih => exact trieInvAll_remove hstep ih

/-! ## Per-definition index invariants -/

theorem normalizeComposite_id (v : Val) : normalizeComposite v = v := rfl

theorem rangeNode_congr {pk : String} {d d' : IndexDef} (h : d'.keySpec = d.keySpec)
    (obj : Val) : rangeNode pk d' obj = rangeNode pk d obj := by
  unfold rangeNode
  rw [h]

theorem trieStr_congr {d d' : IndexDef} (h : d'.keySpec = d.keySpec) (obj : Val) :
    trieStr d' obj = trieStr d obj := by
  unfold trieStr
  rw [h]

/-- Facts about the primary record store: duplicate-free integer keys,
and each record carries its key in its primary-key field. -/
structure ItemsOk (pk : String) (items : List (Val × Val)) : Prop where
  nodup : (items.map Prod.fst).Nodup
  ints : ∀ q ∈ items, IsIntVal q.1
  idf : ∀ q ∈ items, jsGetField q.2 pk = q.1

/-- Invariant of one range-kind definition relative to the record
store. -/
structure RDefOk (Q : Val → Prop) (pk : String) (items : List (Val × Val))
    (d : IndexDef) : Prop where
  lawful : LawfulCmpOn Q (compositeCompare d.compare)
  keysQ : ∀ q ∈ items, Q (keyGetter d.keySpec q.2)
  sorted : d.rangeArr.Pairwise (fun a b => entryCmpFn d.compare a b ≤ 0)
  perm : d.rangeArr.Perm (items.map (fun q => rangeNode pk d q.2))

/-- Invariant of one prefix-kind definition relative to the record
store. -/
structure TDefOk (items : List (Val × Val)) (d : IndexDef) : Prop where
  corr : ∀ path : List Char, path ≠ [] → ∀ x,
    x ∈ idsAt d.trieRoot path ↔
      ∃ q ∈ items, x = q.1 ∧ strPfx path (trieStr d q.2).data = true
  nodup : ∀ path : List Char, path ≠ [] → (idsAt d.trieRoot path).Nodup

theorem rdef_perm_items {Q : Val → Prop} {pk : String}
    {items1 items2 : List (Val × Val)} {d : IndexDef}
    (hperm : items1.Perm items2) (R : RDefOk Q pk items1 d) :
    RDefOk Q pk items2 d := by
  refine ⟨R.lawful, ?_, R.sorted, ?_⟩
  · intro q hq
    exact R.keysQ q (hperm.symm.subset hq)
  · exact R.perm.trans (hperm.map _)

theorem tdef_perm_items {items1 items2 : List (Val × Val)} {d : IndexDef}
    (hperm : items1.Perm items2) (T : TDefOk items1 d) : TDefOk items2 d := by
  refine ⟨?_, T.nodup⟩
  intro path hpath x
  rw [T.corr path hpath x]
  constructor
  · rintro ⟨q, hq, hx, hpfx⟩
    exact ⟨q, hperm.subset hq, hx, hpfx⟩
  · rintro ⟨q, hq, hx, hpfx⟩
    exact ⟨q, hperm.symm.subset hq, hx, hpfx⟩

/-- Elements of the backing array of a maintained range definition lie
in the entry domain of the comparator. -/
theorem rdef_entry_dom {Q : Val → Prop} {pk : String}
    {items : List (Val × Val)} {d : IndexDef} (Hi : ItemsOk pk items)
    (R : RDefOk Q pk items d) :
    ∀ e ∈ d.rangeArr, Q e.value ∧ IsIntVal e.id := by
  intro e he
  have he2 : e ∈ items.map (fun q => rangeNode pk d q.2) := R.perm.subset he
  obtain ⟨q, hq, hqe⟩ := List.mem_map.mp he2
  subst hqe
  refine ⟨R.keysQ q hq, ?_⟩
  show IsIntVal (jsGetField q.2 pk)
  rw [Hi.idf q hq]
  exact Hi.ints q hq

/-- Ids of the backing array are the record keys, hence
duplicate-free. -/
theorem rdef_ids_nodup {Q : Val → Prop} {pk : String}
    {items : List (Val × Val)} {d : IndexDef} (Hi : ItemsOk pk items)
    (R : RDefOk Q pk items d) : (d.rangeArr.map RangeEntry.id).Nodup := by
  have hperm : (d.rangeArr.map RangeEntry.id).Perm
      ((items.map (fun q => rangeNode pk d q.2)).map RangeEntry.id) :=
    R.perm.map _
  apply hperm.nodup_iff.mpr
  rw [List.map_map]
  have : ∀ q ∈ items, (RangeEntry.id ∘ (fun q : Val × Val => rangeNode pk d q.2)) q
      = Prod.fst q := by
    intro q hq
    show jsGetField q.2 pk = q.1
    exact Hi.idf q hq
  rw [List.map_congr_left this]
  exact Hi.nodup

/-- A range definition absorbs a fresh record: sortedness and the
one-to-one correspondence both extend. -/
theorem rdef_insert {Q : Val → Prop} {pk : String} {items : List (Val × Val)}
    {d d' : IndexDef} {obj : Val} (Hi : ItemsOk pk items)
    (R : RDefOk Q pk items d) (hk : d.kind = "range")
    (hadd : addToIndex pk d obj = .ok d')
    (hQ : Q (keyGetter d.keySpec obj)) (hid : IsIntVal (jsGetField obj pk)) :
    RDefOk Q pk (items ++ [(jsGetField obj pk, obj)]) d' := by
  rw [addToIndex_range hk] at hadd
  cases hadd
  have hL := entryCmpFn_lawful R.lawful
  have hdom := rdef_entry_dom Hi R
  have hxdom : Q (rangeNode pk d obj).value ∧ IsIntVal (rangeNode pk d obj).id := by
    constructor
    · show Q (normalizeComposite (keyGetter d.keySpec obj))
      rw [normalizeComposite_id]
      exact hQ
    · exact hid
  constructor
  · exact R.lawful
  · intro q hq
    rcases List.mem_append.mp hq with h | h
    · exact R.keysQ q h
    · simp only [List.mem_singleton] at h
      subst h
      exact hQ
  · exact pairwise_insertIdx_lowerBound hL R.sorted hdom hxdom
  · have hperm1 := insertIdx_perm (rangeNode pk d obj)
      (lowerBound d.rangeArr (rangeNode pk d obj) (entryCmpFn d.compare))
      d.rangeArr (lowerBound_le_length d.rangeArr _ _)
    refine hperm1.trans ?_
    have hperm2 : (rangeNode pk d obj :: d.rangeArr).Perm
        (rangeNode pk d obj :: items.map (fun q => rangeNode pk d q.2)) :=
      List.Perm.cons _ R.perm
    refine hperm2.trans ?_
    rw [List.map_append, List.map_cons, List.map_nil]
    exact (List.perm_append_singleton _ _).symm

/-- A range definition releases a removed record: exactly its entry is
spliced out. -/
theorem rdef_remove {Q : Val → Prop} {pk : String} {items : List (Val × Val)}
    {d : IndexDef} {i1 i2 : List (Val × Val)} {id prev : Val}
    (Hi : ItemsOk pk items) (R : RDefOk Q pk items d) (hk : d.kind = "range")
    (hsplit : items = i1 ++ (id, prev) :: i2) :
    RDefOk Q pk (i1 ++ i2) (removeFromIndex pk d prev) := by
  have hmemitem : (id, prev) ∈ items := by
    rw [hsplit]
    simp
  have hidf : jsGetField prev pk = id := Hi.idf (id, prev) hmemitem
  have hsc : isScalar id = true := (Hi.ints (id, prev) hmemitem).scalar
  have hQv : Q (keyGetter d.keySpec prev) := R.keysQ (id, prev) hmemitem
  rw [removeFromIndex_range hk]
  rw [show (removeRange d.compare d.rangeArr
      (normalizeComposite (keyGetter d.keySpec prev)) (jsGetField prev pk)) =
    (removeRange d.compare d.rangeArr
      (keyGetter d.keySpec prev) id) from by rw [hidf, normalizeComposite_id]]
  have hmem : (⟨keyGetter d.keySpec prev, id⟩ : RangeEntry) ∈ d.rangeArr := by
    apply R.perm.symm.subset
    have : rangeNode pk d prev = ⟨keyGetter d.keySpec prev, id⟩ := by
      unfold rangeNode
      rw [hidf, normalizeComposite_id]
    rw [← this]
    exact List.mem_map_of_mem _ hmemitem
  have hrefl : compositeCompare d.compare (keyGetter d.keySpec prev)
      (keyGetter d.keySpec prev) = 0 := R.lawful.refl0 hQv
  obtain ⟨l1, l2, hsplitArr, hrm⟩ :=
    removeRange_split hsc (rdef_ids_nodup Hi R) hmem hrefl
  refine ⟨R.lawful, ?_, ?_, ?_⟩
  · intro q hq
    refine R.keysQ q ?_
    rw [hsplit]
    rcases List.mem_append.mp hq with h | h
    · exact List.mem_append.mpr (Or.inl h)
    · simp [h]
  · show (removeRange d.compare d.rangeArr (keyGetter d.keySpec prev) id).Pairwise _
    rw [hrm]
    have hsub : (l1 ++ l2).Sublist (l1 ++ ⟨keyGetter d.keySpec prev, id⟩ :: l2) :=
      List.Sublist.append (List.Sublist.refl l1) (List.sublist_cons_self _ l2)
    exact (hsplitArr ▸ R.sorted).sublist hsub
  · show (removeRange d.compare d.rangeArr (keyGetter d.keySpec prev) id).Perm _
    rw [hrm]
    have h1 : (⟨keyGetter d.keySpec prev, id⟩ :: (l1 ++ l2) :
        List RangeEntry).Perm (items.map (fun q => rangeNode pk d q.2)) := by
      refine List.Perm.trans ?_ (hsplitArr ▸ R.perm)
      exact List.perm_middle.symm
    have h2 : (items.map (fun q => rangeNode pk d q.2)) =
        i1.map (fun q => rangeNode pk d q.2) ++
          (⟨keyGetter d.keySpec prev, id⟩ : RangeEntry) ::
            i2.map (fun q => rangeNode pk d q.2) := by
      rw [hsplit, List.map_append, List.map_cons]
      congr 1
      show rangeNode pk d prev :: _ = _
      congr 1
      unfold rangeNode
      rw [hidf, normalizeComposite_id]
    have h3 : (⟨keyGetter d.keySpec prev, id⟩ :: (l1 ++ l2) :
        List RangeEntry).Perm
        ((⟨keyGetter d.keySpec prev, id⟩ : RangeEntry) ::
          (i1.map (fun q => rangeNode pk d q.2) ++
            i2.map (fun q => rangeNode pk d q.2))) := by
      refine h1.trans ?_
      rw [h2]
      exact List.perm_middle
    have h4 := h3.cons_inv
    rw [List.map_append]
    exact h4

/-- A prefix definition absorbs a fresh record: its id lands on exactly
the nonempty prefixes of the derived string. -/
theorem tdef_insert {pk : String} {items : List (Val × Val)} {d d' : IndexDef}
    {obj : Val} (T : TDefOk items d) (hk : d.kind = "prefix")
    (hadd : addToIndex pk d obj = .ok d')
    (hsc : isScalar (jsGetField obj pk) = true) :
    TDefOk (items ++ [(jsGetField obj pk, obj)]) d' := by
  rw [addToIndex_trie hk] at hadd
  cases hadd
  constructor
  · intro path hpath x
    show x ∈ idsAt (trieInsertL d.trieRoot (trieStr d obj).data
      (jsGetField obj pk)) path ↔ _
    rw [mem_idsAt_insert hsc (trieStr d obj).data d.trieRoot path hpath x,
      T.corr path hpath x]
    constructor
    · rintro (⟨q, hq, hx, hpfx⟩ | ⟨hx, hpfx⟩)
      · exact ⟨q, List.mem_append.mpr (Or.inl hq), hx, hpfx⟩
      · exact ⟨(jsGetField obj pk, obj), by simp, hx, hpfx⟩
    · rintro ⟨q, hq, hx, hpfx⟩
      rcases List.mem_append.mp hq with h | h
      · exact Or.inl ⟨q, h, hx, hpfx⟩
      · simp only [List.mem_singleton] at h
        subst h
        exact Or.inr ⟨hx, hpfx⟩
  · intro path hpath
    exact nodup_idsAt_insert hsc (trieStr d obj).data d.trieRoot path hpath
      (T.nodup path hpath)

/-- `trieRemove` through the functional removal. -/
theorem trieRemove_eq_getD (t : TrieNode) (s : String) (id : Val) :
    trieRemove t s id = (trieRemoveGo id t s.data).getD t := by
  unfold trieRemove
  cases trieRemoveGo id t s.data <;> rfl

/-- A prefix definition releases a removed record: its id disappears
from exactly the prefixes of the derived string, other records keep
their paths. -/
theorem tdef_remove {pk : String} {items : List (Val × Val)} {d : IndexDef}
    {i1 i2 : List (Val × Val)} {id prev : Val}
    (Hi : ItemsOk pk items) (T : TDefOk items d) (hk : d.kind = "prefix")
    (hsplit : items = i1 ++ (id, prev) :: i2) :
    TDefOk (i1 ++ i2) (removeFromIndex pk d prev) := by
  have hmemitem : (id, prev) ∈ items := by
    rw [hsplit]
    simp
  have hidf : jsGetField prev pk = id := Hi.idf (id, prev) hmemitem
  have hsc : isScalar id = true := (Hi.ints (id, prev) hmemitem).scalar
  have hnotin : ∀ q ∈ i1 ++ i2, q.1 ≠ id := by
    have h2 : (i1.map Prod.fst ++ id :: i2.map Prod.fst).Nodup := by
      have h3 := Hi.nodup
      rw [hsplit] at h3
      simpa using h3
    have h4 := (List.nodup_cons.mp (List.nodup_middle.mp h2)).1
    intro q hq hqid
    apply h4
    rw [← hqid]
    rcases List.mem_append.mp hq with h | h
    · exact List.mem_append.mpr (Or.inl (List.mem_map_of_mem _ h))
    · exact List.mem_append.mpr (Or.inr (List.mem_map_of_mem _ h))
  have hfull : ∀ q, q ≠ [] → strPfx q (trieStr d prev).data = true →
      id ∈ idsAt d.trieRoot q := by
    intro q hq hpfx
    exact (T.corr q hq id).mpr ⟨(id, prev), hmemitem, rfl, hpfx⟩
  rw [removeFromIndex_trie hk]
  rw [show trieRemove d.trieRoot (trieStr d prev) (jsGetField prev pk) =
    (trieRemoveGo id d.trieRoot (trieStr d prev).data).getD d.trieRoot from by
      rw [hidf, trieRemove_eq_getD]]
  constructor
  · intro path hpath x
    show x ∈ idsAt ((trieRemoveGo id d.trieRoot
      (trieStr d prev).data).getD d.trieRoot) path ↔ _
    rw [mem_idsAt_remove hsc hfull path hpath x]
    constructor
    · rintro ⟨hin, hnot⟩
      obtain ⟨q, hq, hx, hpfx⟩ := (T.corr path hpath x).mp hin
      rw [hsplit] at hq
      rcases List.mem_append.mp hq with h | h
      · exact ⟨q, List.mem_append.mpr (Or.inl h), hx, hpfx⟩
      · rcases List.mem_cons.mp h with rfl | h2
        · exact absurd ⟨hx, hpfx⟩ hnot
        · exact ⟨q, List.mem_append.mpr (Or.inr h2), hx, hpfx⟩
    · rintro ⟨q, hq, hx, hpfx⟩
      have hqitems : q ∈ items := by
        rw [hsplit]
        rcases List.mem_append.mp hq with h | h
        · exact List.mem_append.mpr (Or.inl h)
        · simp [h]
      refine ⟨(T.corr path hpath x).mpr ⟨q, hqitems, hx, hpfx⟩, ?_⟩
      rintro ⟨rfl, _⟩
      exact hnotin q hq hx.symm
  · intro path hpath
    cases hgo : trieRemoveGo id d.trieRoot (trieStr d prev).data with
    | none => exact T.nodup path hpath
    | some t2 =>
      exact nodup_idsAt_removeGo (trieStr d prev).data d.trieRoot t2 hgo
        path hpath (T.nodup path hpath)

/-! ## The master invariant over successful operation sequences -/

theorem jsStrictEq_lawful : ALLawful jsStrictEq (fun v => isScalar v = true) :=
  fun _ _ ha => jsStrictEq_iff_of_scalar ha

theorem addAll_fst {pk : String} {obj : Val}
    {idxs idxs2 : List (String × IndexDef)} {u : Unit}
    (h : addAll pk obj idxs = (.ok u, idxs2)) :
    idxs2.map Prod.fst = idxs.map Prod.fst := by
  have h2 := addAll_ok h
  clear h
  induction h2 with
  | nil => rfl
  | cons hpq htail ih => rw [List.map_cons, List.map_cons, ih, hpq.1]

theorem itemsOk_append_left {pk : String} {l1 l2 : List (Val × Val)}
    (h : ItemsOk pk (l1 ++ l2)) : ItemsOk pk l1 := by
  refine ⟨?_, ?_, ?_⟩
  · have := h.nodup
    rw [List.map_append] at this
    exact this.sublist (List.sublist_append_left _ _)
  · intro q hq
    exact h.ints q (List.mem_append.mpr (Or.inl hq))
  · intro q hq
    exact h.idf q (List.mem_append.mpr (Or.inl hq))

/-- The master invariant: a well-formed record store and, for every
range and prefix definition, sortedness plus the one-to-one record
correspondence. -/
structure Inv (Q : Val → Prop) (c : Coll) : Prop where
  itemsOk : ItemsOk c.primaryKey c.items
  names : (c.indexes.map Prod.fst).Nodup
  rdefs : ∀ p ∈ c.indexes, p.2.kind = "range" →
    RDefOk Q c.primaryKey c.items p.2
  tdefs : ∀ p ∈ c.indexes, p.2.kind = "prefix" → TDefOk c.items p.2

theorem inv_insert {Q : Val → Prop} {c : Coll} {obj v : Val} {c2 : Coll}
    (hins : insert c obj = (.ok v, c2))
    (hid : IsIntVal (jsGetField obj c.primaryKey))
    (hQ : ∀ p ∈ c.indexes, p.2.kind = "range" → Q (keyGetter p.2.keySpec obj))
    (I : Inv Q c) : Inv Q c2 := by
  obtain ⟨hv, hnull, hhas, hitems, ⟨u, haddall⟩, hpk, hsnaps⟩ := insert_ok_shape hins
  subst hv
  have hf2 := addAll_ok haddall
  have hnotmem : ∀ w, (jsGetField obj c.primaryKey, w) ∉ c.items :=
    alHas_false_not_mem jsStrictEq_lawful
      (fun q hq => (I.itemsOk.ints q hq).scalar) hhas
  have hio : ItemsOk c.primaryKey
      (c.items ++ [(jsGetField obj c.primaryKey, obj)]) := by
    refine ⟨?_, ?_, ?_⟩
    · rw [List.map_append, List.map_cons, List.map_nil, List.nodup_append]
      refine ⟨I.itemsOk.nodup, List.nodup_singleton _, ?_⟩
      intro a ha hb
      simp only [List.mem_singleton] at hb
      subst hb
      obtain ⟨q, hq, hq1⟩ := List.mem_map.mp ha
      have : (jsGetField obj c.primaryKey, q.2) ∈ c.items := by
        rw [← hq1]
        exact hq
      exact hnotmem q.2 this
    · intro q hq
      rcases List.mem_append.mp hq with h | h
      · exact I.itemsOk.ints q h
      · simp only [List.mem_singleton] at h
        subst h
        exact hid
    · intro q hq
      rcases List.mem_append.mp hq with h | h
      · exact I.itemsOk.idf q h
      · simp only [List.mem_singleton] at h
        subst h
        rfl
  refine ⟨?_, ?_, ?_, ?_⟩
  · rw [hpk, hitems]
    exact hio
  · rw [addAll_fst haddall]
    exact I.names
  · intro p2 hp2 hk2
    obtain ⟨p, hp, hn, hadd⟩ := forall2_mem_right hf2 p2 hp2
    obtain ⟨f1, f2, f3, f4, f5⟩ := addToIndex_fields hadd
    have hk : p.2.kind = "range" := f4 ▸ hk2
    have R := I.rdefs p hp hk
    have R2 := rdef_insert I.itemsOk R hk hadd (hQ p hp hk) hid
    rw [hpk, hitems]
    exact R2
  · intro p2 hp2 hk2
    obtain ⟨p, hp, hn, hadd⟩ := forall2_mem_right hf2 p2 hp2
    obtain ⟨f1, f2, f3, f4, f5⟩ := addToIndex_fields hadd
    have hk : p.2.kind = "prefix" := f4 ▸ hk2
    have T := I.tdefs p hp hk
    have T2 := tdef_insert T hk hadd hid.scalar
    rw [hitems]
    exact T2

theorem inv_remove {Q : Val → Prop} {c : Coll} {id : Val} {b : Bool} {c2 : Coll}
    (hrem : remove c id = (b, c2)) (I : Inv Q c) : Inv Q c2 := by
  rcases remove_shape hrem with ⟨_, rfl, _⟩ | ⟨_, prev, hget, hitems, hidx, hpk, _⟩
  · exact I
  · have hkeyscalar : ∀ q ∈ c.items, isScalar q.1 = true :=
      fun q hq => (I.itemsOk.ints q hq).scalar
    obtain ⟨i1, i2, hsplit, _, hdel⟩ :=
      alSet_split jsStrictEq_lawful hkeyscalar I.itemsOk.nodup hget prev
    have hitems2 : c2.items = i1 ++ i2 := by rw [hitems, hdel]
    have hio2 : ItemsOk c.primaryKey (i1 ++ i2) := by
      refine ⟨?_, ?_, ?_⟩
      · have h2 := I.itemsOk.nodup
        rw [hsplit] at h2
        simp only [List.map_append, List.map_cons] at h2
        rw [List.map_append]
        exact (List.nodup_cons.mp (List.nodup_middle.mp h2)).2
      · intro q hq
        refine I.itemsOk.ints q ?_
        rw [hsplit]
        rcases List.mem_append.mp hq with h | h
        · exact List.mem_append.mpr (Or.inl h)
        · simp [h]
      · intro q hq
        refine I.itemsOk.idf q ?_
        rw [hsplit]
        rcases List.mem_append.mp hq with h | h
        · exact List.mem_append.mpr (Or.inl h)
        · simp [h]
    refine ⟨?_, ?_, ?_, ?_⟩
    · rw [hpk, hitems2]
      exact hio2
    · rw [hidx, List.map_map]
      have : ∀ p ∈ c.indexes, (Prod.fst ∘ (fun p : String × IndexDef =>
          (p.1, removeFromIndex c.primaryKey p.2 prev))) p = Prod.fst p :=
        fun p _ => rfl
      rw [List.map_congr_left this]
      exact I.names
    · intro p2 hp2 hk2
      rw [hidx] at hp2
      obtain ⟨p, hp, hpe⟩ := List.mem_map.mp hp2
      cases hpe
      have hk : p.2.kind = "range" := by
        rwa [removeFromIndex_kind] at hk2
      rw [hpk, hitems2]
      exact rdef_remove I.itemsOk (I.rdefs p hp hk) hk hsplit
    · intro p2 hp2 hk2
      rw [hidx] at hp2
      obtain ⟨p, hp, hpe⟩ := List.mem_map.mp hp2
      cases hpe
      have hk : p.2.kind = "prefix" := by
        rwa [removeFromIndex_kind] at hk2
      rw [hitems2]
      exact tdef_remove I.itemsOk (I.tdefs p hp hk) hk hsplit

theorem itemsOk_split {pk : String} {items i1 i2 : List (Val × Val)}
    {id prev : Val} (Hi : ItemsOk pk items)
    (hsplit : items = i1 ++ (id, prev) :: i2) : ItemsOk pk (i1 ++ i2) := by
  refine ⟨?_, ?_, ?_⟩
  · have h2 := Hi.nodup
    rw [hsplit] at h2
    simp only [List.map_append, List.map_cons] at h2
    rw [List.map_append]
    exact (List.nodup_cons.mp (List.nodup_middle.mp h2)).2
  · intro q hq
    refine Hi.ints q ?_
    rw [hsplit]
    rcases List.mem_append.mp hq with h | h
    · exact List.mem_append.mpr (Or.inl h)
    · simp [h]
  · intro q hq
    refine Hi.idf q ?_
    rw [hsplit]
    rcases List.mem_append.mp hq with h | h
    · exact List.mem_append.mpr (Or.inl h)
    · simp [h]

theorem inv_update {Q : Val → Prop} {c : Coll} {id arg v : Val} {c2 : Coll}
    (hupd : update c id arg = (.ok v, c2))
    (hnext : ∀ prev, alGet jsStrictEq c.items id = some prev →
      jsGetField (if isPlainObject arg then mergeRecord c.primaryKey prev arg id
        else arg) c.primaryKey = id ∧
      ∀ p ∈ c.indexes, p.2.kind = "range" →
        Q (keyGetter p.2.keySpec (if isPlainObject arg then
          mergeRecord c.primaryKey prev arg id else arg)))
    (I : Inv Q c) : Inv Q c2 := by
  obtain ⟨prev, hget, hv, hitems, ⟨u, haddall⟩, hpk, hsnaps⟩ := update_ok_shape hupd
  obtain ⟨hnid, hnQ⟩ := hnext prev hget
  rw [← hv] at hnid hnQ
  have hkeyscalar : ∀ q ∈ c.items, isScalar q.1 = true :=
    fun q hq => (I.itemsOk.ints q hq).scalar
  have hmemitem : (id, prev) ∈ c.items :=
    alGet_mem_of_lawful jsStrictEq_lawful hkeyscalar hget
  have hidIsInt : IsIntVal id := I.itemsOk.ints (id, prev) hmemitem
  obtain ⟨i1, i2, hsplit, hset, _⟩ :=
    alSet_split jsStrictEq_lawful hkeyscalar I.itemsOk.nodup hget v
  have hitems2 : c2.items = i1 ++ (id, v) :: i2 := by rw [hitems, hset]
  have hmid : ItemsOk c.primaryKey (i1 ++ i2) := itemsOk_split I.itemsOk hsplit
  have hpermfin : ((i1 ++ i2) ++ [((id : Val), v)]).Perm (i1 ++ (id, v) :: i2) := by
    refine (List.perm_append_singleton _ _).trans ?_
    exact List.perm_middle.symm
  have hio2 : ItemsOk c.primaryKey (i1 ++ (id, v) :: i2) := by
    refine ⟨?_, ?_, ?_⟩
    · have h2 := I.itemsOk.nodup
      rw [hsplit] at h2
      simpa using h2
    · intro q hq
      rcases List.mem_append.mp hq with h | h
      · exact I.itemsOk.ints q (by rw [hsplit]; exact List.mem_append.mpr (Or.inl h))
      · rcases List.mem_cons.mp h with rfl | h2
        · exact hidIsInt
        · exact I.itemsOk.ints q
            (by rw [hsplit]; exact List.mem_append.mpr (Or.inr (by simp [h2])))
    · intro q hq
      rcases List.mem_append.mp hq with h | h
      · exact I.itemsOk.idf q (by rw [hsplit]; exact List.mem_append.mpr (Or.inl h))
      · rcases List.mem_cons.mp h with rfl | h2
        · exact hnid
        · exact I.itemsOk.idf q
            (by rw [hsplit]; exact List.mem_append.mpr (Or.inr (by simp [h2])))
  have hf2 := addAll_ok haddall
  refine ⟨?_, ?_, ?_, ?_⟩
  · rw [hpk, hitems2]
    exact hio2
  · rw [addAll_fst haddall, List.map_map]
    have : ∀ p ∈ c.indexes, (Prod.fst ∘ (fun p : String × IndexDef =>
        (p.1, removeFromIndex c.primaryKey p.2 prev))) p = Prod.fst p :=
      fun p _ => rfl
    rw [List.map_congr_left this]
    exact I.names
  · intro p2 hp2 hk2
    obtain ⟨p1, hp1, hn, hadd⟩ := forall2_mem_right hf2 p2 hp2
    obtain ⟨q, hq, hqe⟩ := List.mem_map.mp hp1
    cases hqe
    obtain ⟨f1, f2, f3, f4, f5⟩ := addToIndex_fields hadd
    have hk : q.2.kind = "range" := by
      rw [← removeFromIndex_kind c.primaryKey q.2 prev, ← f4]
      exact hk2
    have R1 := rdef_remove I.itemsOk (I.rdefs q hq hk) hk hsplit
    have hk1 : (removeFromIndex c.primaryKey q.2 prev).kind = "range" := by
      rwa [removeFromIndex_kind]
    have hQ1 : Q (keyGetter (removeFromIndex c.primaryKey q.2 prev).keySpec v) := by
      rw [removeFromIndex_keySpec]
      exact hnQ q hq hk
    have hid1 : IsIntVal (jsGetField v c.primaryKey) := by
      rw [hnid]
      exact hidIsInt
    have R2 := rdef_insert hmid R1 hk1 hadd hQ1 hid1
    rw [hnid] at R2
    rw [hpk, hitems2]
    exact rdef_perm_items hpermfin R2
  · intro p2 hp2 hk2
    obtain ⟨p1, hp1, hn, hadd⟩ := forall2_mem_right hf2 p2 hp2
    obtain ⟨q, hq, hqe⟩ := List.mem_map.mp hp1
    cases hqe
    obtain ⟨f1, f2, f3, f4, f5⟩ := addToIndex_fields hadd
    have hk : q.2.kind = "prefix" := by
      rw [← removeFromIndex_kind c.primaryKey q.2 prev, ← f4]
      exact hk2
    have T1 := tdef_remove I.itemsOk (I.tdefs q hq hk) hk hsplit
    have hk1 : (removeFromIndex c.primaryKey q.2 prev).kind = "prefix" := by
      rwa [removeFromIndex_kind]
    have hsc1 : isScalar (jsGetField v c.primaryKey) = true := by
      rw [hnid]
      exact hidIsInt.scalar
    have T2 := tdef_insert T1 hk1 hadd hsc1
    rw [hnid] at T2
    rw [hitems2]
    exact tdef_perm_items hpermfin T2

theorem backfill_rdef {Q : Val → Prop} {pk : String} :
    ∀ {objs : List Val} {acc : List (Val × Val)} {d d2 : IndexDef} {u : Unit},
    ItemsOk pk (acc ++ objs.map (fun o => (jsGetField o pk, o))) →
    RDefOk Q pk acc d → d.kind = "range" →
    (∀ o ∈ objs, Q (keyGetter d.keySpec o)) →
    backfill pk d objs = (.ok u, d2) →
    RDefOk Q pk (acc ++ objs.map (fun o => (jsGetField o pk, o))) d2 := by
  intro objs
  induction objs with
  | nil =>
    intro acc d d2 u hio R hk hQ h
    simp only [backfill] at h
    cases h
    simpa using R
  | cons o rest ih =>
    intro acc d d2 u hio R hk hQ h
    have hstep : backfill pk d (o :: rest) =
        (match addToIndex pk d o with
          | .ok d1 => backfill pk d1 rest
          | .error e => (.error e, d)) := rfl
    rw [hstep] at h
    cases hadd : addToIndex pk d o with
    | error e =>
      rw [hadd] at h
      cases h
    | ok d1 =>
      rw [hadd] at h
      obtain ⟨f1, f2, f3, f4, f5⟩ := addToIndex_fields hadd
      have hassoc : acc ++ (o :: rest).map (fun o => (jsGetField o pk, o)) =
          (acc ++ [(jsGetField o pk, o)]) ++
            rest.map (fun o => (jsGetField o pk, o)) := by simp
      rw [hassoc] at hio ⊢
      have hidInt : IsIntVal (jsGetField o pk) :=
        hio.ints (jsGetField o pk, o) (by simp)
      have hioacc : ItemsOk pk acc := itemsOk_append_left (itemsOk_append_left hio)
      have R1 := rdef_insert hioacc R hk hadd (hQ o (by simp)) hidInt
      refine ih hio R1 (by rw [f4]; exact hk) ?_ h
      intro o2 ho2
      rw [f2]
      exact hQ o2 (by simp [ho2])

theorem backfill_tdef {pk : String} :
    ∀ {objs : List Val} {acc : List (Val × Val)} {d d2 : IndexDef} {u : Unit},
    ItemsOk pk (acc ++ objs.map (fun o => (jsGetField o pk, o))) →
    TDefOk acc d → d.kind = "prefix" →
    backfill pk d objs = (.ok u, d2) →
    TDefOk (acc ++ objs.map (fun o => (jsGetField o pk, o))) d2 := by
  intro objs
  induction objs with
  | nil =>
    intro acc d d2 u hio T hk h
    simp only [backfill] at h
    cases h
    simpa using T
  | cons o rest ih =>
    intro acc d d2 u hio T hk h
    have hstep : backfill pk d (o :: rest) =
        (match addToIndex pk d o with
          | .ok d1 => backfill pk d1 rest
          | .error e => (.error e, d)) := rfl
    rw [hstep] at h
    cases hadd : addToIndex pk d o with
    | error e =>
      rw [hadd] at h
      cases h
    | ok d1 =>
      rw [hadd] at h
      obtain ⟨f1, f2, f3, f4, f5⟩ := addToIndex_fields hadd
      have hassoc : acc ++ (o :: rest).map (fun o => (jsGetField o pk, o)) =
          (acc ++ [(jsGetField o pk, o)]) ++
            rest.map (fun o => (jsGetField o pk, o)) := by simp
      rw [hassoc] at hio ⊢
      have hidInt : IsIntVal (jsGetField o pk) :=
        hio.ints (jsGetField o pk, o) (by simp)
      have T1 := tdef_insert T hk hadd hidInt.scalar
      exact ih hio T1 (by rw [f4]; exact hk) h

theorem inv_defineIndex {Q : Val → Prop} {c : Coll} {cfg : DefCfg} {u : Unit}
    {c2 : Coll} (hdef : defineIndex c cfg = (.ok u, c2))
    (hlawful : cfg.kind = "range" →
      LawfulCmpOn Q (compositeCompare (cfg.compare.getD defaultCompare)))
    (hQs : cfg.kind = "range" → ∀ q ∈ c.items, Q (keyGetter cfg.key q.2))
    (I : Inv Q c) : Inv Q c2 := by
  obtain ⟨hhas, hkinds, ⟨u2, hbf⟩, hidxs, hitems, hpk, hsnaps⟩ :=
    defineIndex_ok_shape hdef
  obtain ⟨b1, b2, b3, b4, b5⟩ :=
    @backfill_fields c.primaryKey (c.items.map (fun p => p.2))
      ⟨cfg.name, cfg.key, cfg.unique, cfg.kind, cfg.compare.getD defaultCompare,
       [], [], makeTrieNode⟩
  rw [hbf] at b1 b2 b3 b4 b5
  dsimp only at b1 b2 b3 b4 b5
  have hpairify : (c.items.map (fun q => q.2)).map
      (fun o => (jsGetField o c.primaryKey, o)) = c.items := by
    rw [List.map_map]
    have h7 : ∀ q ∈ c.items, ((fun o => (jsGetField o c.primaryKey, o)) ∘
        (fun q : Val × Val => q.2)) q = id q := by
      intro q hq
      show (jsGetField q.2 c.primaryKey, q.2) = q
      rw [I.itemsOk.idf q hq]
    rw [List.map_congr_left h7, List.map_id]
  have hioB : ItemsOk c.primaryKey
      ([] ++ (c.items.map (fun q => q.2)).map
        (fun o => (jsGetField o c.primaryKey, o))) := by
    rw [List.nil_append, hpairify]
    exact I.itemsOk
  refine ⟨?_, ?_, ?_, ?_⟩
  · rw [hpk, hitems]
    exact I.itemsOk
  · rw [hidxs, List.map_append, List.map_cons, List.map_nil, List.nodup_append]
    refine ⟨I.names, List.nodup_singleton _, ?_⟩
    intro a ha hb
    simp only [List.mem_singleton] at hb
    subst hb
    obtain ⟨q, hq, hq1⟩ := List.mem_map.mp ha
    have hmem : (cfg.name, q.2) ∈ c.indexes := by
      rw [← hq1]
      exact hq
    exact alHas_false_not_mem strBeq_lawful (fun _ _ => trivial) hhas q.2 hmem
  · intro p2 hp2 hk2
    rw [hidxs] at hp2
    rcases List.mem_append.mp hp2 with hold | hnew
    · have R := I.rdefs p2 hold hk2
      rw [hpk, hitems]
      exact R
    · simp only [List.mem_singleton] at hnew
      subst hnew
      have hck : cfg.kind = "range" := by
        rw [← b4]
        exact hk2
      have R0 : RDefOk Q c.primaryKey []
          ⟨cfg.name, cfg.key, cfg.unique, cfg.kind, cfg.compare.getD defaultCompare,
           [], [], makeTrieNode⟩ := by
        refine ⟨hlawful hck, ?_, ?_, ?_⟩
        · intro q hq
          cases hq
        · exact List.Pairwise.nil
        · exact List.Perm.refl _
      have R2 := backfill_rdef hioB R0 hck
        (fun o ho => by
          obtain ⟨q, hq, hqe⟩ := List.mem_map.mp ho
          subst hqe
          exact hQs hck q hq) hbf
      rw [List.nil_append, hpairify] at R2
      rw [hpk, hitems]
      exact R2
  · intro p2 hp2 hk2
    rw [hidxs] at hp2
    rcases List.mem_append.mp hp2 with hold | hnew
    · have T := I.tdefs p2 hold hk2
      rw [hitems]
      exact T
    · simp only [List.mem_singleton] at hnew
      subst hnew
      have hck : cfg.kind = "prefix" := by
        rw [← b4]
        exact hk2
      have T0 : TDefOk []
          ⟨cfg.name, cfg.key, cfg.unique, cfg.kind, cfg.compare.getD defaultCompare,
           [], [], makeTrieNode⟩ := by
        constructor
        · intro path hpath x
          show x ∈ idsAt makeTrieNode path ↔ _
          rw [idsAt_makeTrieNode]
          simp
        · intro path hpath
          show (idsAt makeTrieNode path).Nodup
          rw [idsAt_makeTrieNode]
          exact List.nodup_nil
      have T2 := backfill_tdef hioB T0 hck hbf
      rw [List.nil_append, hpairify] at T2
      rw [hitems]
      exact T2

/-- Success-restricted reachability, parameterized by the comparator
domain `Q`.  The recorded side conditions are what the spec's "after
any sequence of insert, update and remove operations" presupposes:
each operation completed successfully, record ids are integers, an
update keeps the primary-key field of the stored record at its key,
and every range comparator is lawful on the composite keys it is
fed. -/
inductive ReachOk (Q : Val → Prop) : Coll → Prop where
  | base (pk : String) : ReachOk Q (mkColl pk)
  | defIdx {c : Coll} (cfg : DefCfg) {u : Unit} {c2 : Coll} :
      ReachOk Q c →
      (cfg.kind = "range" →
        LawfulCmpOn Q (compositeCompare (cfg.compare.getD defaultCompare))) →
      (cfg.kind = "range" → ∀ q ∈ c.items, Q (keyGetter cfg.key q.2)) →
      defineIndex c cfg = (.ok u, c2) → ReachOk Q c2
  | ins {c : Coll} (obj : Val) {v : Val} {c2 : Coll} :
      ReachOk Q c →
      IsIntVal (jsGetField obj c.primaryKey) →
      (∀ p ∈ c.indexes, p.2.kind = "range" → Q (keyGetter p.2.keySpec obj)) →
      insert c obj = (.ok v, c2) → ReachOk Q c2
  | upd {c : Coll} (id arg : Val) {v : Val} {c2 : Coll} :
      ReachOk Q c →
      (∀ prev, alGet jsStrictEq c.items id = some prev →
        jsGetField (if isPlainObject arg then mergeRecord c.primaryKey prev arg id
          else arg) c.primaryKey = id ∧
        ∀ p ∈ c.indexes, p.2.kind = "range" →
          Q (keyGetter p.2.keySpec (if isPlainObject arg then
            mergeRecord c.primaryKey prev arg id else arg))) →
      update c id arg = (.ok v, c2) → ReachOk Q c2
  | rem {c : Coll} (id : Val) {b : Bool} {c2 : Coll} :
      ReachOk Q c → remove c id = (b, c2) → ReachOk Q c2

theorem inv_base (Q : Val → Prop) (pk : String) : Inv Q (mkColl pk) := by
  refine ⟨⟨List.nodup_nil, ?_, ?_⟩, List.nodup_nil, ?_, ?_⟩
  · intro q hq
    cases hq
  · intro q hq
    cases hq
  · intro p hp
    cases hp
  · intro p hp
    cases hp

/-- The master invariant holds in every successfully reached state. -/
theorem inv_of_reach {Q : Val → Prop} {c : Coll} (h : ReachOk Q c) : Inv Q c := by
  induction h with
  | base pk => exact inv_base Q pk
  | defIdx cfg hr hl hq hstep ih => exact inv_defineIndex hstep hl hq ih
  | ins obj hr h1 h2 hstep ih => exact inv_insert hstep h1 h2 ih
  | upd id arg hr h1 hstep ih => exact inv_update hstep h1 ih
  | rem id hr hstep ih => exact inv_remove hstep ih

/-! ## Injectivity of the canonical key on flat scalar keys -/

/-- Scalar key values: the serializable scalars (`undefined` has no
JSON encoding of its own). -/
def ScalarK (v : Val) : Prop :=
  v = vnull ∨ (∃ n, v = vint n) ∨ (∃ b, v = vbool b) ∨ (∃ s, v = vstr s)

/-- The raw key domain of the claim: scalars and flat (ordered)
sequences of scalars. -/
def KeyDom (v : Val) : Prop :=
  ScalarK v ∨ ∃ l, v = varr l ∧ ∀ x ∈ l, ScalarK x

/-- The escaped body of a JSON string literal. -/
def escBody (cs : List Char) : List Char :=
  cs.foldr (fun c acc => jsonEscChar c ++ acc) []

/-- Character-list view of the scalar JSON encodings. -/
def encScalar : Val → List Char
  | vnull => ['n', 'u', 'l', 'l']
  | vint n => if n < 0 then '-' :: natDigits n.natAbs else natDigits n.toNat
  | vbool true => ['t', 'r', 'u', 'e']
  | vbool false => ['f', 'a', 'l', 's', 'e']
  | vstr s => '"' :: (escBody s.data ++ ['"'])
  | _ => []

/-- Comma-prefixed encodings of the remaining array elements. -/
def encRest : List Val → List Char
  | [] => []
  | x :: xs => ',' :: (encScalar x ++ encRest xs)

/-- Character-list view of the JSON encoding on the key domain. -/
def encL : Val → List Char
  | varr [] => ['[', ']']
  | varr (x :: xs) => '[' :: (encScalar x ++ (encRest xs ++ [']']))
  | v => encScalar v

theorem foldr_esc_init (cs : List Char) :
    cs.foldr (fun c acc => jsonEscChar c ++ acc) ['"'] = escBody cs ++ ['"'] := by
  induction cs with
  | nil => rfl
  | cons c rest ih =>
    show jsonEscChar c ++ rest.foldr (fun c acc => jsonEscChar c ++ acc) ['"'] = _
    rw [ih]
    show _ = (jsonEscChar c ++ escBody rest) ++ ['"']
    rw [List.append_assoc]

/-- The JSON text of a scalar key value, character by character. -/
theorem jsonStringify_scalar {v : Val} (h : ScalarK v) :
    jsonStringify v = some (String.mk (encScalar v)) := by
  rcases h with rfl | ⟨n, rfl⟩ | ⟨b, rfl⟩ | ⟨s, rfl⟩
  · decide
  · show some (intDec n) = some (String.mk
      (if n < 0 then '-' :: natDigits n.natAbs else natDigits n.toNat))
    unfold intDec
    by_cases hn : n < 0
    · rw [if_pos hn, if_pos hn]
    · rw [if_neg hn, if_neg hn]
  · cases b <;> decide
  · show some (jsonQuote s) = some (String.mk ('"' :: (escBody s.data ++ ['"'])))
    unfold jsonQuote
    rw [foldr_esc_init]

theorem go_comma_data :
    ∀ (xs : List Val), (∀ x ∈ xs, ScalarK x) → ∀ (acc : String),
    (String.intercalate.go acc "," (jsonStringify.arrParts xs)).data =
      acc.data ++ encRest xs := by
  intro xs
  induction xs with
  | nil =>
    intro _ acc
    show acc.data = acc.data ++ []
    rw [List.append_nil]
  | cons x rest ih =>
    intro hsc acc
    show (String.intercalate.go (acc ++ "," ++ ((jsonStringify x).getD "null"))
      "," (jsonStringify.arrParts rest)).data = _
    rw [ih (fun y hy => hsc y (by simp [hy]))]
    rw [jsonStringify_scalar (hsc x (by simp))]
    show (acc ++ "," ++ String.mk (encScalar x)).data ++ encRest rest = _
    rw [String.data_append, String.data_append]
    show acc.data ++ [','] ++ encScalar x ++ encRest rest = _
    rw [List.append_assoc, List.append_assoc]
    rfl

/-- The JSON text of a key-domain value, character by character. -/
theorem jsonStringify_keyDom {v : Val} (h : KeyDom v) :
    jsonStringify v = some (String.mk (encL v)) := by
  rcases h with hsc | ⟨l, rfl, hl⟩
  · have henc : encL v = encScalar v := by
      rcases hsc with rfl | ⟨n, rfl⟩ | ⟨b, rfl⟩ | ⟨s, rfl⟩ <;> rfl
    rw [henc]
    exact jsonStringify_scalar hsc
  · show some ("[" ++ String.intercalate "," (jsonStringify.arrParts l) ++ "]") = _
    congr 1
    have hdata : ("[" ++ String.intercalate "," (jsonStringify.arrParts l)
        ++ "]").data = encL (varr l) := by
      rw [String.data_append, String.data_append]
      cases l with
      | nil =>
        show ['['] ++ [] ++ [']'] = _
        rfl
      | cons x rest =>
        show ['['] ++ (String.intercalate.go ((jsonStringify x).getD "null")
          "," (jsonStringify.arrParts rest)).data ++ [']'] = _
        rw [go_comma_data rest (fun y hy => hl y (by simp [hy]))]
        rw [jsonStringify_scalar (hl x (by simp))]
        show ['['] ++ (encScalar x ++ encRest rest) ++ [']'] =
          '[' :: (encScalar x ++ (encRest rest ++ [']']))
        simp
    calc "[" ++ String.intercalate "," (jsonStringify.arrParts l) ++ "]"
        = String.mk ("[" ++ String.intercalate ","
            (jsonStringify.arrParts l) ++ "]").data := rfl
      _ = String.mk (encL (varr l)) := by rw [hdata]

/-! ### A decoder for the encoded key texts

Injectivity of the encoding is proved by exhibiting a left inverse:
a parser over character lists that recovers the value (and the
remaining input) from every encoded key-domain value. -/

def hexVal (c : Char) : Nat :=
  if c.toNat ≤ 57 then c.toNat - 48 else c.toNat - 87

def isDigitC (c : Char) : Bool :=
  decide (48 ≤ c.toNat) && decide (c.toNat ≤ 57)

def takeDigits : List Char → List Char × List Char
  | [] => ([], [])
  | c :: cs =>
    if isDigitC c then
      ((c :: (takeDigits cs).1, (takeDigits cs).2) : List Char × List Char)
    else ([], c :: cs)

def digitsVal (ds : List Char) : Nat :=
  ds.foldl (fun n c => 10 * n + (c.toNat - 48)) 0

def decEscShort (c : Char) : Option Char :=
  if c = '"' then some '"'
  else if c = '\\' then some '\\'
  else if c = 'b' then some (Char.ofNat 8)
  else if c = 't' then some (Char.ofNat 9)
  else if c = 'n' then some (Char.ofNat 10)
  else if c = 'f' then some (Char.ofNat 12)
  else if c = 'r' then some (Char.ofNat 13)
  else none

def decStrBody : List Char → Option (List Char × List Char)
  | [] => none
  | c :: cs =>
    if c = '"' then some ([], cs)
    else if c = '\\' then
      match cs with
      | [] => none
      | c2 :: rest =>
        if c2 = 'u' then
          match rest with
          | '0' :: '0' :: h1 :: h2 :: r =>
            (decStrBody r).map
              (fun p => (Char.ofNat (16 * hexVal h1 + hexVal h2) :: p.1, p.2))
          | _ => none
        else
          match decEscShort c2 with
          | some c3 => (decStrBody rest).map (fun p => (c3 :: p.1, p.2))
          | none => none
    else (decStrBody cs).map (fun p => (c :: p.1, p.2))
termination_by structural cs => cs

def decScalar : List Char → Option (Val × List Char)
  | [] => none
  | c :: r =>
    if c = 'n' then
      match r with
      | 'u' :: 'l' :: 'l' :: r2 => some (vnull, r2)
      | _ => none
    else if c = 't' then
      match r with
      | 'r' :: 'u' :: 'e' :: r2 => some (vbool true, r2)
      | _ => none
    else if c = 'f' then
      match r with
      | 'a' :: 'l' :: 's' :: 'e' :: r2 => some (vbool false, r2)
      | _ => none
    else if c = '"' then
      (decStrBody r).map (fun p => (vstr (String.mk p.1), p.2))
    else if c = '-' then
      match takeDigits r with
      | ([], _) => none
      | (d :: ds, r2) => some (vint (-(digitsVal (d :: ds) : Int)), r2)
    else if isDigitC c then
      some (vint (digitsVal (c :: (takeDigits r).1)), (takeDigits r).2)
    else none

def decElems : Nat → List Char → Option (List Val × List Char)
  | 0, _ => none
  | fuel + 1, cs =>
    match decScalar cs with
    | none => none
    | some (v, r) =>
      match r with
      | ',' :: r2 => (decElems fuel r2).map (fun p => (v :: p.1, p.2))
      | ']' :: r2 => some ([v], r2)
      | _ => none

def decTop : List Char → Option (Val × List Char)
  | [] => none
  | c :: r =>
    if c = '[' then
      match r with
      | [] => none
      | c2 :: r2 =>
        if c2 = ']' then some (varr [], r2)
        else (decElems (r2.length + 2) (c2 :: r2)).map (fun p => (varr p.1, p.2))
    else decScalar (c :: r)

/-! ### Digit runs -/

theorem toNat_ofNat_small {n : Nat} (h : n < 55296) :
    (Char.ofNat n).toNat = n := by
  have hv : n.isValidChar := Or.inl h
  rw [Char.ofNat, dif_pos hv]
  rfl

theorem digitsVal_append_one (ds : List Char) (c : Char) :
    digitsVal (ds ++ [c]) = 10 * digitsVal ds + (c.toNat - 48) := by
  unfold digitsVal
  rw [List.foldl_append]
  rfl

theorem natDigitsAux_spec :
    ∀ (fuel n : Nat), n < fuel →
    (∀ c ∈ natDigitsAux fuel n, isDigitC c = true) ∧
    digitsVal (natDigitsAux fuel n) = n ∧ natDigitsAux fuel n ≠ [] := by
  intro fuel
  induction fuel with
  | zero => intro n hn; omega
  | succ fuel ih =>
    intro n hn
    by_cases h10 : n < 10
    · unfold natDigitsAux
      rw [if_pos h10]
      have htn : (Char.ofNat (48 + n)).toNat = 48 + n :=
        toNat_ofNat_small (by omega)
      refine ⟨?_, ?_, by simp⟩
      · intro c hc
        simp only [List.mem_singleton] at hc
        subst hc
        simp only [isDigitC, htn]
        simp
        omega
      · show digitsVal [Char.ofNat (48 + n)] = n
        simp [digitsVal, htn]
    · unfold natDigitsAux
      rw [if_neg h10]
      have hrec : n / 10 < fuel := by omega
      obtain ⟨ihd, ihv, ihne⟩ := ih (n / 10) hrec
      have htn : (Char.ofNat (48 + n % 10)).toNat = 48 + n % 10 :=
        toNat_ofNat_small (by omega)
      refine ⟨?_, ?_, by simp⟩
      · intro c hc
        rcases List.mem_append.mp hc with h | h
        · exact ihd c h
        · simp only [List.mem_singleton] at h
          subst h
          simp only [isDigitC, htn]
          simp
          omega
      · rw [digitsVal_append_one, ihv, htn]
        omega

theorem natDigits_spec (n : Nat) :
    (∀ c ∈ natDigits n, isDigitC c = true) ∧
    digitsVal (natDigits n) = n ∧ natDigits n ≠ [] :=
  natDigitsAux_spec (n + 1) n (by omega)

theorem takeDigits_append {ds r : List Char}
    (hds : ∀ c ∈ ds, isDigitC c = true)
    (hr : ∀ c, r.head? = some c → isDigitC c = false) :
    takeDigits (ds ++ r) = (ds, r) := by
  induction ds with
  | nil =>
    rw [List.nil_append]
    cases r with
    | nil => rfl
    | cons c cs =>
      unfold takeDigits
      rw [if_neg (by simp [hr c rfl])]
  | cons d ds ih =>
    rw [List.cons_append]
    unfold takeDigits
    rw [if_pos (hds d (by simp))]
    rw [ih (fun c hc => hds c (by simp [hc]))]

theorem escBody_cons (c : Char) (cs : List Char) :
    escBody (c :: cs) = jsonEscChar c ++ escBody cs := rfl

theorem hexVal_hexDigit {m : Nat} (hm : m < 16) : hexVal (hexDigit m) = m := by
  unfold hexDigit hexVal
  by_cases h : m < 10
  · rw [if_pos h, toNat_ofNat_small (by omega), if_pos (by omega)]
    omega
  · rw [if_neg h, toNat_ofNat_small (by omega), if_neg (by omega)]
    omega

/-- The string-body decoder inverts the escaping. -/
theorem decStrBody_esc : ∀ (cs r : List Char),
    decStrBody (escBody cs ++ ('"' :: r)) = some (cs, r) := by
  intro cs
  induction cs with
  | nil =>
    intro r
    show decStrBody ('"' :: r) = some ([], r)
    rw [decStrBody.eq_def]
    rfl
  | cons c cs ih =>
    intro r
    rw [escBody_cons, List.append_assoc]
    unfold jsonEscChar
    by_cases h1 : c = '"'
    · subst h1
      rw [if_pos rfl]
      show decStrBody ('\\' :: '"' :: (escBody cs ++ ('"' :: r))) = _
      rw [decStrBody.eq_def]
      show (decStrBody (escBody cs ++ ('"' :: r))).map
        (fun p => ('"' :: p.1, p.2)) = _
      rw [ih]
      rfl
    · rw [if_neg h1]
      by_cases h2 : c = '\\'
      · subst h2
        rw [if_pos rfl]
        show decStrBody ('\\' :: '\\' :: (escBody cs ++ ('"' :: r))) = _
        rw [decStrBody.eq_def]
        show (decStrBody (escBody cs ++ ('"' :: r))).map
          (fun p => ('\\' :: p.1, p.2)) = _
        rw [ih]
        rfl
      · rw [if_neg h2]
        by_cases h3 : c = Char.ofNat 8
        · subst h3
          rw [if_pos rfl]
          show decStrBody ('\\' :: 'b' :: (escBody cs ++ ('"' :: r))) = _
          rw [decStrBody.eq_def]
          show (decStrBody (escBody cs ++ ('"' :: r))).map
            (fun p => (Char.ofNat 8 :: p.1, p.2)) = _
          rw [ih]
          rfl
        · rw [if_neg h3]
          by_cases h4 : c = Char.ofNat 9
          · subst h4
            rw [if_pos rfl]
            show decStrBody ('\\' :: 't' :: (escBody cs ++ ('"' :: r))) = _
            rw [decStrBody.eq_def]
            show (decStrBody (escBody cs ++ ('"' :: r))).map
              (fun p => (Char.ofNat 9 :: p.1, p.2)) = _
            rw [ih]
            rfl
          · rw [if_neg h4]
            by_cases h5 : c = Char.ofNat 10
            · subst h5
              rw [if_pos rfl]
              show decStrBody ('\\' :: 'n' :: (escBody cs ++ ('"' :: r))) = _
              rw [decStrBody.eq_def]
              show (decStrBody (escBody cs ++ ('"' :: r))).map
                (fun p => (Char.ofNat 10 :: p.1, p.2)) = _
              rw [ih]
              rfl
            · rw [if_neg h5]
              by_cases h6 : c = Char.ofNat 12
              · subst h6
                rw [if_pos rfl]
                show decStrBody ('\\' :: 'f' :: (escBody cs ++ ('"' :: r))) = _
                rw [decStrBody.eq_def]
                show (decStrBody (escBody cs ++ ('"' :: r))).map
                  (fun p => (Char.ofNat 12 :: p.1, p.2)) = _
                rw [ih]
                rfl
              · rw [if_neg h6]
                by_cases h7 : c = Char.ofNat 13
                · subst h7
                  rw [if_pos rfl]
                  show decStrBody ('\\' :: 'r' :: (escBody cs ++ ('"' :: r))) = _
                  rw [decStrBody.eq_def]
                  show (decStrBody (escBody cs ++ ('"' :: r))).map
                    (fun p => (Char.ofNat 13 :: p.1, p.2)) = _
                  rw [ih]
                  rfl
                · rw [if_neg h7]
                  by_cases h8 : c.toNat < 32
                  · rw [if_pos h8]
                    show decStrBody ('\\' :: 'u' :: '0' :: '0' ::
                      hexDigit (c.toNat / 16) :: hexDigit (c.toNat % 16) ::
                      (escBody cs ++ ('"' :: r))) = _
                    rw [decStrBody.eq_def]
                    show (decStrBody (escBody cs ++ ('"' :: r))).map
                      (fun p => (Char.ofNat
                        (16 * hexVal (hexDigit (c.toNat / 16)) +
                          hexVal (hexDigit (c.toNat % 16))) :: p.1, p.2)) = _
                    rw [ih]
                    show some (Char.ofNat (16 * hexVal (hexDigit (c.toNat / 16)) +
                      hexVal (hexDigit (c.toNat % 16))) :: cs, r) = some (c :: cs, r)
                    rw [hexVal_hexDigit (by omega), hexVal_hexDigit (by omega)]
                    rw [show 16 * (c.toNat / 16) + c.toNat % 16 = c.toNat from by
                      omega]
                    rw [Char.ofNat_toNat]
                  · rw [if_neg h8]
                    show decStrBody (c :: (escBody cs ++ ('"' :: r))) = _
                    rw [decStrBody.eq_def]
                    simp only [if_neg h1, if_neg h2]
                    rw [ih]
                    rfl

theorem isDigitC_facts {c : Char} (h : isDigitC c = true) :
    c ≠ 'n' ∧ c ≠ 't' ∧ c ≠ 'f' ∧ c ≠ '"' ∧ c ≠ '-' ∧ c ≠ '[' ∧ c ≠ ']' := by
  refine ⟨?_, ?_, ?_, ?_, ?_, ?_, ?_⟩ <;> (rintro rfl; revert h; decide)

/-- The suffix after an encoded array element starts with a comma or
the closing bracket. -/
def GoodTail (r : List Char) : Prop :=
  ∀ c, r.head? = some c → (c = ',' ∨ c = ']')

theorem goodTail_nil : GoodTail [] := by
  intro c hc
  cases hc

theorem goodTail_not_digit {r : List Char} (h : GoodTail r) :
    ∀ c, r.head? = some c → isDigitC c = false := by
  intro c hc
  rcases h c hc with rfl | rfl <;> decide

/-- The scalar decoder inverts the scalar encoding, whenever the
remaining input does not begin with a digit. -/
theorem decScalar_enc {v : Val} (h : ScalarK v) {r : List Char}
    (hr : ∀ c, r.head? = some c → isDigitC c = false) :
    decScalar (encScalar v ++ r) = some (v, r) := by
  rcases h with rfl | ⟨n, rfl⟩ | ⟨b, rfl⟩ | ⟨s, rfl⟩
  · show decScalar ('n' :: 'u' :: 'l' :: 'l' :: r) = some (vnull, r)
    rw [decScalar.eq_def]
    rfl
  · obtain ⟨hdig, hval, hne⟩ := natDigits_spec (if n < 0 then n.natAbs else n.toNat)
    by_cases hn : n < 0
    · show decScalar ((if n < 0 then '-' :: natDigits n.natAbs
        else natDigits n.toNat) ++ r) = _
      rw [if_pos hn]
      rw [if_pos hn] at hdig hval hne
      show decScalar ('-' :: (natDigits n.natAbs ++ r)) = _
      rw [decScalar.eq_def]
      show (match takeDigits (natDigits n.natAbs ++ r) with
        | ([], _) => none
        | (d :: ds, r2) => some (vint (-(digitsVal (d :: ds) : Int)), r2)) = _
      rw [takeDigits_append hdig hr]
      obtain ⟨d, ds, hds⟩ : ∃ d ds, natDigits n.natAbs = d :: ds := by
        cases hh : natDigits n.natAbs with
        | nil => exact absurd hh hne
        | cons d ds => exact ⟨d, ds, rfl⟩
      rw [hds]
      show some (vint (-(digitsVal (d :: ds) : Int)), r) = _
      have h2 : digitsVal (d :: ds) = n.natAbs := by
        rw [← hds]
        exact hval
      rw [h2, show -((n.natAbs : Nat) : Int) = n from by omega]
    · show decScalar ((if n < 0 then '-' :: natDigits n.natAbs
        else natDigits n.toNat) ++ r) = _
      rw [if_neg hn]
      rw [if_neg hn] at hdig hval hne
      obtain ⟨d, ds, hds⟩ : ∃ d ds, natDigits n.toNat = d :: ds := by
        cases hh : natDigits n.toNat with
        | nil => exact absurd hh hne
        | cons d ds => exact ⟨d, ds, rfl⟩
      have hd : isDigitC d = true := hdig d (by rw [hds]; simp)
      obtain ⟨hn1, hn2, hn3, hn4, hn5, _, _⟩ := isDigitC_facts hd
      rw [hds]
      show decScalar (d :: (ds ++ r)) = _
      rw [decScalar.eq_def]
      simp only [if_neg hn1, if_neg hn2, if_neg hn3, if_neg hn4, if_neg hn5,
        if_pos hd]
      rw [takeDigits_append (fun c hc => hdig c (by rw [hds]; simp [hc])) hr]
      have h2 : digitsVal (d :: ds) = n.toNat := by
        rw [← hds]
        exact hval
      show some (vint (digitsVal (d :: ds)), r) = _
      rw [h2, show ((n.toNat : Nat) : Int) = n from by omega]
  · cases b
    · show decScalar ('f' :: 'a' :: 'l' :: 's' :: 'e' :: r) = some (vbool false, r)
      rw [decScalar.eq_def]
      rfl
    · show decScalar ('t' :: 'r' :: 'u' :: 'e' :: r) = some (vbool true, r)
      rw [decScalar.eq_def]
      rfl
  · show decScalar ('"' :: ((escBody s.data ++ ['"']) ++ r)) = some (vstr s, r)
    rw [List.append_assoc]
    show decScalar ('"' :: (escBody s.data ++ ('"' :: r))) = _
    rw [decScalar.eq_def]
    show (decStrBody (escBody s.data ++ ('"' :: r))).map
      (fun p => (vstr (String.mk p.1), p.2)) = _
    rw [decStrBody_esc]
    rfl

theorem encRest_length (xs : List Val) : xs.length ≤ (encRest xs).length := by
  induction xs with
  | nil => exact Nat.le_refl 0
  | cons y ys ih =>
    show ys.length + 1 ≤ (',' :: (encScalar y ++ encRest ys)).length
    simp only [List.length_cons, List.length_append]
    omega

theorem head_nondigit_close (r : List Char) :
    ∀ c, ((']' :: r) : List Char).head? = some c → isDigitC c = false := by
  intro c hc
  have h2 : c = ']' := by
    have h3 : some ']' = some c := hc
    exact (Option.some.inj h3).symm
  subst h2
  decide

theorem head_nondigit_comma (r : List Char) :
    ∀ c, ((',' :: r) : List Char).head? = some c → isDigitC c = false := by
  intro c hc
  have h2 : c = ',' := by
    have h3 : some ',' = some c := hc
    exact (Option.some.inj h3).symm
  subst h2
  decide

theorem decElems_comma (f : Nat) (cs r2 : List Char) (v : Val)
    (h : decScalar cs = some (v, ',' :: r2)) :
    decElems (f + 1) cs = (decElems f r2).map (fun p => (v :: p.1, p.2)) := by
  conv_lhs => unfold decElems
  rw [h]
  rfl

theorem decElems_close (f : Nat) (cs r2 : List Char) (v : Val)
    (h : decScalar cs = some (v, ']' :: r2)) :
    decElems (f + 1) cs = some ([v], r2) := by
  conv_lhs => unfold decElems
  rw [h]
  rfl

/-- The element decoder inverts the element encoding. -/
theorem decElems_enc : ∀ (xs : List Val) (x : Val) (fuel : Nat) (r : List Char),
    xs.length < fuel → ScalarK x → (∀ y ∈ xs, ScalarK y) →
    decElems fuel (encScalar x ++ (encRest xs ++ (']' :: r))) =
      some (x :: xs, r) := by
  intro xs
  induction xs with
  | nil =>
    intro x fuel r hfuel hx _
    obtain ⟨f, rfl⟩ : ∃ f, fuel = f + 1 := ⟨fuel - 1, by omega⟩
    have hscal : decScalar (encScalar x ++ (']' :: r)) = some (x, ']' :: r) :=
      decScalar_enc hx (head_nondigit_close r)
    show decElems (f + 1) (encScalar x ++ (']' :: r)) = some ([x], r)
    exact decElems_close f _ r x hscal
  | cons y ys ih =>
    intro x fuel r hfuel hx hys
    obtain ⟨f, rfl⟩ : ∃ f, fuel = f + 1 := ⟨fuel - 1, by omega⟩
    have hr2 : encRest (y :: ys) ++ (']' :: r) =
        ',' :: (encScalar y ++ (encRest ys ++ (']' :: r))) := by
      show (',' :: (encScalar y ++ encRest ys)) ++ (']' :: r) = _
      simp [List.append_assoc]
    rw [hr2]
    have hscal : decScalar (encScalar x ++
        (',' :: (encScalar y ++ (encRest ys ++ (']' :: r))))) =
        some (x, ',' :: (encScalar y ++ (encRest ys ++ (']' :: r)))) :=
      decScalar_enc hx (head_nondigit_comma _)
    rw [decElems_comma f _ _ x hscal]
    rw [ih y f r (by simpa using Nat.lt_of_succ_lt_succ (by simpa using hfuel))
      (hys y (by simp)) (fun z hz => hys z (by simp [hz]))]
    rfl

theorem encScalar_head {v : Val} (h : ScalarK v) :
    ∃ c0 cs0, encScalar v = c0 :: cs0 ∧ c0 ≠ '[' ∧ c0 ≠ ']' := by
  rcases h with rfl | ⟨n, rfl⟩ | ⟨b, rfl⟩ | ⟨s, rfl⟩
  · exact ⟨'n', _, rfl, by decide, by decide⟩
  · obtain ⟨hdig, _, hne⟩ := natDigits_spec (if n < 0 then n.natAbs else n.toNat)
    by_cases hn : n < 0
    · refine ⟨'-', natDigits n.natAbs, ?_, by decide, by decide⟩
      show (if n < 0 then '-' :: natDigits n.natAbs else natDigits n.toNat) = _
      rw [if_pos hn]
    · rw [if_neg hn] at hdig hne
      obtain ⟨d, ds, hds⟩ : ∃ d ds, natDigits n.toNat = d :: ds := by
        cases hh : natDigits n.toNat with
        | nil => exact absurd hh hne
        | cons d ds => exact ⟨d, ds, rfl⟩
      have hd : isDigitC d = true := hdig d (by rw [hds]; simp)
      obtain ⟨_, _, _, _, _, hb1, hb2⟩ := isDigitC_facts hd
      refine ⟨d, ds, ?_, hb1, hb2⟩
      show (if n < 0 then '-' :: natDigits n.natAbs else natDigits n.toNat) = _
      rw [if_neg hn, hds]
  · cases b
    · exact ⟨'f', _, rfl, by decide, by decide⟩
    · exact ⟨'t', _, rfl, by decide, by decide⟩
  · exact ⟨'"', _, rfl, by decide, by decide⟩

/-- The top-level decoder inverts the key encoding. -/
theorem decTop_enc {v : Val} (h : KeyDom v) {r : List Char} (hr : GoodTail r) :
    decTop (encL v ++ r) = some (v, r) := by
  rcases h with hsc | ⟨l, rfl, hl⟩
  · obtain ⟨c0, cs0, henc, hnb, _⟩ := encScalar_head hsc
    have henc2 : encL v = c0 :: cs0 := by
      rcases hsc with rfl | ⟨n, rfl⟩ | ⟨b, rfl⟩ | ⟨s, rfl⟩ <;> exact henc
    have hstep : decTop (c0 :: (cs0 ++ r)) = decScalar (c0 :: (cs0 ++ r)) := by
      show (if c0 = '[' then _ else decScalar (c0 :: (cs0 ++ r))) = _
      rw [if_neg hnb]
    rw [henc2, List.cons_append, hstep, ← List.cons_append, ← henc]
    exact decScalar_enc hsc (goodTail_not_digit hr)
  · cases l with
    | nil =>
      show decTop ('[' :: ']' :: r) = some (varr [], r)
      rw [decTop.eq_def]
      rfl
    | cons x xs =>
      have hx := hl x (by simp)
      obtain ⟨c0, cs0, henc, _, hnb2⟩ := encScalar_head hx
      have hshape : encL (varr (x :: xs)) ++ r =
          '[' :: (c0 :: (cs0 ++ (encRest xs ++ (']' :: r)))) := by
        show ('[' :: (encScalar x ++ (encRest xs ++ [']']))) ++ r = _
        rw [henc]
        simp [List.append_assoc]
      have hstep : decTop ('[' :: (c0 :: (cs0 ++ (encRest xs ++ (']' :: r))))) =
          (decElems ((cs0 ++ (encRest xs ++ (']' :: r))).length + 2)
            (c0 :: (cs0 ++ (encRest xs ++ (']' :: r))))).map
              (fun p => (varr p.1, p.2)) := by
        show (if c0 = ']' then some (varr [], cs0 ++ (encRest xs ++ (']' :: r)))
          else (decElems ((cs0 ++ (encRest xs ++ (']' :: r))).length + 2)
            (c0 :: (cs0 ++ (encRest xs ++ (']' :: r))))).map
              (fun p => (varr p.1, p.2))) = _
        rw [if_neg hnb2]
      rw [hshape, hstep, ← List.cons_append, ← henc]
      rw [decElems_enc xs x _ r ?hfl hx (fun y hy => hl y (by simp [hy]))]
      case hfl =>
        have := encRest_length xs
        simp only [List.length_append, List.length_cons]
        omega
      rfl

/-- Injectivity of the key encoding on the key domain. -/
theorem encL_inj {v w : Val} (hv : KeyDom v) (hw : KeyDom w)
    (h : encL v = encL w) : v = w := by
  have h1 := @decTop_enc v hv [] goodTail_nil
  have h2 := @decTop_enc w hw [] goodTail_nil
  rw [List.append_nil] at h1 h2
  rw [h, h2] at h1
  exact (congrArg Prod.fst (Option.some.inj h1)).symm

/-- Canonical keys separate exactly the distinguishable values of the
key domain. -/
theorem canonicalKey_inj_keyDom {v w : Val} (hv : KeyDom v) (hw : KeyDom w) :
    canonicalKey v = canonicalKey w ↔ v = w := by
  constructor
  · intro h
    rw [canonicalKey, canonicalKey, jsonStringify_keyDom hv,
      jsonStringify_keyDom hw] at h
    exact encL_inj hv hw (congrArg String.data (Option.some.inj h))
  · rintro rfl
    rfl

/-! ## Concrete states for the witnesses and counterexamples -/

/-- Boolean integer test, a decidable rendering of `IsIntVal`. -/
def isIntB : Val → Bool
  | vint _ => true
  | _ => false

theorem lawfulCmpOn_mono {α : Type _} {Q Q2 : α → Prop} {cmp : α → α → Int}
    (L : LawfulCmpOn Q cmp) (h : ∀ v, Q2 v → Q v) : LawfulCmpOn Q2 cmp :=
  ⟨fun a b ha hb => L.flip a b (h a ha) (h b hb),
   fun a b c ha hb hc => L.le_trans a b c (h a ha) (h b hb) (h c hc)⟩

theorem isIntVal_nonArr : ∀ v, IsIntVal v → NonArr v := by
  rintro v ⟨n, rfl⟩ xs h
  cases h

/-- The default comparator is lawful on integer values, composite or
not. -/
theorem cmpIntLawful : LawfulCmpOn IsIntVal (compositeCompare defaultCompare) :=
  compositeCompare_lawful_nonArr isIntVal_nonArr defaultCompare_lawful_int

theorem lawfulQInt :
    LawfulCmpOn (fun v => isIntB v = true) (compositeCompare defaultCompare) := by
  refine lawfulCmpOn_mono cmpIntLawful ?_
  intro v hv
  cases v <;> first
    | exact ⟨_, rfl⟩
    | (exfalso; exact Bool.noConfusion hv)

def Wcfg1 : DefCfg := ⟨"byAge", .field "age", false, "range", none⟩
def Wcfg2 : DefCfg := ⟨"byName", .field "name", false, "prefix", none⟩
def Wobj1 : Val := vobj [("id", vint 1), ("age", vint 30), ("name", vstr "ann")]
def Wobj2 : Val := vobj [("id", vint 2), ("age", vint 24), ("name", vstr "bob")]
def Wc1 : Coll := (defineIndex (mkColl "id") Wcfg1).2
def Wc2 : Coll := (defineIndex Wc1 Wcfg2).2
def Wc3 : Coll := (insert Wc2 Wobj1).2
def Wc4 : Coll := (insert Wc3 Wobj2).2

def dfltIdx : String × IndexDef :=
  ("", ⟨"", .field "", false, "", defaultCompare, [], [], makeTrieNode⟩)

def WidxAge : IndexDef := (Wc4.indexes.getD 0 dfltIdx).2

def WidxName : IndexDef := (Wc4.indexes.getD 1 dfltIdx).2

theorem Wreach : ReachOk (fun v => isIntB v = true) Wc4 :=
  .ins Wobj2
    (.ins Wobj1
      (.defIdx Wcfg2
        (.defIdx Wcfg1 (.base "id") (fun _ => lawfulQInt) (by decide) rfl)
        (fun hk => absurd hk (by decide)) (by decide) rfl)
      ⟨1, rfl⟩ (by decide) rfl)
    ⟨2, rfl⟩ (by decide) rfl

theorem WreachAny : ReachAny Wc4 :=
  .ins Wobj2
    (.ins Wobj1 (.defIdx Wcfg2 (.defIdx Wcfg1 (.base "id") rfl) rfl) rfl) rfl

theorem WmemAge : ("byAge", WidxAge) ∈ Wc4.indexes := by
  have h1 : 0 < Wc4.indexes.length := by
    rw [show Wc4.indexes.length = 2 from rfl]
    omega
  have h3 : Wc4.indexes[0] = ("byAge", WidxAge) := by
    rw [← List.getD_eq_getElem Wc4.indexes dfltIdx h1]
    rfl
  exact h3 ▸ List.getElem_mem h1

theorem WmemName : ("byName", WidxName) ∈ Wc4.indexes := by
  have h1 : 1 < Wc4.indexes.length := by
    rw [show Wc4.indexes.length = 2 from rfl]
    omega
  have h3 : Wc4.indexes[1] = ("byName", WidxName) := by
    rw [← List.getD_eq_getElem Wc4.indexes dfltIdx h1]
    rfl
  exact h3 ▸ List.getElem_mem h1

/-- Roundtrip replay of the witness state. -/
def W8r : Coll :=
  match deserializePayload (serializePayload Wc4) with
  | .ok s => s
  | .error _ => mkColl ""

/-- A range definition and collection used directly (any sorted state,
no reachability needed). -/
def C1idx : IndexDef := ⟨"byAge", .field "age", false, "range", defaultCompare,
  [], [⟨vint 24, vint 1⟩, ⟨vint 29, vint 3⟩, ⟨vint 31, vint 2⟩], makeTrieNode⟩

def C1coll : Coll := ⟨"id",
  [(vint 1, vobj [("id", vint 1), ("age", vint 24)]),
   (vint 2, vobj [("id", vint 2), ("age", vint 31)]),
   (vint 3, vobj [("id", vint 3), ("age", vint 29)])],
  [("byAge", C1idx)], []⟩

/-- A unique equality definition whose key already maps to the very id
being re-added. -/
def C2def : IndexDef := ⟨"byKey", .field "k", true, "eq", defaultCompare,
  [(some "1", .sid (vint 5))], [], makeTrieNode⟩

def C2obj : Val := vobj [("id", vint 5), ("k", vint 1)]

/-- A range index over a comparator that is not serialized. -/
def revCmp : Val → Val → Int := fun a b => defaultCompare b a

def X5cfg : DefCfg := ⟨"byAge", .field "age", false, "range", some revCmp⟩
def X5c1 : Coll := (defineIndex (mkColl "id") X5cfg).2
def X5c2 : Coll := (insert X5c1 (vobj [("id", vint 1), ("age", vint 1)])).2
def X5c3 : Coll := (insert X5c2 (vobj [("id", vint 2), ("age", vint 2)])).2

def X5r : Coll :=
  match deserializePayload (serializePayload X5c3) with
  | .ok s => s
  | .error _ => mkColl ""

/-- Replay of the C5 witness payload. -/
def C5pay : Payload := serializePayload Wc4

def C5res : Coll :=
  match deserializePayload C5pay with
  | .ok s => s
  | .error _ => mkColl ""

/-! ## The claims -/

theorem addToIndex_error {pk : String} {d : IndexDef} {obj : Val} {e : Err}
    (h : addToIndex pk d obj = .error e) : e = .uniqueConstraintViolation := by
  unfold addToIndex at h
  by_cases h1 : d.kind = "eq"
  · rw [if_pos h1] at h
    by_cases h2 : d.unique = true
    · rw [if_pos h2] at h
      by_cases h3 : alHas strOptBeq d.eqMap
          (canonicalKey (keyGetter d.keySpec obj)) = true
      · rw [if_pos h3] at h
        exact (Except.error.inj h).symm
      · rw [if_neg h3] at h
        exact Except.noConfusion h
    · rw [if_neg h2] at h
      exact Except.noConfusion h
  · rw [if_neg h1] at h
    by_cases h2 : d.kind = "range"
    · rw [if_pos h2] at h
      exact Except.noConfusion h
    · rw [if_neg h2] at h
      by_cases h3 : d.kind = "prefix"
      · rw [if_pos h3] at h
        exact Except.noConfusion h
      · rw [if_neg h3] at h
        exact Except.noConfusion h

theorem addAll_error {pk : String} {obj : Val} :
    ∀ {idxs : List (String × IndexDef)} {e : Err}
    {idxs2 : List (String × IndexDef)},
    addAll pk obj idxs = (.error e, idxs2) → e = .uniqueConstraintViolation := by
  intro idxs
  induction idxs with
  | nil =>
    intro e idxs2 h
    simp only [addAll] at h
    exact Except.noConfusion (congrArg Prod.fst h)
  | cons p rest ih =>
    intro e idxs2 h
    simp only [addAll] at h
    cases hadd : addToIndex pk p.2 obj with
    | error e2 =>
      rw [hadd] at h
      have he : e2 = e := Except.error.inj (congrArg Prod.fst h)
      rw [← he]
      exact addToIndex_error hadd
    | ok d2 =>
      rw [hadd] at h
      cases hrec : addAll pk obj rest with
      | mk r rest2 =>
        rw [hrec] at h
        cases r with
        | error e2 =>
          have he : e2 = e := Except.error.inj (congrArg Prod.fst h)
          rw [← he]
          exact ih hrec
        | ok u => exact Except.noConfusion (congrArg Prod.fst h)

/-- C1: on a value-sorted range index whose comparator is lawful on a
domain containing the stored keys and the bounds, `between` returns
exactly the records whose composite key passes both bound checks (the
bound included exactly under the corresponding inclusivity flag), and
no others. -/
theorem C1_between_exact {Q : Val → Prop} {c : Coll} {nm : String}
    {idx : IndexDef} (hidx : alGet strBeq c.indexes nm = some idx)
    (hkind : idx.kind = "range")
    (L : LawfulCmpOn Q (compositeCompare idx.compare))
    (hsorted : idx.rangeArr.Pairwise
      (fun a b => compositeCompare idx.compare a.value b.value ≤ 0))
    (hdom : ∀ e ∈ idx.rangeArr, Q e.value)
    {min max : Val} (hQmin : Q min) (hQmax : Q max) (iMin iMax : Bool) :
    between c nm min max iMin iMax =
      .ok ((idx.rangeArr.filter (betweenPred idx.compare min max iMin iMax)).map
        (fun e => (alGet jsStrictEq c.items e.id).getD vundef)) := by
  have hreq : requireIndex c nm (some "range") = .ok idx := by
    unfold requireIndex
    rw [hidx]
    dsimp only
    rw [if_pos hkind]
  unfold between
  rw [hreq]
  dsimp only
  rw [betweenEntries_eq_filter L idx.rangeArr min max hQmin hQmax iMin iMax
    hsorted hdom]

theorem C1_witness :
    between C1coll "byAge" (vint 25) (vint 35) true true =
      .ok ((C1idx.rangeArr.filter
        (betweenPred C1idx.compare (vint 25) (vint 35) true true)).map
        (fun e => (alGet jsStrictEq C1coll.items e.id).getD vundef)) := by
  refine @C1_between_exact IsIntVal C1coll "byAge" C1idx rfl rfl cmpIntLawful
    ?_ ?_ (vint 25) (vint 35) ⟨25, rfl⟩ ⟨35, rfl⟩ true true
  · show List.Pairwise _ C1idx.rangeArr
    decide
  · intro e he
    simp only [C1idx, List.mem_cons, List.not_mem_nil, or_false] at he
    rcases he with rfl | rfl | rfl <;> exact ⟨_, rfl⟩

/-- C2 (amended): for a unique equality definition, `addToIndex` fails
with `uniqueConstraintViolation` exactly when the canonical key string
is already present in the map — regardless of which id it maps to —
and sets the mapping otherwise. -/
theorem C2_unique_add {pk : String} {d : IndexDef} {obj : Val}
    (hk : d.kind = "eq") (hu : d.unique = true) :
    (addToIndex pk d obj = .error .uniqueConstraintViolation ↔
      alHas strOptBeq d.eqMap (canonicalKey (keyGetter d.keySpec obj)) = true) ∧
    (alHas strOptBeq d.eqMap (canonicalKey (keyGetter d.keySpec obj)) = false →
      addToIndex pk d obj = .ok { d with eqMap := (alSet strOptBeq d.eqMap
        (canonicalKey (keyGetter d.keySpec obj)) (.sid (jsGetField obj pk))) }) := by
  unfold addToIndex
  rw [if_pos hk, if_pos hu]
  by_cases h3 : alHas strOptBeq d.eqMap
      (canonicalKey (keyGetter d.keySpec obj)) = true
  · rw [if_pos h3]
    exact ⟨⟨fun _ => h3, fun _ => rfl⟩, fun hc => absurd h3 (by simp [hc])⟩
  · rw [if_neg h3]
    exact ⟨⟨fun h => Except.noConfusion h, fun hc => absurd hc h3⟩, fun _ => rfl⟩

theorem C2_witness :
    (addToIndex "id" C2def (vobj [("id", vint 9), ("k", vint 7)]) =
        .error .uniqueConstraintViolation ↔
      alHas strOptBeq C2def.eqMap (canonicalKey (keyGetter C2def.keySpec
        (vobj [("id", vint 9), ("k", vint 7)]))) = true) ∧
    (alHas strOptBeq C2def.eqMap (canonicalKey (keyGetter C2def.keySpec
        (vobj [("id", vint 9), ("k", vint 7)]))) = false →
      addToIndex "id" C2def (vobj [("id", vint 9), ("k", vint 7)]) =
        .ok { C2def with eqMap := (alSet strOptBeq C2def.eqMap
          (canonicalKey (keyGetter C2def.keySpec
            (vobj [("id", vint 9), ("k", vint 7)])))
          (.sid (jsGetField (vobj [("id", vint 9), ("k", vint 7)]) "id"))) }) :=
  C2_unique_add rfl rfl

/-- C2 counterexample: the stored key "1" maps to the very id 5 of the
record being added, yet the addition still fails — the source checks
only key presence, not whether the mapped id differs. -/
theorem C2_counterexample :
    alGet strOptBeq C2def.eqMap (canonicalKey (keyGetter C2def.keySpec C2obj)) =
      some (.sid (jsGetField C2obj "id")) ∧
    addToIndex "id" C2def C2obj = .error .uniqueConstraintViolation :=
  ⟨rfl, rfl⟩

/-- C10: the two precondition failures of `insert` are raised before
any mutation, so the collection — record store, all index storages and
the snapshot stack — is returned exactly as it was; and any other
`insert` error is a unique-constraint violation, so these are the only
two errors the guards produce. -/
theorem C10_insert_atomic {c : Coll} {obj : Val} :
    (jsLooseNull (jsGetField obj c.primaryKey) = true →
      insert c obj = (.error .missingPrimaryKey, c)) ∧
    (jsLooseNull (jsGetField obj c.primaryKey) = false →
      alHas jsStrictEq c.items (jsGetField obj c.primaryKey) = true →
      insert c obj = (.error .duplicatePrimaryKey, c)) ∧
    (∀ e : Err, (insert c obj).1 = .error e →
      e = .missingPrimaryKey ∨ e = .duplicatePrimaryKey →
      (insert c obj).2 = c) := by
  refine ⟨?_, ?_, ?_⟩
  · intro h1
    unfold insert
    rw [if_pos h1]
  · intro h1 h2
    unfold insert
    rw [if_neg (by simp [h1]), if_pos h2]
  · intro e he hdisj
    unfold insert at he ⊢
    by_cases h1 : jsLooseNull (jsGetField obj c.primaryKey) = true
    · rw [if_pos h1]
    · rw [if_neg h1] at he ⊢
      by_cases h2 : alHas jsStrictEq c.items (jsGetField obj c.primaryKey) = true
      · rw [if_pos h2]
      · rw [if_neg h2] at he ⊢
        dsimp only at he ⊢
        cases hrec : addAll c.primaryKey obj c.indexes with
        | mk r idxs2 =>
          rw [hrec] at he
          cases r with
          | ok u => exact Except.noConfusion he
          | error e2 =>
            have he2 : e2 = e := by
              simp only [Except.map] at he
              exact Except.error.inj he
            have := addAll_error hrec
            rw [he2] at this
            rcases hdisj with rfl | rfl <;> exact Err.noConfusion this

theorem C10_witness :
    insert (mkColl "id") (vobj [("name", vstr "x")]) =
      (.error .missingPrimaryKey, mkColl "id") :=
  (@C10_insert_atomic (mkColl "id") (vobj [("name", vstr "x")])).1 rfl

/-- C3: in every state reached from an empty collection by successful
`defineIndex`/`insert`/`update`/`remove` operations (with integer ids
and comparators lawful on the keys they are fed), every range
definition's backing array is sorted under the composite comparator
with the record id as final tie-break, and its entries correspond
one-to-one to the records of the primary store. -/
theorem C3_range_invariant {Q : Val → Prop} {c : Coll} (hreach : ReachOk Q c)
    {nm : String} {d : IndexDef} (hmem : (nm, d) ∈ c.indexes)
    (hkind : d.kind = "range") :
    d.rangeArr.Pairwise (fun a b => entryCmpFn d.compare a b ≤ 0) ∧
    d.rangeArr.Perm (c.items.map (fun q => rangeNode c.primaryKey d q.2)) := by
  have I := inv_of_reach hreach
  exact ⟨(I.rdefs (nm, d) hmem hkind).sorted, (I.rdefs (nm, d) hmem hkind).perm⟩

theorem C3_witness :
    WidxAge.rangeArr.Pairwise (fun a b => entryCmpFn WidxAge.compare a b ≤ 0) ∧
    WidxAge.rangeArr.Perm (Wc4.items.map
      (fun q => rangeNode Wc4.primaryKey WidxAge q.2)) :=
  C3_range_invariant Wreach WmemAge rfl

/-- C4 (amended): in every successfully reached state, for every
NONEMPTY prefix string, `startsWith` returns exactly the records whose
derived key string has the prefix, each exactly once, in the trie
node's id order. -/
theorem C4_startsWith_exact {Q : Val → Prop} {c : Coll} (hreach : ReachOk Q c)
    {nm : String} {d : IndexDef} (hmem : (nm, d) ∈ c.indexes)
    (hkind : d.kind = "prefix") {p : String} (hp : p.data ≠ []) :
    startsWith c nm p =
      .ok ((idsAt d.trieRoot p.data).map
        (fun i => (alGet jsStrictEq c.items i).getD vundef)) ∧
    (idsAt d.trieRoot p.data).Nodup ∧
    (∀ x, x ∈ idsAt d.trieRoot p.data ↔
      ∃ q ∈ c.items, x = q.1 ∧ strPfx p.data (trieStr d q.2).data = true) := by
  have I := inv_of_reach hreach
  have hget : alGet strBeq c.indexes nm = some d :=
    alGet_of_mem_nodup strBeq_lawful (fun _ _ => trivial) I.names hmem
  have hreq : requireIndex c nm (some "prefix") = .ok d := by
    unfold requireIndex
    rw [hget]
    dsimp only
    rw [if_pos hkind]
  refine ⟨?_, (I.tdefs (nm, d) hmem hkind).nodup p.data hp,
    (I.tdefs (nm, d) hmem hkind).corr p.data hp⟩
  unfold startsWith
  rw [hreq]
  dsimp only
  cases hfind : trieFindNode d.trieRoot (valueToString (vstr p)) with
  | none =>
    have hids : idsAt d.trieRoot p.data = [] := by
      unfold idsAt
      rw [show trieFindNodeL d.trieRoot p.data = none from hfind]
    rw [hids]
    rfl
  | some node =>
    have hids : idsAt d.trieRoot p.data = node.ids := by
      unfold idsAt
      rw [show trieFindNodeL d.trieRoot p.data = some node from hfind]
    rw [hids]

theorem C4_witness :
    startsWith Wc4 "byName" "bo" =
      .ok ((idsAt WidxName.trieRoot "bo".data).map
        (fun i => (alGet jsStrictEq Wc4.items i).getD vundef)) ∧
    (idsAt WidxName.trieRoot "bo".data).Nodup ∧
    (∀ x, x ∈ idsAt WidxName.trieRoot "bo".data ↔
      ∃ q ∈ Wc4.items, x = q.1 ∧
        strPfx "bo".data (trieStr WidxName q.2).data = true) :=
  C4_startsWith_exact Wreach WmemName rfl (by decide)

/-- C4 counterexample: in a reachable two-record state every record's
derived string has the empty string as a literal character prefix, yet
`startsWith` with the empty prefix returns no records — the root node
of the trie never receives ids, so the empty path finds an empty id
set. -/
theorem C4_counterexample :
    ReachAny Wc4 ∧ size Wc4 = 2 ∧
    (∀ q ∈ Wc4.items, strPfx "".data (trieStr WidxName q.2).data = true) ∧
    startsWith Wc4 "byName" "" = .ok [] :=
  ⟨WreachAny, rfl, by decide, rfl⟩

/-- C6: in every reachable state — whatever the operation outcomes —
no node of a prefix definition's trie reachable from the root along a
nonempty path has both an empty id set and an empty child map; the
root itself always survives. -/
theorem C6_trie_pruned {c : Coll} (hreach : ReachAny c) {nm : String}
    {d : IndexDef} (hmem : (nm, d) ∈ c.indexes) (hkind : d.kind = "prefix") :
    TrieOk d.trieRoot :=
  trieInvAll_reach hreach (nm, d) hmem hkind

theorem C6_witness : TrieOk WidxName.trieRoot :=
  C6_trie_pruned WreachAny WmemName rfl

/-- C5 (amended): serializing a successfully deserialized payload gives
the payload back, so the round trip is idempotent from the first
replay on: `deserialize` then `serialize` is the identity on payloads,
and a second `deserialize ∘ serialize` round trip is the identity on
the replayed collection. -/
theorem C5_roundtrip_idempotent {p : Payload} {s : Coll}
    (h : deserializePayload p = .ok s) :
    serializePayload s = p ∧
    deserializePayload (serializePayload s) = .ok s := by
  have h2 := serialize_deserialize h
  refine ⟨h2, ?_⟩
  rw [h2]
  exact h

theorem C5_witness :
    serializePayload C5res = C5pay ∧
    deserializePayload (serializePayload C5res) = .ok C5res :=
  C5_roundtrip_idempotent (show deserializePayload C5pay = .ok C5res from rfl)

/-- C5 counterexample: a collection whose range index carries a custom
comparator (largest first).  The comparator is not serialized, the
replay falls back to the default comparator, and `between` then
answers differently on the same data: the original returns no records
in [1, 2], the round-tripped collection returns both. -/
theorem C5_counterexample :
    deserializePayload (serializePayload X5c3) = .ok X5r ∧
    between X5c3 "byAge" (vint 1) (vint 2) true true = .ok [] ∧
    between X5r "byAge" (vint 1) (vint 2) true true =
      .ok [vobj [("id", vint 1), ("age", vint 1)],
           vobj [("id", vint 2), ("age", vint 2)]] ∧
    size X5r = size X5c3 :=
  ⟨rfl, by decide, by decide, rfl⟩

/-- C7: for a stored record `prev` under `id`, `update` installs the
merge (fields of a plain-mapping argument override, other fields of
`prev` are retained, the primary-key field is forced back to `id`) or
the argument itself when it is not a plain mapping; the index map is
rewritten by first removing the OLD record's entries, computed from
`prev`, and then re-adding the new record. -/
theorem C7_update_semantics {c : Coll} {id arg prev : Val}
    (hget : alGet jsStrictEq c.items id = some prev) :
    (update c id arg).2.items = alSet jsStrictEq c.items id
      (if isPlainObject arg then mergeRecord c.primaryKey prev arg id else arg) ∧
    (update c id arg).2.indexes = (addAll c.primaryKey
      (if isPlainObject arg then mergeRecord c.primaryKey prev arg id else arg)
      (c.indexes.map (fun p => (p.1, removeFromIndex c.primaryKey p.2 prev)))).2 ∧
    (update c id arg).1 = (addAll c.primaryKey
      (if isPlainObject arg then mergeRecord c.primaryKey prev arg id else arg)
      (c.indexes.map (fun p => (p.1, removeFromIndex c.primaryKey p.2 prev)))).1.map
      (fun _ => if isPlainObject arg then mergeRecord c.primaryKey prev arg id
        else arg) ∧
    (∀ pfs, arg = vobj pfs → (pfs.map Prod.fst).Nodup →
      jsGetField (mergeRecord c.primaryKey prev arg id) c.primaryKey = id ∧
      ∀ f, f ≠ c.primaryKey →
        jsGetField (mergeRecord c.primaryKey prev arg id) f =
          (match alGet strBeq pfs f with
           | some v => v
           | none => jsGetField prev f)) := by
  have hstep : update c id arg =
      ((addAll c.primaryKey
          (if isPlainObject arg then mergeRecord c.primaryKey prev arg id else arg)
          (c.indexes.map (fun p =>
            (p.1, removeFromIndex c.primaryKey p.2 prev)))).1.map
        (fun _ => if isPlainObject arg then mergeRecord c.primaryKey prev arg id
          else arg),
       { c with
         items := alSet jsStrictEq c.items id
           (if isPlainObject arg then mergeRecord c.primaryKey prev arg id
             else arg),
         indexes := (addAll c.primaryKey
           (if isPlainObject arg then mergeRecord c.primaryKey prev arg id
             else arg)
           (c.indexes.map (fun p =>
             (p.1, removeFromIndex c.primaryKey p.2 prev)))).2 }) := by
    unfold update
    rw [hget]
  refine ⟨by rw [hstep], by rw [hstep], by rw [hstep], ?_⟩
  intro pfs harg hnodup
  subst harg
  exact ⟨mergeRecord_pk c.primaryKey prev (vobj pfs) id,
    fun f hf => mergeRecord_field hf hnodup⟩

theorem C7_witness :
    (update Wc4 (vint 1) (vobj [("age", vint 33)])).2.items =
      alSet jsStrictEq Wc4.items (vint 1)
        (if isPlainObject (vobj [("age", vint 33)]) then
          mergeRecord Wc4.primaryKey Wobj1 (vobj [("age", vint 33)]) (vint 1)
          else vobj [("age", vint 33)]) ∧
    jsGetField (mergeRecord Wc4.primaryKey Wobj1 (vobj [("age", vint 33)])
      (vint 1)) Wc4.primaryKey = vint 1 :=
  ⟨(@C7_update_semantics Wc4 (vint 1) (vobj [("age", vint 33)]) Wobj1 rfl).1,
   ((@C7_update_semantics Wc4 (vint 1) (vobj [("age", vint 33)]) Wobj1
       rfl).2.2.2 [("age", vint 33)] rfl (by decide)).1⟩

/-- C8: `rollback` returns `false` and leaves the collection untouched
on an empty snapshot stack; and after `snapshot` then `remove`, a
`rollback` on a serializable collection returns `true` and restores
the record store — contents, size and primary key — exactly to the
pre-removal state, popping the snapshot. -/
theorem C8_rollback {c : Coll}
    (hid : ∀ q ∈ c.items, jsGetField q.2 c.primaryKey = q.1)
    {r0 : Coll} (hser : deserializePayload (serializePayload c) = .ok r0)
    (id : Val) :
    (∀ c0 : Coll, c0.snaps = [] → rollback c0 = (.ok false, c0)) ∧
    (rollback (remove (snapshot c).2 id).2).1 = .ok true ∧
    (rollback (remove (snapshot c).2 id).2).2.items = c.items ∧
    size (rollback (remove (snapshot c).2 id).2).2 = size c ∧
    (rollback (remove (snapshot c).2 id).2).2.primaryKey = c.primaryKey ∧
    (rollback (remove (snapshot c).2 id).2).2.snaps = c.snaps := by
  obtain ⟨hitems0, hpk0⟩ := replay_items_exact hid hser
  have hempty : ∀ c0 : Coll, c0.snaps = [] → rollback c0 = (.ok false, c0) := by
    intro c0 h0
    unfold rollback
    rw [h0]
  have hsn1 : (snapshot c).2.snaps = serializePayload c :: c.snaps := rfl
  have hsnaps2 : (remove (snapshot c).2 id).2.snaps =
      serializePayload c :: c.snaps := by
    rcases remove_shape (show remove (snapshot c).2 id =
        ((remove (snapshot c).2 id).1, (remove (snapshot c).2 id).2) from rfl)
      with ⟨_, heq, _⟩ | ⟨_, prev, _, _, _, _, hsn⟩
    · rw [heq, hsn1]
    · rw [hsn, hsn1]
  have hroll : rollback (remove (snapshot c).2 id).2 =
      (.ok true, ⟨r0.primaryKey, r0.items, r0.indexes, c.snaps⟩) := by
    unfold rollback
    rw [hsnaps2]
    dsimp only
    rw [hser]
  refine ⟨hempty, ?_, ?_, ?_, ?_, ?_⟩
  · rw [hroll]
  · rw [hroll]
    exact hitems0
  · rw [hroll]
    show r0.items.length = c.items.length
    rw [hitems0]
  · rw [hroll]
    exact hpk0
  · rw [hroll]

theorem C8_witness :
    rollback (mkColl "id") = (.ok false, mkColl "id") ∧
    (rollback (remove (snapshot Wc4).2 (vint 1)).2).1 = .ok true ∧
    (rollback (remove (snapshot Wc4).2 (vint 1)).2).2.items = Wc4.items ∧
    size (rollback (remove (snapshot Wc4).2 (vint 1)).2).2 = size Wc4 := by
  have h := @C8_rollback Wc4 (by decide) W8r rfl (vint 1)
  exact ⟨h.1 (mkColl "id") rfl, h.2.1, h.2.2.1, h.2.2.2.1⟩

/-! ### Raw key values with the IEEE special numbers

In `Val`, JS numbers are modelled by their finite integer values.  For
the canonicalization analysis the IEEE special values matter:
`JSON.stringify` renders `NaN`, `Infinity` and `-Infinity` as `null`,
so distinguishable raw key values can share a canonical key string.
`JNum`/`JVal` extend the raw key values with those numbers, and
`jsonStringifyE` is `JSON.stringify` on them; on values without
special numbers it agrees with `jsonStringify` (via `toVal`). -/

inductive JNum where
  | fin (n : Int)
  | nan
  | inf
  | ninf

inductive JVal where
  | jnull
  | jundef
  | jnum (n : JNum)
  | jbool (b : Bool)
  | jstr (s : String)
  | jarr (xs : List JVal)

/-- JSON.stringify on raw key values, special numbers included: a
non-finite number serializes as `null` (both at top level and inside
arrays), exactly as in JS. -/
def jsonStringifyE : JVal → Option String
  | .jundef => none
  | .jnull => some "null"
  | .jnum (.fin n) => some (intDec n)
  | .jnum .nan => some "null"
  | .jnum .inf => some "null"
  | .jnum .ninf => some "null"
  | .jbool b => some (cond b "true" "false")
  | .jstr s => some (jsonQuote s)
  | .jarr xs => some ("[" ++ String.intercalate "," (arrPartsE xs) ++ "]")
where
  arrPartsE : List JVal → List String
    | [] => []
    | x :: xs => ((jsonStringifyE x).getD "null") :: arrPartsE xs
termination_by structural v => v

/-- canonicalKey on raw key values with the special numbers kept. -/
def canonicalKeyE (v : JVal) : Option String := jsonStringifyE v

/-- Scalar raw key values whose number, if any, is finite. -/
def ScalarKE (v : JVal) : Prop :=
  v = .jnull ∨ (∃ n, v = .jnum (.fin n)) ∨ (∃ b, v = .jbool b) ∨
    (∃ s, v = .jstr s)

/-- The finite-number key domain: scalars and flat (ordered) sequences
of scalars, every number finite. -/
def KeyDomE (v : JVal) : Prop :=
  ScalarKE v ∨ ∃ l, v = .jarr l ∧ ∀ x ∈ l, ScalarKE x

/-- The evident map into the finite-number model. -/
def toVal : JVal → Val
  | .jnull => vnull
  | .jundef => vundef
  | .jnum (.fin n) => vint n
  | .jnum .nan => vnull
  | .jnum .inf => vnull
  | .jnum .ninf => vnull
  | .jbool b => vbool b
  | .jstr s => vstr s
  | .jarr xs => varr (toValL xs)
where
  toValL : List JVal → List Val
    | [] => []
    | x :: xs => toVal x :: toValL xs
termination_by structural v => v

theorem toValL_map : ∀ (xs : List JVal), toVal.toValL xs = xs.map toVal := by
  intro xs
  induction xs with
  | nil => rfl
  | cons x rest ih =>
    show toVal x :: toVal.toValL rest = _
    rw [ih]
    rfl

theorem toVal_inj_scalar {v w : JVal} (hv : ScalarKE v) (hw : ScalarKE w) :
    toVal v = toVal w → v = w := by
  rcases hv with rfl | ⟨n, rfl⟩ | ⟨b, rfl⟩ | ⟨s, rfl⟩ <;>
    rcases hw with rfl | ⟨m, rfl⟩ | ⟨c, rfl⟩ | ⟨t, rfl⟩ <;>
    intro h <;> simp [toVal] at h <;> first | rfl | rw [h]

theorem toVal_map_inj : ∀ (l m : List JVal), (∀ x ∈ l, ScalarKE x) →
    (∀ x ∈ m, ScalarKE x) → l.map toVal = m.map toVal → l = m := by
  intro l
  induction l with
  | nil =>
    intro m _ _ h
    cases m with
    | nil => rfl
    | cons y ys => simp at h
  | cons x xs ih =>
    intro m hl hm h
    cases m with
    | nil => simp at h
    | cons y ys =>
      simp only [List.map_cons, List.cons.injEq] at h
      have hx := toVal_inj_scalar (hl x (by simp)) (hm y (by simp)) h.1
      have hrest := ih ys (fun z hz => hl z (by simp [hz]))
        (fun z hz => hm z (by simp [hz])) h.2
      rw [hx, hrest]

theorem toVal_inj_keyDom {v w : JVal} (hv : KeyDomE v) (hw : KeyDomE w) :
    toVal v = toVal w → v = w := by
  rcases hv with hv | ⟨l, rfl, hl⟩
  · rcases hw with hw | ⟨m, rfl, hm⟩
    · exact toVal_inj_scalar hv hw
    · intro h
      exfalso
      rcases hv with rfl | ⟨n, rfl⟩ | ⟨b, rfl⟩ | ⟨s, rfl⟩ <;> simp [toVal] at h
  · rcases hw with hw | ⟨m, rfl, hm⟩
    · intro h
      exfalso
      rcases hw with rfl | ⟨n, rfl⟩ | ⟨b, rfl⟩ | ⟨s, rfl⟩ <;> simp [toVal] at h
    · intro h
      simp only [toVal, toValL_map] at h
      injection h with h2
      rw [toVal_map_inj l m hl hm h2]

theorem keyDom_toVal {v : JVal} (h : KeyDomE v) : KeyDom (toVal v) := by
  rcases h with hsc | ⟨l, rfl, hl⟩
  · left
    rcases hsc with rfl | ⟨n, rfl⟩ | ⟨b, rfl⟩ | ⟨s, rfl⟩
    · exact Or.inl rfl
    · exact Or.inr (Or.inl ⟨n, rfl⟩)
    · exact Or.inr (Or.inr (Or.inl ⟨b, rfl⟩))
    · exact Or.inr (Or.inr (Or.inr ⟨s, rfl⟩))
  · right
    refine ⟨toVal.toValL l, rfl, ?_⟩
    intro x hx
    rw [toValL_map] at hx
    rcases List.mem_map.mp hx with ⟨y, hy, rfl⟩
    rcases hl y hy with rfl | ⟨n, rfl⟩ | ⟨b, rfl⟩ | ⟨s, rfl⟩
    · exact Or.inl rfl
    · exact Or.inr (Or.inl ⟨n, rfl⟩)
    · exact Or.inr (Or.inr (Or.inl ⟨b, rfl⟩))
    · exact Or.inr (Or.inr (Or.inr ⟨s, rfl⟩))

theorem jsonStringifyE_toVal_scalar {v : JVal} (h : ScalarKE v) :
    jsonStringifyE v = jsonStringify (toVal v) := by
  rcases h with rfl | ⟨n, rfl⟩ | ⟨b, rfl⟩ | ⟨s, rfl⟩ <;> rfl

theorem arrPartsE_toVal : ∀ (xs : List JVal), (∀ x ∈ xs, ScalarKE x) →
    jsonStringifyE.arrPartsE xs = jsonStringify.arrParts (toVal.toValL xs) := by
  intro xs
  induction xs with
  | nil => intro _; rfl
  | cons x rest ih =>
    intro h
    show ((jsonStringifyE x).getD "null") :: jsonStringifyE.arrPartsE rest = _
    rw [jsonStringifyE_toVal_scalar (h x (by simp)),
      ih (fun z hz => h z (by simp [hz]))]
    rfl

theorem canonicalKeyE_toVal {v : JVal} (h : KeyDomE v) :
    canonicalKeyE v = canonicalKey (toVal v) := by
  rcases h with hsc | ⟨l, rfl, hl⟩
  · exact jsonStringifyE_toVal_scalar hsc
  · show some ("[" ++ String.intercalate ","
      (jsonStringifyE.arrPartsE l) ++ "]") = _
    rw [arrPartsE_toVal l hl]
    rfl

/-- C9 (amended): on raw key values whose numbers are finite — the
serializable scalars null, booleans, finite numbers and strings, and
flat ordered sequences of such scalars — canonical key strings
coincide exactly when the values are equal element-wise and type-wise.
The finiteness restriction is necessary: JSON.stringify renders the
pairwise distinguishable values NaN, Infinity and -Infinity as the
string "null", identically to null itself (see the counterexample), so
the universal claim fails on those numbers. -/
theorem C9_canonical_inj {v w : JVal} (hv : KeyDomE v) (hw : KeyDomE w) :
    canonicalKeyE v = canonicalKeyE w ↔ v = w := by
  constructor
  · intro h
    rw [canonicalKeyE_toVal hv, canonicalKeyE_toVal hw] at h
    exact toVal_inj_keyDom hv hw
      ((canonicalKey_inj_keyDom (keyDom_toVal hv) (keyDom_toVal hw)).mp h)
  · intro h
    rw [h]

theorem C9_witness :
    (canonicalKeyE (.jarr [.jnum (.fin 1), .jstr "a"]) =
        canonicalKeyE (.jstr "1,a") ↔
      JVal.jarr [.jnum (.fin 1), .jstr "a"] = .jstr "1,a") :=
  C9_canonical_inj
    (Or.inr ⟨[.jnum (.fin 1), .jstr "a"], rfl, by
      intro x hx
      rcases List.mem_cons.mp hx with rfl | hx2
      · exact Or.inr (Or.inl ⟨1, rfl⟩)
      · rcases List.mem_singleton.mp hx2 with rfl
        exact Or.inr (Or.inr (Or.inr ⟨"a", rfl⟩))⟩)
    (Or.inl (Or.inr (Or.inr (Or.inr ⟨"1,a", rfl⟩))))

/-- C9 counterexample: NaN, Infinity and null are pairwise
distinguishable raw scalar key values, yet JSON.stringify gives all
three the same canonical key string "null", so the eq index conflates
them. -/
theorem C9_counterexample :
    canonicalKeyE (.jnum .nan) = canonicalKeyE .jnull ∧
    canonicalKeyE (.jnum .inf) = canonicalKeyE .jnull ∧
    canonicalKeyE (.jnum .nan) = canonicalKeyE (.jnum .inf) ∧
    JVal.jnum .nan ≠ .jnull ∧
    JVal.jnum .inf ≠ .jnull ∧
    JVal.jnum .nan ≠ .jnum .inf := by
  refine ⟨rfl, rfl, rfl, ?_, ?_, ?_⟩ <;> (intro h; simp at h)

end Querium
